import Mathlib

/-!
Verification of the iCalendar (RFC 5545) two-way codec library against its
natural-language specification.

The TypeScript sources are shallowly embedded:
  * JavaScript strings are `List Char` (`JSStr`); string builtins
    (`trim`, `slice`, `split`, `toUpperCase`, `padStart`, `replace`, ...)
    are modelled as executable Lean functions on `List Char`.
  * JavaScript numbers that the library stores are either integers obtained
    from `parseInt`/`Number` (modelled exactly as `Option Int`, `none` = NaN,
    written `JSNum`) or floats obtained from `parseFloat` (modelled as exact
    canonical decimals, `JSDec`); IEEE-754 rounding is idealised away, which
    is sound for the digit strings the library itself produces.
  * Functions that can `throw` return `Except String _`; callers that
    `try/catch` pattern-match on the result.
  * UTF-16-level code (octet counting and line folding walk `charCodeAt`
    and surrogate pairs explicitly) is embedded over `List Nat` of UTF-16
    code units, so that lone surrogates are representable.
Each definition carries a comment naming the source location it embeds.
-/

set_option maxRecDepth 20000

namespace ICal

/-- A JavaScript string, modelled as its list of characters. -/
abbrev JSStr := List Char

/-- Coerce a Lean string literal to the `JSStr` model. -/
def js (s : String) : JSStr := s.data

/-- Whitespace as recognised by JS `trim` / `parseInt` (the code points the
library can actually meet: space, tab, LF, CR, FF, VT). -/
def isJsWS (c : Char) : Bool :=
  c = ' ' || c = '\t' || c = '\n' || c = '\r' || c = '\x0b' || c = '\x0c'

/-- JS `String.prototype.trim`. -/
def jsTrim (s : JSStr) : JSStr :=
  ((s.dropWhile isJsWS).reverse.dropWhile isJsWS).reverse

/-- JS `String.prototype.toUpperCase` (ASCII range, which is all the library
feeds it). -/
def jsUpper (s : JSStr) : JSStr := s.map Char.toUpper

/-- JS `s.slice(a, b)` for non-negative indices. -/
def jsSlice (s : JSStr) (a b : Nat) : JSStr := (s.take b).drop a

/-- JS `s.slice(a)` (to the end). -/
def jsSliceFrom (s : JSStr) (a : Nat) : JSStr := s.drop a

/-- One-character-pattern global `String.replace`: every character satisfying
`t` is replaced by the string `r`. -/
def replace1 (t : Char → Bool) (r : JSStr) (s : JSStr) : JSStr :=
  (s.map (fun c => if t c then r else [c])).flatten

/-- Two-character-pattern global `String.replace` (left-to-right,
non-overlapping): every adjacent pair satisfying `t` is replaced by `r`. -/
def replace2 (t : Char → Char → Bool) (r : JSStr) : JSStr → JSStr
  | [] => []
  | [c] => [c]
  | c₁ :: c₂ :: rest =>
    if t c₁ c₂ then r ++ replace2 t r rest
    else c₁ :: replace2 t r (c₂ :: rest)

-- ── JS numbers (integer-or-NaN) ──────────────────────────────────────────

/-- A JS number as stored by the integer-producing builtins: an integer, or
NaN (`none`). -/
abbrev JSNum := Option Int

/-- JS truthiness of a number: NaN and 0 are falsy. -/
def jsTruthyNum : JSNum → Bool
  | none => false
  | some i => i != 0

/-- Truthiness of an optional numeric field (`undefined`, NaN and 0 falsy). -/
def jsTruthyField : Option JSNum → Bool
  | none => false
  | some n => jsTruthyNum n

/-- Decimal digit character for `d < 10`. -/
def digitCh (d : Nat) : Char := Char.ofNat (48 + d)

/-- Numeric value of a decimal digit character, if it is one. -/
def charDigit? (c : Char) : Option Nat :=
  if '0' ≤ c ∧ c ≤ '9' then some (c.toNat - 48) else none

/-- Little-endian decimal digits of `n` (fuel-driven so that it reduces in
the kernel; any `fuel ≥ n` is exact). -/
def natDigitsRev (fuel : Nat) (n : Nat) : List Nat :=
  match fuel with
  | 0 => []
  | f + 1 => if n = 0 then [] else n % 10 :: natDigitsRev f (n / 10)

/-- Big-endian decimal digits of `n` (with `[0]` for zero). -/
def natDigitsBE (n : Nat) : List Nat :=
  if n = 0 then [0] else (natDigitsRev n n).reverse

/-- Decimal rendering of a natural number, as JS `String(n)` produces it. -/
def natChars (n : Nat) : JSStr := (natDigitsBE n).map digitCh

/-- JS `String(i)` for an integer. -/
def intChars : Int → JSStr
  | Int.ofNat n => natChars n
  | Int.negSucc m => '-' :: natChars (m + 1)

/-- JS `String(n)` for an integer-or-NaN number. -/
def jsNumChars : JSNum → JSStr
  | none => js "NaN"
  | some i => intChars i

/-- JS `String.prototype.padStart(w, c)`. -/
def padStartCh (s : JSStr) (w : Nat) (c : Char) : JSStr :=
  List.replicate (w - s.length) c ++ s

/-- Longest decimal-digit-valued run at the front of the string, together
with the rest. -/
def takeDigits : JSStr → (List Nat × JSStr)
  | [] => ([], [])
  | c :: rest =>
    match charDigit? c with
    | some d =>
      let (ds, r) := takeDigits rest
      (d :: ds, r)
    | none => ([], c :: rest)

/-- Value of a big-endian decimal digit list, the way a left-to-right parse
accumulates it. -/
def digitsVal (ds : List Nat) : Nat := ds.foldl (fun a d => 10 * a + d) 0

/-- JS `parseInt(s, 10)`: skip leading whitespace, optional sign, longest
digit prefix; NaN if no digit is found. -/
def parseIntJS (s : JSStr) : JSNum :=
  let t := s.dropWhile isJsWS
  let neg := t.head? = some '-'
  let u := if t.head? = some '-' ∨ t.head? = some '+' then t.tail else t
  let ds := (takeDigits u).1
  if ds.isEmpty then none
  else if neg then some (-(digitsVal ds : Int))
  else some (digitsVal ds : Int)

/-- JS `Number(s)` restricted to the integral strings the library itself
produces and consumes: trimmed empty string is 0, otherwise an optional sign
followed by digits only.  (Fractional or exponent forms, which the RECUR
integer-list grammar never emits, are modelled as NaN.) -/
def numberJS (s : JSStr) : JSNum :=
  let t := jsTrim s
  if t.isEmpty then some 0
  else
    let neg := t.head? = some '-'
    let u := if t.head? = some '-' ∨ t.head? = some '+' then t.tail else t
    let (ds, r) := takeDigits u
    if ds.isEmpty ∨ ¬ r.isEmpty then none
    else if neg then some (-(digitsVal ds : Int))
    else some (digitsVal ds : Int)

-- ── Typed value records (src/types.ts via value-types.ts) ────────────────

/-- ICalDuration (types.ts): signed duration with optional unit fields;
a field is `none` when the unit is absent, `some n` when present with the
JS number `n` (which is itself integer-or-NaN). -/
structure ICalDuration where
  negative : Bool
  weeks : Option JSNum
  days : Option JSNum
  hours : Option JSNum
  minutes : Option JSNum
  seconds : Option JSNum
deriving DecidableEq, Repr

-- ── DURATION codec (src/value-types.ts lines 272-338) ────────────────────

/-- The anchored regex `^(\d+)W$` of DURATION.parse: the whole string is a
non-empty digit run followed by a single `W`. -/
def matchAnchoredWeeks (body : JSStr) : Option Nat :=
  let (ds, r) := takeDigits body
  if ds.isEmpty then none
  else if r = ['W'] then some (digitsVal ds) else none

/-- The unanchored regex `(\d+)X` (leftmost match): scan for the first
maximal digit run that is immediately followed by the character `t` and
return its value.  (Backtracking inside `\d+` cannot help for this pattern,
so leftmost-maximal-run search is exactly the JS semantics.) -/
def findNumBefore (t : Char) : JSStr → Option Nat
  | [] => none
  | c :: rest =>
    match charDigit? c with
    | some d =>
      let (ds, after) := takeDigits rest
      if after.head? = some t then some (digitsVal (d :: ds))
      else findNumBefore t rest
    | none => findNumBefore t rest

/-- JS `s.indexOf(c)` as an optional index. -/
def jsIndexOfCh (c : Char) : JSStr → Option Nat
  | [] => none
  | x :: rest => if x = c then some 0 else (jsIndexOfCh c rest).map (· + 1)

/-- DURATION.parse (value-types.ts:273-309). -/
def DURATION.parse (raw : JSStr) : ICalDuration :=
  let s := jsTrim raw
  let negative := s.head? == some '-'
  let str := match s with
    | c :: rest => if c = '+' ∨ c = '-' then rest else c :: rest
    | [] => []
  if str.head? ≠ some 'P' then
    { negative := negative, weeks := none, days := some (some 0),
      hours := none, minutes := none, seconds := none }
  else
    let body := str.tail
    match matchAnchoredWeeks body with
    | some w =>
      { negative := negative, weeks := some (some (w : Int)), days := none,
        hours := none, minutes := none, seconds := none }
    | none =>
      let days : Option JSNum := (findNumBefore 'D' body).map (fun n => some (n : Int))
      match jsIndexOfCh 'T' body with
      | none =>
        { negative := negative, weeks := none, days := days,
          hours := none, minutes := none, seconds := none }
      | some i =>
        let tp := body.drop (i + 1)
        { negative := negative, weeks := none, days := days,
          hours := (findNumBefore 'H' tp).map (fun n => some (n : Int)),
          minutes := (findNumBefore 'M' tp).map (fun n => some (n : Int)),
          seconds := (findNumBefore 'S' tp).map (fun n => some (n : Int)) }

/-- DURATION.serialize (value-types.ts:310-326).  Note the faithful quirks:
a present-but-zero (or NaN) unit is falsy in JS and is therefore omitted,
and the final `s || sign+'P0D'` fallback tests the string `s`, which always
already contains at least the `P`. -/
def DURATION.serialize (val : ICalDuration) : JSStr :=
  let sign : JSStr := if val.negative then ['-'] else []
  match val.weeks with
  | some w => sign ++ 'P' :: (jsNumChars w ++ ['W'])
  | none =>
    let dPart : JSStr :=
      if jsTruthyField val.days then jsNumChars (val.days.getD none) ++ ['D'] else []
    let hasTime :=
      jsTruthyField val.hours || jsTruthyField val.minutes || jsTruthyField val.seconds
    let tPart : JSStr :=
      if hasTime then
        'T' :: ((if jsTruthyField val.hours then jsNumChars (val.hours.getD none) ++ ['H'] else []) ++
                (if jsTruthyField val.minutes then jsNumChars (val.minutes.getD none) ++ ['M'] else []) ++
                (if jsTruthyField val.seconds then jsNumChars (val.seconds.getD none) ++ ['S'] else []))
      else []
    let s := sign ++ 'P' :: (dPart ++ tPart)
    if s.isEmpty then sign ++ js "P0D" else s

-- ── TEXT codec (src/value-types.ts lines 42-59) ──────────────────────────

/-- TEXT.parse (value-types.ts:43-50): four sequential global replaces, in
source order `\n`-case-insensitive, then `\,`, then `\;`, then `\\`. -/
def TEXT.parse (raw : JSStr) : JSStr :=
  replace2 (fun a b => a == '\\' && b == '\\') ['\\']
    (replace2 (fun a b => a == '\\' && b == ';') [';']
      (replace2 (fun a b => a == '\\' && b == ',') [',']
        (replace2 (fun a b => a == '\\' && (b == 'n' || b == 'N')) ['\n'] raw)))

/-- TEXT.serialize (value-types.ts:51-58): escape `\`, then `;`, then `,`,
then newline (null/undefined handling elided: the embedding passes strings). -/
def TEXT.serialize (v : JSStr) : JSStr :=
  replace1 (· == '\n') ['\\', 'n']
    (replace1 (· == ',') ['\\', ',']
      (replace1 (· == ';') ['\\', ';']
        (replace1 (· == '\\') ['\\', '\\'] v)))

-- ── Parameter maps (JS objects of string or string-list values) ──────────

/-- A parameter value: a bare string or an ordered list of strings. -/
inductive PVal where
  | str (s : JSStr)
  | list (l : List JSStr)
deriving DecidableEq, Repr

/-- A JS object used as a parameter map, modelled as an insertion-ordered
association list; assignment to an existing key overwrites in place. -/
abbrev PMap := List (JSStr × PVal)

/-- JS property read `m[k]`. -/
def pmGet (m : PMap) (k : JSStr) : Option PVal :=
  (m.find? (fun e => e.1 == k)).map (fun e => e.2)

/-- JS property write `m[k] = v`. -/
def pmSet (m : PMap) (k : JSStr) (v : PVal) : PMap :=
  if (m.find? (fun e => e.1 == k)).isSome then
    m.map (fun e => if e.1 == k then (e.1, v) else e)
  else m ++ [(k, v)]

/-- A JS object with plain string values (the RECUR key-value map and the
normalized parameter maps built during tree assembly). -/
abbrev SMap := List (JSStr × JSStr)

/-- JS property read on a string-valued object. -/
def smGet (m : SMap) (k : JSStr) : Option JSStr :=
  (m.find? (fun e => e.1 == k)).map (fun e => e.2)

/-- JS property write on a string-valued object. -/
def smSet (m : SMap) (k : JSStr) (v : JSStr) : SMap :=
  if (m.find? (fun e => e.1 == k)).isSome then
    m.map (fun e => if e.1 == k then (e.1, v) else e)
  else m ++ [(k, v)]

-- ── More string helpers ──────────────────────────────────────────────────

/-- JS `s.split(sep)` for a one-character separator. -/
def splitOnCh (sep : Char) : JSStr → List JSStr
  | [] => [[]]
  | c :: rest =>
    let r := splitOnCh sep rest
    if c = sep then [] :: r
    else
      match r with
      | [] => [[c]]
      | h :: t => (c :: h) :: t

/-- JS `Array.prototype.join` with a one-character separator. -/
def joinSep (sep : Char) : List JSStr → JSStr
  | [] => []
  | [p] => p
  | p :: q :: rest => p ++ sep :: joinSep sep (q :: rest)

/-- JS `s.startsWith(p)`. -/
def jsStartsWith (p s : JSStr) : Bool := p.isPrefixOf s

-- ── DATE codec (src/value-types.ts lines 145-172) ────────────────────────

/-- ICalDate (types.ts): structural `YYYYMMDD` decomposition; each field is
the JS number `parseInt` produced. -/
structure ICalDate where
  year : JSNum
  month : JSNum
  day : JSNum
deriving DecidableEq, Repr

/-- pad2 (value-types.ts:26-28): `String(n).padStart(2, '0')`. -/
def pad2 (n : JSNum) : JSStr := padStartCh (jsNumChars n) 2 '0'

/-- pad4 (value-types.ts:30-32): `String(n).padStart(4, '0')`. -/
def pad4 (n : JSNum) : JSStr := padStartCh (jsNumChars n) 4 '0'

/-- DATE.parse (value-types.ts:146-154). -/
def DATE.parse (raw : JSStr) : ICalDate :=
  let s := jsTrim raw
  { year := parseIntJS (jsSlice s 0 4),
    month := parseIntJS (jsSlice s 4 6),
    day := parseIntJS (jsSlice s 6 8) }

/-- DATE.serialize (value-types.ts:155-160), the `ICalDate` branch (the
JS-`Date`-instance convenience branch takes a different input type and is
outside the typed-value round trip). -/
def DATE.serialize (val : ICalDate) : JSStr :=
  pad4 val.year ++ pad2 val.month ++ pad2 val.day

-- ── DATE-TIME codec (src/value-types.ts lines 176-239) ───────────────────

/-- ICalDateTime (types.ts): `YYYYMMDDTHHMMSS[Z]` with a UTC flag and an
optional TZID back-reference captured from the parameters. -/
structure ICalDateTime where
  year : JSNum
  month : JSNum
  day : JSNum
  hour : JSNum
  minute : JSNum
  second : JSNum
  utc : Bool
  tzid : Option JSStr
deriving DecidableEq, Repr

/-- DATE_TIME.parse (value-types.ts:177-193); `params` is the property's
parameter map, read only for a string-valued `TZID`. -/
def DATE_TIME.parse (raw : JSStr) (params : PMap) : ICalDateTime :=
  let s := jsTrim raw
  let utc := s.getLast? == some 'Z'
  let core := if utc then s.dropLast else s
  let tzid := match pmGet params (js "TZID") with
    | some (PVal.str t) => some t
    | _ => none
  { year := parseIntJS (jsSlice core 0 4),
    month := parseIntJS (jsSlice core 4 6),
    day := parseIntJS (jsSlice core 6 8),
    hour := parseIntJS (jsSlice core 9 11),
    minute := parseIntJS (jsSlice core 11 13),
    second := parseIntJS (jsSlice core 13 15),
    utc := utc,
    tzid := tzid }

/-- DATE_TIME.serialize (value-types.ts:194-205), `ICalDateTime` branch:
format depends solely on the UTC flag; the recorded tzid is not emitted. -/
def DATE_TIME.serialize (val : ICalDateTime) : JSStr :=
  let core := pad4 val.year ++ pad2 val.month ++ pad2 val.day ++
    'T' :: (pad2 val.hour ++ pad2 val.minute ++ pad2 val.second)
  if val.utc then core ++ ['Z'] else core

-- ── TIME codec (src/value-types.ts lines 243-259) ────────────────────────

/-- ICalTime (types.ts): `HHMMSS[Z]`. -/
structure ICalTime where
  hour : JSNum
  minute : JSNum
  second : JSNum
  utc : Bool
deriving DecidableEq, Repr

/-- TIME.parse (value-types.ts:244-255). -/
def TIME.parse (raw : JSStr) : ICalTime :=
  let s := jsTrim raw
  let utc := s.getLast? == some 'Z'
  let core := if utc then s.dropLast else s
  { hour := parseIntJS (jsSlice core 0 2),
    minute := parseIntJS (jsSlice core 2 4),
    second := parseIntJS (jsSlice core 4 6),
    utc := utc }

/-- TIME.serialize (value-types.ts:256-258). -/
def TIME.serialize (val : ICalTime) : JSStr :=
  pad2 val.hour ++ pad2 val.minute ++ pad2 val.second ++ (if val.utc then ['Z'] else [])

-- ── UTC-OFFSET codec (src/value-types.ts lines 127-141) ──────────────────

/-- ICalUtcOffset (types.ts): the sign is stored as a one-character string,
exactly as the source keeps `'+' | '-'`. -/
structure ICalUtcOffset where
  sign : JSStr
  hours : JSNum
  minutes : JSNum
  seconds : Option JSNum
deriving DecidableEq, Repr

/-- UTC_OFFSET.parse (value-types.ts:128-135). -/
def UTC_OFFSET.parse (raw : JSStr) : ICalUtcOffset :=
  let s := jsTrim raw
  { sign := if s.head? == some '-' then js "-" else js "+",
    hours := parseIntJS (jsSlice s 1 3),
    minutes := parseIntJS (jsSlice s 3 5),
    seconds := if s.length ≥ 7 then some (parseIntJS (jsSlice s 5 7)) else none }

/-- UTC_OFFSET.serialize (value-types.ts:136-140). -/
def UTC_OFFSET.serialize (val : ICalUtcOffset) : JSStr :=
  let base := val.sign ++ pad2 val.hours ++ pad2 val.minutes
  match val.seconds with
  | some sec => base ++ pad2 sec
  | none => base

-- ── Scalar codecs (src/value-types.ts lines 63-106) ──────────────────────

/-- BOOLEAN.parse (value-types.ts:64-66): case-insensitive TRUE, everything
else false. -/
def BOOLEAN.parse (raw : JSStr) : Bool := jsUpper (jsTrim raw) == js "TRUE"

/-- BOOLEAN.serialize (value-types.ts:67-69) on a boolean value. -/
def BOOLEAN.serialize (v : Bool) : JSStr := if v then js "TRUE" else js "FALSE"

/-- INTEGER.parse (value-types.ts:75-77). -/
def INTEGER.parse (raw : JSStr) : JSNum := parseIntJS (jsTrim raw)

/-- INTEGER.serialize (value-types.ts:78-80) on an integer-or-NaN number
(`Math.trunc` is the identity there). -/
def INTEGER.serialize (v : JSNum) : JSStr := jsNumChars v

/-- URI.parse (value-types.ts:98-100). -/
def URI.parse (raw : JSStr) : JSStr := jsTrim raw

/-- URI.serialize (value-types.ts:101-103) on a string value. -/
def URI.serialize (v : JSStr) : JSStr := v

-- ── Floats for FLOAT and GEO (parseFloat / String(number)) ───────────────

/-- A non-NaN JS number as an exact canonical decimal: sign, integer part,
fraction digits with no trailing zero (so distinct records denote distinct
numbers, matching JS number equality).  IEEE-754 rounding is idealised away;
exponent display forms (|x| ≥ 1e21 or < 1e-6) are outside the embedded
domain. -/
structure JSDec where
  neg : Bool
  ip : Nat
  frac : List Nat
deriving DecidableEq, Repr

/-- A JS number from `parseFloat`: NaN (`none`) or a decimal. -/
abbrev JSFloat := Option JSDec

/-- Drop trailing zero fraction digits (canonicalisation `1.50 = 1.5`). -/
def stripTrailingZeros (l : List Nat) : List Nat :=
  (l.reverse.dropWhile (· == 0)).reverse

/-- JS `parseFloat`: skip leading whitespace, optional sign, digits,
optional `.digits`, longest valid prefix; NaN when no digit is found.
`-0` canonicalises to `0` (they are `==` in JS). -/
def parseFloatJS (s : JSStr) : JSFloat :=
  let t := s.dropWhile isJsWS
  let neg := t.head? = some '-'
  let u := if t.head? = some '-' ∨ t.head? = some '+' then t.tail else t
  let (ipDs, r) := takeDigits u
  let frDs : List Nat := match r with
    | '.' :: rest => (takeDigits rest).1
    | _ => []
  if ipDs.isEmpty ∧ frDs.isEmpty then none
  else
    let frac := stripTrailingZeros frDs
    let ip := digitsVal ipDs
    some { neg := neg && !(ip == 0 && frac.isEmpty), ip := ip, frac := frac }

/-- JS `String(x)` for a canonical decimal. -/
def jsDecChars (d : JSDec) : JSStr :=
  (if d.neg then ['-'] else []) ++ natChars d.ip ++
  (if d.frac.isEmpty then [] else '.' :: d.frac.map digitCh)

/-- JS `String(x)` for a float-or-NaN. -/
def jsFloatChars : JSFloat → JSStr
  | none => js "NaN"
  | some d => jsDecChars d

/-- FLOAT.parse (value-types.ts:86-88). -/
def FLOAT.parse (raw : JSStr) : JSFloat := parseFloatJS (jsTrim raw)

/-- FLOAT.serialize (value-types.ts:89-92): whole numbers get `.0`. -/
def FLOAT.serialize (v : JSFloat) : JSStr :=
  match v with
  | some d => if d.frac.isEmpty then jsDecChars d ++ js ".0" else jsDecChars d
  | none => js "NaN"

-- ── BINARY codec (src/value-types.ts lines 110-123) ──────────────────────

/-- ICalBinary (types.ts): a decoded byte buffer. -/
structure ICalBinary where
  data : List Nat
deriving DecidableEq, Repr

/-- Base64 digit character for a sextet value `v < 64`. -/
def b64Ch (v : Nat) : Char :=
  if v < 26 then Char.ofNat (65 + v)
  else if v < 52 then Char.ofNat (97 + (v - 26))
  else if v < 62 then Char.ofNat (48 + (v - 52))
  else if v = 62 then '+' else '/'

/-- Sextet value of a base64 digit character (Node ignores all others,
including padding `=`). -/
def b64Val? (c : Char) : Option Nat :=
  if 'A' ≤ c ∧ c ≤ 'Z' then some (c.toNat - 65)
  else if 'a' ≤ c ∧ c ≤ 'z' then some (c.toNat - 97 + 26)
  else if '0' ≤ c ∧ c ≤ '9' then some (c.toNat - 48 + 52)
  else if c = '+' then some 62
  else if c = '/' then some 63
  else none

/-- Node `Buffer.prototype.toString('base64')`: canonical padded base64. -/
def b64EncodeBytes : List Nat → JSStr
  | [] => []
  | [b1] => [b64Ch (b1 / 4), b64Ch (b1 % 4 * 16), '=', '=']
  | [b1, b2] => [b64Ch (b1 / 4), b64Ch (b1 % 4 * 16 + b2 / 16), b64Ch (b2 % 16 * 4), '=']
  | b1 :: b2 :: b3 :: rest =>
    b64Ch (b1 / 4) :: b64Ch (b1 % 4 * 16 + b2 / 16) ::
    b64Ch (b2 % 16 * 4 + b3 / 64) :: b64Ch (b3 % 64) :: b64EncodeBytes rest

/-- Node `Buffer.from(s, 'base64')`, sextet-regrouping phase: groups of four
sextets give three bytes; a trailing group of three gives two bytes, of two
gives one byte, of one is dropped. -/
def b64DecodeSextets : List Nat → List Nat
  | s1 :: s2 :: s3 :: s4 :: rest =>
    (s1 * 4 + s2 / 16) :: (s2 % 16 * 16 + s3 / 4) :: (s3 % 4 * 64 + s4) ::
      b64DecodeSextets rest
  | [s1, s2, s3] => [s1 * 4 + s2 / 16, s2 % 16 * 16 + s3 / 4]
  | [s1, s2] => [s1 * 4 + s2 / 16]
  | _ => []

/-- BINARY.parse (value-types.ts:111-114): forgiving base64 decode (invalid
characters and padding are skipped), never fails. -/
def BINARY.parse (raw : JSStr) : ICalBinary :=
  { data := b64DecodeSextets ((jsTrim raw).filterMap b64Val?) }

/-- BINARY.serialize (value-types.ts:115-122), typed-buffer branch. -/
def BINARY.serialize (val : ICalBinary) : JSStr := b64EncodeBytes val.data

-- ── PERIOD codec (src/value-types.ts lines 345-364) ──────────────────────

/-- The end of a period: explicit date-time or duration (nested sum). -/
inductive PeriodEnd where
  | dt (v : ICalDateTime)
  | dur (v : ICalDuration)
deriving DecidableEq, Repr

/-- ICalPeriod (types.ts); the source's `end` field is called `stop` here
because `end` is a Lean keyword. -/
structure ICalPeriod where
  start : ICalDateTime
  stop : PeriodEnd
deriving DecidableEq, Repr

/-- PERIOD.parse (value-types.ts:346-355): throws on a missing `/`. -/
def PERIOD.parse (raw : JSStr) : Except String ICalPeriod :=
  match jsIndexOfCh '/' raw with
  | none => Except.error (String.mk (js "Invalid PERIOD value: " ++ raw))
  | some slashIdx =>
    let start := DATE_TIME.parse (jsSlice raw 0 slashIdx) []
    let endStr := jsTrim (jsSliceFrom raw (slashIdx + 1))
    let e : PeriodEnd :=
      if jsStartsWith (js "P") endStr || jsStartsWith (js "-P") endStr ||
          jsStartsWith (js "+P") endStr then
        PeriodEnd.dur (DURATION.parse endStr)
      else
        PeriodEnd.dt (DATE_TIME.parse endStr [])
    Except.ok { start := start, stop := e }

/-- PERIOD.serialize (value-types.ts:356-363). -/
def PERIOD.serialize (val : ICalPeriod) : JSStr :=
  DATE_TIME.serialize val.start ++ '/' ::
    (match val.stop with
     | PeriodEnd.dur d => DURATION.serialize d
     | PeriodEnd.dt d => DATE_TIME.serialize d)

-- ── RECUR codec (src/value-types.ts lines 366-457) ───────────────────────

/-- The seven-weekday enum. -/
inductive Weekday where
  | SU | MO | TU | WE | TH | FR | SA
deriving DecidableEq, Repr

/-- Serialized form of a weekday. -/
def Weekday.chars : Weekday → JSStr
  | .SU => js "SU"
  | .MO => js "MO"
  | .TU => js "TU"
  | .WE => js "WE"
  | .TH => js "TH"
  | .FR => js "FR"
  | .SA => js "SA"

/-- Membership test in VALID_WEEKDAYS (value-types.ts:372), as a partial
decoding. -/
def weekdayOfChars? (s : JSStr) : Option Weekday :=
  if s = js "SU" then some .SU
  else if s = js "MO" then some .MO
  else if s = js "TU" then some .TU
  else if s = js "WE" then some .WE
  else if s = js "TH" then some .TH
  else if s = js "FR" then some .FR
  else if s = js "SA" then some .SA
  else none

/-- The seven-member frequency enum. -/
inductive RecurFreq where
  | SECONDLY | MINUTELY | HOURLY | DAILY | WEEKLY | MONTHLY | YEARLY
deriving DecidableEq, Repr

/-- Serialized form of a frequency. -/
def RecurFreq.chars : RecurFreq → JSStr
  | .SECONDLY => js "SECONDLY"
  | .MINUTELY => js "MINUTELY"
  | .HOURLY => js "HOURLY"
  | .DAILY => js "DAILY"
  | .WEEKLY => js "WEEKLY"
  | .MONTHLY => js "MONTHLY"
  | .YEARLY => js "YEARLY"

/-- Membership test in VALID_FREQS (value-types.ts:368-370). -/
def freqOfChars? (s : JSStr) : Option RecurFreq :=
  if s = js "SECONDLY" then some .SECONDLY
  else if s = js "MINUTELY" then some .MINUTELY
  else if s = js "HOURLY" then some .HOURLY
  else if s = js "DAILY" then some .DAILY
  else if s = js "WEEKLY" then some .WEEKLY
  else if s = js "MONTHLY" then some .MONTHLY
  else if s = js "YEARLY" then some .YEARLY
  else none

/-- A BYDAY entry: weekday plus optional signed ordinal. -/
structure ByDayRule where
  day : Weekday
  ordwk : Option JSNum
deriving DecidableEq, Repr

/-- The polymorphic UNTIL value: DATE or DATE-TIME. -/
inductive RecurUntil where
  | date (d : ICalDate)
  | dateTime (d : ICalDateTime)
deriving DecidableEq, Repr

/-- ICalRecur (types.ts); the source's `until` field is called `untl` here
to avoid the Lean keyword. -/
structure ICalRecur where
  freq : RecurFreq
  untl : Option RecurUntil
  count : Option JSNum
  interval : Option JSNum
  bysecond : Option (List JSNum)
  byminute : Option (List JSNum)
  byhour : Option (List JSNum)
  byday : Option (List ByDayRule)
  bymonthday : Option (List JSNum)
  byyearday : Option (List JSNum)
  byweekno : Option (List JSNum)
  bymonth : Option (List JSNum)
  bysetpos : Option (List JSNum)
  wkst : Option Weekday
deriving DecidableEq, Repr

/-- One entry of parseByDay (value-types.ts:374-383): regex
`^([+-]?\d+)?(SU|MO|TU|WE|TH|FR|SA)$` case-insensitively against the trimmed
entry; no match yields the default `{day: MO}`. -/
def parseByDayEntry (s0 : JSStr) : ByDayRule :=
  let s := jsTrim s0
  let attempt : Option Int → JSStr → Option ByDayRule := fun ord rest =>
    match weekdayOfChars? (jsUpper rest) with
    | some wd => some { day := wd, ordwk := ord.map (fun i => some i) }
    | none => none
  let withGroup : Option ByDayRule :=
    if s.head? = some '+' then
      (match takeDigits s.tail with
       | ([], _) => none
       | (ds, r2) => attempt (some (digitsVal ds : Int)) r2)
    else if s.head? = some '-' then
      (match takeDigits s.tail with
       | ([], _) => none
       | (ds, r2) => attempt (some (-(digitsVal ds : Int))) r2)
    else
      (match takeDigits s with
       | ([], _) => none
       | (ds, r2) => attempt (some (digitsVal ds : Int)) r2)
  match withGroup with
  | some r => r
  | none =>
    match attempt none s with
    | some r => r
    | none => { day := Weekday.MO, ordwk := none }

/-- The key-value map construction of RECUR.parse (value-types.ts:388-393):
split the part at its first `=`, uppercase the key, later keys overwrite. -/
def buildKVMap (parts : List JSStr) : SMap :=
  parts.foldl
    (fun m part =>
      match jsIndexOfCh '=' part with
      | none => m
      | some eq => smSet m (jsUpper (jsSlice part 0 eq)) (jsSliceFrom part (eq + 1)))
    []

/-- RECUR.parse (value-types.ts:386-430): hard typed failure on an
unrecognized frequency, tolerant everywhere else. -/
def RECUR.parse (raw : JSStr) : Except String ICalRecur :=
  let map := buildKVMap (splitOnCh ';' (jsTrim raw))
  let freqStr := jsUpper ((smGet map (js "FREQ")).getD [])
  match freqOfChars? freqStr with
  | none => Except.error (String.mk (js "Invalid FREQ in RRULE: " ++ freqStr))
  | some freq =>
    let parseIntsF : JSStr → Option (List JSNum) := fun k =>
      (smGet map k).map (fun v => (splitOnCh ',' v).map numberJS)
    Except.ok
      { freq := freq,
        untl :=
          match smGet map (js "UNTIL") with
          | some u =>
            if u.isEmpty then none
            else if u.contains 'T' then some (RecurUntil.dateTime (DATE_TIME.parse u []))
            else some (RecurUntil.date (DATE.parse u))
          | none => none,
        count := (smGet map (js "COUNT")).map parseIntJS,
        interval := (smGet map (js "INTERVAL")).map parseIntJS,
        bysecond := parseIntsF (js "BYSECOND"),
        byminute := parseIntsF (js "BYMINUTE"),
        byhour := parseIntsF (js "BYHOUR"),
        byday :=
          match smGet map (js "BYDAY") with
          | some v =>
            if v.isEmpty then none
            else some ((splitOnCh ',' v).map parseByDayEntry)
          | none => none,
        bymonthday := parseIntsF (js "BYMONTHDAY"),
        byyearday := parseIntsF (js "BYYEARDAY"),
        byweekno := parseIntsF (js "BYWEEKNO"),
        bymonth := parseIntsF (js "BYMONTH"),
        bysetpos := parseIntsF (js "BYSETPOS"),
        wkst := (smGet map (js "WKST")).bind (fun v => weekdayOfChars? (jsUpper v)) }

/-- Serialized form of one BYDAY entry (value-types.ts:445). -/
def byDayChars (d : ByDayRule) : JSStr :=
  (match d.ordwk with
   | some o => jsNumChars o
   | none => []) ++ d.day.chars

/-- A `KEY=...` part for an optional integer list, present only when the
list is present and non-empty (`val.x?.length` truthiness). -/
def numListPart (k : JSStr) (l : Option (List JSNum)) : List JSStr :=
  match l with
  | some xs => if xs.isEmpty then [] else [k ++ '=' :: joinSep ',' (xs.map jsNumChars)]
  | none => []

/-- The parts array RECUR.serialize pushes, in its fixed canonical order
(value-types.ts:431-455). -/
def RECUR.serializeParts (val : ICalRecur) : List JSStr :=
  [js "FREQ=" ++ val.freq.chars] ++
  (match val.untl with
   | some (RecurUntil.date d) => [js "UNTIL=" ++ DATE.serialize d]
   | some (RecurUntil.dateTime d) => [js "UNTIL=" ++ DATE_TIME.serialize d]
   | none => []) ++
  (match val.count with
   | some c => [js "COUNT=" ++ jsNumChars c]
   | none => []) ++
  (match val.interval with
   | some i => [js "INTERVAL=" ++ jsNumChars i]
   | none => []) ++
  numListPart (js "BYSECOND") val.bysecond ++
  numListPart (js "BYMINUTE") val.byminute ++
  numListPart (js "BYHOUR") val.byhour ++
  (match val.byday with
   | some l =>
     if l.isEmpty then [] else [js "BYDAY=" ++ joinSep ',' (l.map byDayChars)]
   | none => []) ++
  numListPart (js "BYMONTHDAY") val.bymonthday ++
  numListPart (js "BYYEARDAY") val.byyearday ++
  numListPart (js "BYWEEKNO") val.byweekno ++
  numListPart (js "BYMONTH") val.bymonth ++
  numListPart (js "BYSETPOS") val.bysetpos ++
  (match val.wkst with
   | some w => [js "WKST=" ++ w.chars]
   | none => [])

/-- RECUR.serialize (value-types.ts:431-456): the parts joined with `;`. -/
def RECUR.serialize (val : ICalRecur) : JSStr :=
  joinSep ';' (RECUR.serializeParts val)

-- ── GEO codec (src/value-types.ts lines 462-474) ─────────────────────────

/-- ICalGeo (types.ts): two floats. -/
structure ICalGeo where
  latitude : JSFloat
  longitude : JSFloat
deriving DecidableEq, Repr

/-- GEO.parse (value-types.ts:463-470): split at `;`, parseFloat each side
(a missing side defaults to the string "0"). -/
def GEO.parse (raw : JSStr) : ICalGeo :=
  let parts := splitOnCh ';' raw
  { latitude := parseFloatJS (parts.getD 0 (js "0")),
    longitude := parseFloatJS (parts.getD 1 (js "0")) }

/-- GEO.serialize (value-types.ts:471-473). -/
def GEO.serialize (val : ICalGeo) : JSStr :=
  jsFloatChars val.latitude ++ ';' :: jsFloatChars val.longitude

-- ── Octet counting and line folding (src/component.ts lines 17-66) ───────
-- These walk `charCodeAt` and surrogate pairs, so they are embedded over
-- UTF-16 code-unit sequences (`List Nat`), where lone surrogates exist.

/-- A JS string at the UTF-16 code-unit level. -/
abbrev U16Str := List Nat

/-- octetLen (component.ts:17-27): UTF-8 octet count of a string, advancing
two units (and counting four octets) at any surrogate code unit. -/
def octetLen : U16Str → Nat
  | [] => 0
  | [c] =>
    if c < 0x80 then 1
    else if c < 0x800 then 2
    else if c < 0xd800 ∨ 0xe000 ≤ c then 3
    else 4
  | c :: d :: rest =>
    if c < 0x80 then 1 + octetLen (d :: rest)
    else if c < 0x800 then 2 + octetLen (d :: rest)
    else if c < 0xd800 ∨ 0xe000 ≤ c then 3 + octetLen (d :: rest)
    else 4 + octetLen rest

/-- The per-character octet width of foldLine's inner loop
(component.ts:46-51): both high and low surrogates weigh 4. -/
def charOctets (c : Nat) : Nat :=
  if c < 0x80 then 1
  else if c < 0x800 then 2
  else if c < 0xd800 ∨ 0xe000 ≤ c then 3
  else 4

/-- The inner `while` of foldLine (component.ts:45-56): greedily take
characters while they fit in `budget` octets beyond the `octets` already
taken; a high surrogate advances two units (consuming the following unit,
whatever it is). -/
def chunkSplit (budget : Nat) (octets : Nat) : U16Str → (U16Str × U16Str)
  | [] => ([], [])
  | c :: rest =>
    let w := charOctets c
    if octets + w > budget then ([], c :: rest)
    else if 0xd800 ≤ c ∧ c < 0xdc00 then
      match rest with
      | [] => ([c], [])
      | d :: rest2 =>
        let (t, r) := chunkSplit budget (octets + w) rest2
        (c :: d :: t, r)
    else
      let (t, r) := chunkSplit budget (octets + w) rest
      (c :: t, r)

/-- The outer `while` of foldLine (component.ts:40-63), fuel-driven (any
fuel of at least the line length is exact, since every iteration consumes at
least one unit): budget 75 for the first chunk, 74 for continuations, which
are prefixed with one SPACE (code unit 32); an empty chunk stops the loop
(the `end === pos` safety break). -/
def foldGo : Nat → Bool → U16Str → List U16Str
  | 0, _, _ => []
  | _, _, [] => []
  | fuel + 1, first, l =>
    let (t, r) := chunkSplit (if first then 75 else 74) 0 l
    if t.isEmpty then []
    else ((if first then [] else [32]) ++ t) :: foldGo fuel false r

/-- The chunk list foldLine builds for a long line. -/
def foldChunks (line : U16Str) : List U16Str := foldGo (line.length + 1) true line

/-- Chunks joined with CRLF (code units 13, 10), as `chunks.join('\r\n')`. -/
def joinCRLF : List U16Str → U16Str
  | [] => []
  | [p] => p
  | p :: q :: rest => p ++ 13 :: 10 :: joinCRLF (q :: rest)

/-- foldLine (component.ts:33-66). -/
def foldLine (line : U16Str) : U16Str :=
  if octetLen line ≤ 75 then line else joinCRLF (foldChunks line)

/-- Well-formed UTF-16: units below 0x10000, high surrogates followed by a
low surrogate, no stray low surrogates. -/
def wfUTF16 : U16Str → Bool
  | [] => true
  | c :: rest =>
    if c < 0xd800 ∨ 0xe000 ≤ c then decide (c < 0x10000) && wfUTF16 rest
    else if c < 0xdc00 then
      match rest with
      | d :: rest2 => decide (0xdc00 ≤ d ∧ d < 0xe000) && wfUTF16 rest2
      | [] => false
    else false

-- ── Tokenizer (src/parse.ts lines 181-266) ───────────────────────────────

/-- unfold (parse.ts:182-187): three sequential global replaces, CRLF to LF,
CR to LF, then LF+(SPACE|TAB) removed. -/
def unfold (str : JSStr) : JSStr :=
  replace2 (fun a b => a == '\n' && (b == ' ' || b == '\t')) []
    (replace1 (· == '\r') ['\n']
      (replace2 (fun a b => a == '\r' && b == '\n') ['\n'] str))

/-- A tokenized content line (types.ts): uppercased name, parameter map,
raw still-escaped value. -/
structure ContentLine where
  name : JSStr
  params : PMap
  value : JSStr
deriving DecidableEq, Repr

/-- The do-while value loop of parseContentLine (parse.ts:224-238): one
quoted (verbatim up to the closing quote) or unquoted (up to `,` `;` `:`,
trimmed) value per iteration, continuing over commas.  Fuel-driven; any fuel
above the input length is exact since each continuing iteration consumes the
comma. -/
def parseParamValues : Nat → JSStr → (List JSStr × JSStr)
  | 0, s => ([], s)
  | fuel + 1, s =>
    let (v, rest) : JSStr × JSStr :=
      if s.head? = some '"' then
        let inner := s.tail
        let q := inner.takeWhile (fun c => c ≠ '"')
        let after := inner.drop q.length
        (q, if after.isEmpty then after else after.tail)
      else
        let u := s.takeWhile (fun c => c ≠ ',' ∧ c ≠ ';' ∧ c ≠ ':')
        (jsTrim u, s.drop u.length)
    if rest.head? = some ',' then
      let (vs, r2) := parseParamValues fuel rest.tail
      (v :: vs, r2)
    else ([v], rest)

/-- The parameter `while` loop of parseContentLine (parse.ts:210-244): each
iteration consumes `;NAME[=v[,v...]]`; a single collected value is stored as
a bare string, any other count as a list. -/
def parseParamsLoop : Nat → JSStr → PMap → (PMap × JSStr)
  | 0, s, acc => (acc, s)
  | fuel + 1, s, acc =>
    if s.head? = some ';' then
      let rest := s.tail
      let pname := rest.takeWhile (fun c => c ≠ '=' ∧ c ≠ ';' ∧ c ≠ ':')
      let paramName := jsUpper (jsTrim pname)
      let after := rest.drop pname.length
      let (values, rem) : List JSStr × JSStr :=
        if after.head? = some '=' then parseParamValues (after.tail.length + 1) after.tail
        else ([], after)
      let acc2 :=
        if paramName.isEmpty then acc
        else pmSet acc paramName
          (if values.length = 1 then PVal.str (values.getD 0 []) else PVal.list values)
      parseParamsLoop fuel rem acc2
    else (acc, s)

/-- parseContentLine (parse.ts:193-251): name up to the first `:` or `;`
(trimmed, uppercased; empty means no value), parameters, then the value is
everything after the first unconsumed `:`. -/
def parseContentLine (line : JSStr) : Option ContentLine :=
  if line.isEmpty then none
  else
    let nameRaw := line.takeWhile (fun c => c ≠ ':' ∧ c ≠ ';')
    let name := jsUpper (jsTrim nameRaw)
    if name.isEmpty then none
    else
      let rest0 := line.drop nameRaw.length
      let (params, rest1) := parseParamsLoop (rest0.length + 1) rest0 []
      let value := if rest1.head? = some ':' then rest1.tail else rest1
      some { name := name, params := params, value := value }

/-- tokenize (parse.ts:257-266): unfold, split on LF, drop blank lines,
parse each remaining line, drop the unparseable ones. -/
def tokenize (src : JSStr) : List ContentLine :=
  ((splitOnCh '\n' (unfold src)).filter (fun l => !(jsTrim l).isEmpty)).filterMap
    parseContentLine

-- ── Raw tree assembly (src/parse.ts lines 26-63) ─────────────────────────

/-- A property record inside a RawNode: params already normalized to plain
strings. -/
structure RawProp where
  name : JSStr
  params : SMap
  value : JSStr
deriving DecidableEq, Repr

/-- RawNode (parse.ts:26-30). -/
inductive RawNode where
  | mk (type : JSStr) (props : List RawProp) (children : List RawNode)

/-- Type of a raw node. -/
def RawNode.type : RawNode → JSStr
  | .mk t _ _ => t

/-- Properties of a raw node. -/
def RawNode.props : RawNode → List RawProp
  | .mk _ p _ => p

/-- Children of a raw node. -/
def RawNode.children : RawNode → List RawNode
  | .mk _ _ c => c

/-- The param normalization of buildTree (parse.ts:53-57): every value is
forced to a plain string, a list by joining with commas. -/
def normalizeParams (p : PMap) : SMap :=
  p.map (fun e =>
    (e.1,
      match e.2 with
      | PVal.str s => s
      | PVal.list l => joinSep ',' l))

/-- An in-progress node of the tree-assembly stack machine. -/
structure Frame where
  type : JSStr
  props : List RawProp
  children : List RawNode
deriving Inhabited

/-- Close an in-progress node. -/
def Frame.close (f : Frame) : RawNode := RawNode.mk f.type f.props f.children

/-- End-of-stream unwinding: unclosed nodes were already attached to their
parents (the source pushes the child object on BEGIN and keeps mutating it),
so each remaining frame closes into its parent; the root's children are the
result. -/
def unwindStack : Frame → List Frame → List RawNode
  | cur, [] => cur.children
  | cur, parent :: rest =>
    unwindStack { parent with children := parent.children ++ [cur.close] } rest

/-- The token loop of buildTree (parse.ts:38-60): BEGIN pushes a node typed
by the uppercased trimmed value, END pops unless only the root remains, any
other token becomes a property (with normalized params) of the current
node. -/
def buildTreeGo : List ContentLine → Frame → List Frame → List RawNode
  | [], cur, stack => unwindStack cur stack
  | tok :: rest, cur, stack =>
    if tok.name = js "BEGIN" then
      buildTreeGo rest { type := jsTrim (jsUpper tok.value), props := [], children := [] }
        (cur :: stack)
    else if tok.name = js "END" then
      match stack with
      | parent :: stackRest =>
        buildTreeGo rest { parent with children := parent.children ++ [cur.close] } stackRest
      | [] => buildTreeGo rest cur []
    else
      buildTreeGo rest
        { cur with
          props := cur.props ++
            [{ name := tok.name, params := normalizeParams tok.params, value := tok.value }] }
        stack

/-- buildTree (parse.ts:33-63). -/
def buildTree (src : JSStr) : List RawNode :=
  buildTreeGo (tokenize src) { type := js "ROOT", props := [], children := [] } []

-- ── Typed values and the Property engine (src/property.ts) ───────────────

/-- The closed variant type of typed values (types.ts `ICalValue`). -/
inductive ICalValue where
  | str (s : JSStr)
  | bool (b : Bool)
  | int (n : JSNum)
  | float (f : JSFloat)
  | date (d : ICalDate)
  | dateTime (d : ICalDateTime)
  | time (t : ICalTime)
  | duration (d : ICalDuration)
  | period (p : ICalPeriod)
  | recur (r : ICalRecur)
  | utcOffset (o : ICalUtcOffset)
  | geo (g : ICalGeo)
  | binary (b : ICalBinary)
deriving DecidableEq, Repr

/-- A property's value slot: one typed value or an ordered list. -/
inductive PropValue where
  | single (v : ICalValue)
  | list (l : List ICalValue)
deriving DecidableEq, Repr

/-- Property (property.ts:13-29): name uppercased on construction. -/
structure Property where
  name : JSStr
  params : PMap
  value : PropValue
  rawValue : JSStr
deriving DecidableEq, Repr

/-- The Property constructor (property.ts:19-29). -/
def Property.make (name : JSStr) (value : PropValue) (params : PMap) (rawValue : JSStr) :
    Property :=
  { name := jsUpper name, params := params, value := value, rawValue := rawValue }

/-- PropertyDef (property-registry, part of this repository): default value
type and multiplicity flag; the `allowedTypes` documentation field is read
by no embedded code path and is omitted. -/
structure PropertyDef where
  defaultType : JSStr
  multi : Bool
deriving DecidableEq, Repr

/-- PROPERTY_REGISTRY: the full fixed table mapping standard property names
to default types and multiplicity. -/
def PROPERTY_REGISTRY : List (JSStr × PropertyDef) :=
  [ (js "CALSCALE", ⟨js "TEXT", false⟩),
    (js "METHOD", ⟨js "TEXT", false⟩),
    (js "PRODID", ⟨js "TEXT", false⟩),
    (js "VERSION", ⟨js "TEXT", false⟩),
    (js "ATTACH", ⟨js "URI", false⟩),
    (js "CATEGORIES", ⟨js "TEXT", true⟩),
    (js "CLASS", ⟨js "TEXT", false⟩),
    (js "COMMENT", ⟨js "TEXT", false⟩),
    (js "DESCRIPTION", ⟨js "TEXT", false⟩),
    (js "GEO", ⟨js "GEO", false⟩),
    (js "LOCATION", ⟨js "TEXT", false⟩),
    (js "PERCENT-COMPLETE", ⟨js "INTEGER", false⟩),
    (js "PRIORITY", ⟨js "INTEGER", false⟩),
    (js "RESOURCES", ⟨js "TEXT", true⟩),
    (js "STATUS", ⟨js "TEXT", false⟩),
    (js "SUMMARY", ⟨js "TEXT", false⟩),
    (js "COMPLETED", ⟨js "DATE-TIME", false⟩),
    (js "DTEND", ⟨js "DATE-TIME", false⟩),
    (js "DUE", ⟨js "DATE-TIME", false⟩),
    (js "DTSTART", ⟨js "DATE-TIME", false⟩),
    (js "DURATION", ⟨js "DURATION", false⟩),
    (js "FREEBUSY", ⟨js "PERIOD", true⟩),
    (js "TRANSP", ⟨js "TEXT", false⟩),
    (js "TZID", ⟨js "TEXT", false⟩),
    (js "TZNAME", ⟨js "TEXT", false⟩),
    (js "TZOFFSETFROM", ⟨js "UTC-OFFSET", false⟩),
    (js "TZOFFSETTO", ⟨js "UTC-OFFSET", false⟩),
    (js "TZURL", ⟨js "URI", false⟩),
    (js "ATTENDEE", ⟨js "CAL-ADDRESS", false⟩),
    (js "CONTACT", ⟨js "TEXT", false⟩),
    (js "ORGANIZER", ⟨js "CAL-ADDRESS", false⟩),
    (js "RECURRENCE-ID", ⟨js "DATE-TIME", false⟩),
    (js "RELATED-TO", ⟨js "TEXT", false⟩),
    (js "URL", ⟨js "URI", false⟩),
    (js "UID", ⟨js "TEXT", false⟩),
    (js "EXDATE", ⟨js "DATE-TIME", true⟩),
    (js "RDATE", ⟨js "DATE-TIME", true⟩),
    (js "RRULE", ⟨js "RECUR", false⟩),
    (js "EXRULE", ⟨js "RECUR", false⟩),
    (js "ACTION", ⟨js "TEXT", false⟩),
    (js "REPEAT", ⟨js "INTEGER", false⟩),
    (js "TRIGGER", ⟨js "DURATION", false⟩),
    (js "CREATED", ⟨js "DATE-TIME", false⟩),
    (js "DTSTAMP", ⟨js "DATE-TIME", false⟩),
    (js "LAST-MODIFIED", ⟨js "DATE-TIME", false⟩),
    (js "SEQUENCE", ⟨js "INTEGER", false⟩),
    (js "REQUEST-STATUS", ⟨js "TEXT", false⟩) ]

/-- getPropertyDef: exact-name registry lookup. -/
def getPropertyDef (name : JSStr) : Option PropertyDef :=
  (PROPERTY_REGISTRY.find? (fun e => e.1 == name)).map (fun e => e.2)

/-- resolveValueType: a non-empty string-valued `VALUE` parameter overrides
(uppercased, verbatim), else the registry default, else TEXT. -/
def resolveValueType (name : JSStr) (params : PMap) : JSStr :=
  let fallback :=
    match getPropertyDef name with
    | some d => d.defaultType
    | none => js "TEXT"
  match pmGet params (js "VALUE") with
  | some (PVal.str v) => if (jsUpper v).isEmpty then fallback else jsUpper v
  | _ => fallback

/-- The CODECS record lookup combined with each codec's parse
(value-types.ts:480-495 with property.ts:129): the two codecs that can
throw are Except-valued; an unknown type name falls back to TEXT. -/
def codecParse (typeName : JSStr) (raw : JSStr) (params : PMap) :
    Except String ICalValue :=
  if typeName = js "TEXT" then .ok (.str (TEXT.parse raw))
  else if typeName = js "BOOLEAN" then .ok (.bool (BOOLEAN.parse raw))
  else if typeName = js "INTEGER" then .ok (.int (INTEGER.parse raw))
  else if typeName = js "FLOAT" then .ok (.float (FLOAT.parse raw))
  else if typeName = js "URI" then .ok (.str (URI.parse raw))
  else if typeName = js "CAL-ADDRESS" then .ok (.str (URI.parse raw))
  else if typeName = js "BINARY" then .ok (.binary (BINARY.parse raw))
  else if typeName = js "UTC-OFFSET" then .ok (.utcOffset (UTC_OFFSET.parse raw))
  else if typeName = js "DATE" then .ok (.date (DATE.parse raw))
  else if typeName = js "DATE-TIME" then .ok (.dateTime (DATE_TIME.parse raw params))
  else if typeName = js "TIME" then .ok (.time (TIME.parse raw))
  else if typeName = js "DURATION" then .ok (.duration (DURATION.parse raw))
  else if typeName = js "PERIOD" then (PERIOD.parse raw).map ICalValue.period
  else if typeName = js "RECUR" then (RECUR.parse raw).map ICalValue.recur
  else .ok (.str (TEXT.parse raw))

/-- splitMultiValue (property.ts:147-163): split on unescaped commas,
keeping backslash-escape pairs together. -/
def splitMultiValueGo : JSStr → JSStr → List JSStr
  | [], cur => [cur]
  | c :: rest, cur =>
    if c = '\\' ∧ ¬rest.isEmpty then
      match rest with
      | d :: rest2 => splitMultiValueGo rest2 (cur ++ [c, d])
      | [] => [cur]
    else if c = ',' then cur :: splitMultiValueGo rest []
    else splitMultiValueGo rest (cur ++ [c])

/-- splitMultiValue entry point. -/
def splitMultiValue (raw : JSStr) : List JSStr := splitMultiValueGo raw []

/-- The `try` block of parseProperty (property.ts:124-139): GEO first, then
registry multiplicity decides between a split multi-value parse and a single
parse; any codec failure aborts the whole block. -/
def tryParseValue (name : JSStr) (rawValue : JSStr) (params : PMap) :
    Except String Property :=
  let typeName := resolveValueType name params
  let defn := getPropertyDef name
  if typeName = js "GEO" then
    .ok (Property.make name (.single (.geo (GEO.parse rawValue))) params rawValue)
  else if (match defn with | some d => d.multi | none => false) then
    ((splitMultiValue rawValue).mapM (fun p => codecParse typeName p params)).map
      (fun vals => Property.make name (.list vals) params rawValue)
  else
    (codecParse typeName rawValue params).map
      (fun v => Property.make name (.single v) params rawValue)

/-- parseProperty (property.ts:116-144): the catch-all makes it total; on
any codec failure the untouched raw string becomes both value and
rawValue. -/
def parseProperty (name : JSStr) (rawValue : JSStr) (params : PMap) : Property :=
  match tryParseValue name rawValue params with
  | .ok p => p
  | .error _ => Property.make name (.single (.str rawValue)) params rawValue

-- ── Component storage engine (src/component.ts lines 70-192) ─────────────

/-- The name index: a Map from uppercased name to the list of properties
with that name. -/
abbrev PropIndex := List (JSStr × List Property)

/-- Map lookup. -/
def idxGet (m : PropIndex) (k : JSStr) : Option (List Property) :=
  (m.find? (fun e => e.1 == k)).map (fun e => e.2)

/-- Map set (overwrite in place or append a new entry). -/
def idxSet (m : PropIndex) (k : JSStr) (v : List Property) : PropIndex :=
  if (m.find? (fun e => e.1 == k)).isSome then
    m.map (fun e => if e.1 == k then (e.1, v) else e)
  else m ++ [(k, v)]

/-- Map delete. -/
def idxDelete (m : PropIndex) (k : JSStr) : PropIndex :=
  m.filter (fun e => !(e.1 == k))

/-- Component (component.ts:70-193): ordered property list, name index,
child components. -/
structure Component where
  type : JSStr
  props : List Property
  index : PropIndex
  components : List Component

/-- The Component constructor (component.ts:80-82). -/
def Component.create (type : JSStr) : Component :=
  { type := jsUpper type, props := [], index := [], components := [] }

/-- getProperties (component.ts:92-94). -/
def Component.getProperties (c : Component) (name : JSStr) : List Property :=
  (idxGet c.index (jsUpper name)).getD []

/-- getProperty (component.ts:87-89): first indexed property or none. -/
def Component.getProperty (c : Component) (name : JSStr) : Option Property :=
  (idxGet c.index (jsUpper name)).bind List.head?

/-- addProperty (component.ts:110-119): append to the ordered list and to
the per-name index, never deduplicating. -/
def Component.addProperty (c : Component) (p : Property) : Component :=
  { c with
    props := c.props ++ [p],
    index :=
      match idxGet c.index p.name with
      | some existing => idxSet c.index p.name (existing ++ [p])
      | none => c.index ++ [(p.name, [p])] }

/-- setProperty (component.ts:125-144): `findIndex` + `splice(idx, 1)`
removes the FIRST occurrence from the ordered list, the whole index entry is
deleted; absent value stops there, otherwise one new Property is inserted at
the old position (or appended). -/
def Component.setProperty (c : Component) (name : JSStr) (value : Option PropValue)
    (params : PMap) : Component :=
  let key := jsUpper name
  let idx := c.props.findIdx? (fun p => p.name == key)
  let props1 :=
    match idx with
    | some i => c.props.eraseIdx i
    | none => c.props
  let index1 := idxDelete c.index key
  match value with
  | none => { c with props := props1, index := index1 }
  | some v =>
    let prop := Property.make key v params []
    let insertAt :=
      match idx with
      | some i => if i < props1.length then i else props1.length
      | none => props1.length
    { c with
      props := props1.insertIdx insertAt prop,
      index := idxSet index1 key [prop] }

/-- appendProperty (component.ts:147-154). -/
def Component.appendProperty (c : Component) (name : JSStr) (value : PropValue)
    (params : PMap) : Component :=
  c.addProperty (Property.make (jsUpper name) value params [])

/-- removeProperty (component.ts:157-163). -/
def Component.removeProperty (c : Component) (name : JSStr) : Component :=
  let key := jsUpper name
  { c with
    props := c.props.filter (fun p => !(p.name == key)),
    index := idxDelete c.index key }

/-- addComponent (component.ts:167-169). -/
def Component.addComponent (c : Component) (child : Component) : Component :=
  { c with components := c.components ++ [child] }

-- ── Document parse (src/parse.ts lines 65-150) ───────────────────────────

/-- Convert a normalized (string-valued) param map to the general parameter
map type the Property layer stores. -/
def smToPMap (m : SMap) : PMap :=
  m.map (fun e => (e.1, PVal.str e.2))

/-- Whether buildComponent attaches children for this node type: the
VJOURNAL, VFREEBUSY and VALARM builders (parse.ts:97-112) and the
STANDARD/DAYLIGHT rule builder take only props, every other builder maps the
children too. -/
def keepsChildren (ty : JSStr) : Bool :=
  !(ty = js "VJOURNAL" || ty = js "VFREEBUSY" || ty = js "VALARM" ||
    ty = js "STANDARD" || ty = js "DAYLIGHT")

mutual

/-- buildComponent (parse.ts:67-123): every concrete builder's `fromRaw`
performs the same mechanical storage — `addProperty (parseProperty ...)` per
raw prop in order, then `addComponent` per built child where the builder
passes them — so the dispatch collapses to the one generic constructor plus
the children policy. -/
def buildComponent : RawNode → Component
  | RawNode.mk ty props children =>
    let base := Component.create ty
    let withProps := props.foldl
      (fun c p => c.addProperty (parseProperty p.name p.value (smToPMap p.params))) base
    { withProps with
      components := if keepsChildren ty then buildComponentList children else [] }

/-- The child list mapped through buildComponent. -/
def buildComponentList : List RawNode → List Component
  | [] => []
  | n :: rest => buildComponent n :: buildComponentList rest

end

/-- parse (parse.ts:135-150): first top-level VCALENDAR node if any, else a
synthetic Calendar wrapping every root; total — no code path can throw. -/
def parse (src : JSStr) : Component :=
  let roots := buildTree src
  match roots.find? (fun n => n.type == js "VCALENDAR") with
  | some calNode => buildComponent calNode
  | none =>
    { Component.create (js "VCALENDAR") with components := buildComponentList roots }

/-- serializeParams (property.ts:97-108): each parameter re-emitted as
`;KEY=value`, lists comma-joined first, and any value containing `;` `:` `,`
double-quoted. -/
def serializeParams (params : PMap) : JSStr :=
  params.foldl
    (fun acc e =>
      let valStr :=
        match e.2 with
        | PVal.str s => s
        | PVal.list l => joinSep ',' l
      let needsQuote := valStr.any (fun c => c = ';' || c = ':' || c = ',')
      acc ++ ';' :: e.1 ++ '=' ::
        (if needsQuote then '"' :: valStr ++ ['"'] else valStr))
    []

-- ── Grammar domains ("a value accepted by the codec") ────────────────────
-- The round-trip claim quantifies over values accepted by each codec; these
-- predicates spell out each codec's grammar domain: integer fields within
-- the digit width of their fixed-width slot, no NaN, and the JS-truthiness
-- constraints the serializers impose.

/-- An integer field holding a natural number of bounded size. -/
def WfN (bound : Nat) (v : JSNum) : Prop := ∃ k : Nat, k ≤ bound ∧ v = some (k : Int)

/-- A DATE value inside the `YYYYMMDD` grammar. -/
def ICalDate.Wf (d : ICalDate) : Prop :=
  WfN 9999 d.year ∧ WfN 99 d.month ∧ WfN 99 d.day

/-- A DATE-TIME value inside the `YYYYMMDDTHHMMSS[Z]` grammar (any tzid). -/
def ICalDateTime.Wf (t : ICalDateTime) : Prop :=
  WfN 9999 t.year ∧ WfN 99 t.month ∧ WfN 99 t.day ∧
  WfN 99 t.hour ∧ WfN 99 t.minute ∧ WfN 99 t.second

/-- A day/time duration unit: absent, or present with a positive integer
(JS-falsy zero or NaN present units are silently dropped by the
serializer, so they are outside the faithful domain). -/
def WfUnit (u : Option JSNum) : Prop :=
  u = none ∨ ∃ k : Nat, 1 ≤ k ∧ u = some ((k : Int) : JSNum)

/-- A DURATION value in the codec grammar: either a week count (with the
day/time group absent, as the spec's data model demands), or day/time units
each absent-or-positive. -/
def ICalDuration.Wf (v : ICalDuration) : Prop :=
  match v.weeks with
  | some w =>
    (∃ k : Nat, w = some (k : Int)) ∧
    v.days = none ∧ v.hours = none ∧ v.minutes = none ∧ v.seconds = none
  | none => WfUnit v.days ∧ WfUnit v.hours ∧ WfUnit v.minutes ∧ WfUnit v.seconds

/-- A UTC-OFFSET value in the `(+|-)HHMM[SS]` grammar. -/
def ICalUtcOffset.Wf (v : ICalUtcOffset) : Prop :=
  (v.sign = js "+" ∨ v.sign = js "-") ∧ WfN 99 v.hours ∧ WfN 99 v.minutes ∧
  (v.seconds = none ∨ ∃ k : Nat, k ≤ 99 ∧ v.seconds = some ((k : Int) : JSNum))

/-- A PERIOD value: both sides in grammar; the nested date-times carry no
tzid back-reference because the nested parses receive no parameters. -/
def ICalPeriod.Wf (v : ICalPeriod) : Prop :=
  v.start.Wf ∧ v.start.tzid = none ∧
  (match v.stop with
   | PeriodEnd.dt d => d.Wf ∧ d.tzid = none
   | PeriodEnd.dur d => d.Wf)

/-- An integer-list RECUR field: absent, or a non-empty list of integers
(an empty list is falsy under `?.length` and would be dropped). -/
def WfIntList (l : Option (List JSNum)) : Prop :=
  l = none ∨
    (∃ xs : List Int, xs ≠ [] ∧ l = some (xs.map (fun i => (some i : JSNum))))

/-- A BYDAY entry: ordinal absent or an integer. -/
def ByDayRule.Wf (r : ByDayRule) : Prop :=
  r.ordwk = none ∨ ∃ i : Int, r.ordwk = some (some i)

/-- A RECUR value in the codec grammar. -/
def ICalRecur.Wf (v : ICalRecur) : Prop :=
  (match v.untl with
   | none => True
   | some (RecurUntil.date d) => d.Wf
   | some (RecurUntil.dateTime d) => d.Wf ∧ d.tzid = none) ∧
  (v.count = none ∨ ∃ i : Int, v.count = some (some i)) ∧
  (v.interval = none ∨ ∃ i : Int, v.interval = some (some i)) ∧
  WfIntList v.bysecond ∧ WfIntList v.byminute ∧ WfIntList v.byhour ∧
  (v.byday = none ∨
    (∃ rs : List ByDayRule, rs ≠ [] ∧ (∀ r ∈ rs, r.Wf) ∧ v.byday = some rs)) ∧
  WfIntList v.bymonthday ∧ WfIntList v.byyearday ∧ WfIntList v.byweekno ∧
  WfIntList v.bymonth ∧ WfIntList v.bysetpos

/-- A canonical decimal (the image of a JS number under the embedding): all
digits below ten, no trailing zero in the fraction, no negative zero. -/
def JSDec.Wf (d : JSDec) : Prop :=
  (∀ x ∈ d.frac, x < 10) ∧ d.frac.getLast? ≠ some 0 ∧
  (d.neg = true → ¬(d.ip = 0 ∧ d.frac = []))

/-- A GEO value: two non-NaN canonical coordinates. -/
def ICalGeo.Wf (v : ICalGeo) : Prop :=
  (∃ a : JSDec, a.Wf ∧ v.latitude = some a) ∧
  (∃ b : JSDec, b.Wf ∧ v.longitude = some b)

/-- A BINARY value: a genuine byte buffer. -/
def ICalBinary.Wf (v : ICalBinary) : Prop := ∀ b ∈ v.data, b < 256

/-- The parameter map the document layer passes alongside a date-time's
serialization: its TZID travels as a parameter, not in the value string. -/
def tzidParams : Option JSStr → PMap
  | none => []
  | some t => [(js "TZID", PVal.str t)]

/-- Proof-layer abbreviation: the serialized form of one optional duration
unit — the unit's digits followed by its letter, or nothing. -/
def unitPart (u : Char) : Option Nat → JSStr
  | some k => natChars k ++ [u]
  | none => []

-- ── Proof-layer view of the RECUR serialization ─────────────────────────

/-- Rendered `KEY=value` form of one key-value pair. -/
def renderPair (p : JSStr × JSStr) : JSStr := p.1 ++ '=' :: p.2

/-- Zero or one key-value pairs, driven by an optional value. -/
def optPairSeg (k : JSStr) : Option JSStr → SMap
  | some v => [(k, v)]
  | none => []

/-- Serialized value of an optional integer-list field (absent when the
list is absent or empty, matching the `?.length` truthiness test). -/
def numListStr : Option (List JSNum) → Option JSStr
  | some xs => if xs.isEmpty then none else some (joinSep ',' (xs.map jsNumChars))
  | none => none

/-- Serialized value of the UNTIL field. -/
def untlStr : Option RecurUntil → Option JSStr
  | some (RecurUntil.date d) => some (DATE.serialize d)
  | some (RecurUntil.dateTime d) => some (DATE_TIME.serialize d)
  | none => none

/-- Serialized value of the BYDAY field. -/
def bydayStr : Option (List ByDayRule) → Option JSStr
  | some l => if l.isEmpty then none else some (joinSep ',' (l.map byDayChars))
  | none => none

/-- The key-value pairs behind `RECUR.serializeParts`, in the same canonical
order, before rendering each as `KEY=value`. -/
def RECUR.pairs (val : ICalRecur) : SMap :=
  optPairSeg (js "FREQ") (some val.freq.chars) ++
  optPairSeg (js "UNTIL") (untlStr val.untl) ++
  optPairSeg (js "COUNT") (val.count.map jsNumChars) ++
  optPairSeg (js "INTERVAL") (val.interval.map jsNumChars) ++
  optPairSeg (js "BYSECOND") (numListStr val.bysecond) ++
  optPairSeg (js "BYMINUTE") (numListStr val.byminute) ++
  optPairSeg (js "BYHOUR") (numListStr val.byhour) ++
  optPairSeg (js "BYDAY") (bydayStr val.byday) ++
  optPairSeg (js "BYMONTHDAY") (numListStr val.bymonthday) ++
  optPairSeg (js "BYYEARDAY") (numListStr val.byyearday) ++
  optPairSeg (js "BYWEEKNO") (numListStr val.byweekno) ++
  optPairSeg (js "BYMONTH") (numListStr val.bymonth) ++
  optPairSeg (js "BYSETPOS") (numListStr val.bysetpos) ++
  optPairSeg (js "WKST") (val.wkst.map Weekday.chars)

/-- The fourteen keys RECUR.serialize can emit, in canonical order. -/
def RECUR_KEYS : List JSStr :=
  [js "FREQ"] ++ [js "UNTIL"] ++ [js "COUNT"] ++ [js "INTERVAL"] ++
  [js "BYSECOND"] ++ [js "BYMINUTE"] ++ [js "BYHOUR"] ++ [js "BYDAY"] ++
  [js "BYMONTHDAY"] ++ [js "BYYEARDAY"] ++ [js "BYWEEKNO"] ++
  [js "BYMONTH"] ++ [js "BYSETPOS"] ++ [js "WKST"]

/-- The character alphabet of every serialized RECUR key and well-formed
value: digits, minus, comma, dot and the uppercase letters. -/
def recurAB : JSStr := js "0123456789-,.ABCDEFGHIJKLMNOPQRSTUVWXYZ"

-- ═══ Lemmas: strings and decimal numerals ════════════════════════════════

theorem dropWhile_eq_self_of_all {p : Char → Bool} {l : JSStr}
    (h : ∀ c ∈ l, p c = false) : l.dropWhile p = l := by
  cases l with
  | nil => rfl
  | cons a t => simp [List.dropWhile_cons, h a (List.mem_cons_self a t)]

theorem jsTrim_eq_self {l : JSStr} (h : ∀ c ∈ l, isJsWS c = false) :
    jsTrim l = l := by
  unfold jsTrim
  rw [dropWhile_eq_self_of_all h,
    dropWhile_eq_self_of_all (fun c hc => h c (List.mem_reverse.mp hc)),
    List.reverse_reverse]

/-- Everything the round-trip proofs need about a digit character at once. -/
theorem digitCh_props : ∀ d < 10,
    isJsWS (digitCh d) = false ∧ charDigit? (digitCh d) = some d ∧
    digitCh d ≠ '-' ∧ digitCh d ≠ '+' ∧ digitCh d ≠ 'Z' ∧ digitCh d ≠ 'T' ∧
    digitCh d ≠ '/' ∧ digitCh d ≠ ';' ∧ digitCh d ≠ '=' ∧ digitCh d ≠ ',' ∧
    digitCh d ≠ 'W' ∧ digitCh d ≠ 'P' ∧ digitCh d ≠ '.' ∧ digitCh d ≠ '"' ∧
    digitCh d ≠ ':' ∧ digitCh d ≠ '\\' := by
  decide

theorem natDigitsRev_lt10 : ∀ fuel n, ∀ d ∈ natDigitsRev fuel n, d < 10 := by
  intro fuel
  induction fuel with
  | zero => intro n d hd; simp [natDigitsRev] at hd
  | succ f ih =>
    intro n d hd
    by_cases h : n = 0
    · simp [natDigitsRev, h] at hd
    · rw [natDigitsRev] at hd
      simp only [h, if_false] at hd
      rcases List.mem_cons.mp hd with h1 | h2
      · omega
      · exact ih _ _ h2

theorem digitsVal_append (xs : List Nat) (d : Nat) :
    digitsVal (xs ++ [d]) = 10 * digitsVal xs + d := by
  unfold digitsVal
  rw [List.foldl_append]
  rfl

theorem natDigitsRev_val : ∀ fuel n, n ≤ fuel →
    digitsVal ((natDigitsRev fuel n).reverse) = n := by
  intro fuel
  induction fuel with
  | zero =>
    intro n h
    have : n = 0 := by omega
    simp [natDigitsRev, digitsVal, this]
  | succ f ih =>
    intro n h
    by_cases h0 : n = 0
    · simp [natDigitsRev, h0, digitsVal]
    · rw [natDigitsRev]
      simp only [h0, if_false, List.reverse_cons]
      rw [digitsVal_append, ih (n / 10) (by omega)]
      omega

theorem natDigitsBE_lt10 (n : Nat) : ∀ d ∈ natDigitsBE n, d < 10 := by
  intro d hd
  unfold natDigitsBE at hd
  by_cases h : n = 0
  · simp [h] at hd; omega
  · simp only [h, if_false, List.mem_reverse] at hd
    exact natDigitsRev_lt10 n n d hd

theorem natDigitsBE_val (n : Nat) : digitsVal (natDigitsBE n) = n := by
  unfold natDigitsBE
  by_cases h : n = 0
  · simp [h, digitsVal]
  · simp only [h, if_false]
    exact natDigitsRev_val n n (le_refl n)

theorem natDigitsBE_ne_nil (n : Nat) : natDigitsBE n ≠ [] := by
  unfold natDigitsBE
  by_cases h : n = 0
  · simp [h]
  · simp only [h, if_false]
    cases hn : natDigitsRev n n with
    | nil =>
      exfalso
      have := natDigitsRev_val n n (le_refl n)
      rw [hn] at this
      simp [digitsVal] at this
      omega
    | cons a t => simp

theorem natDigitsRev_length : ∀ fuel n k, n < 10 ^ k →
    (natDigitsRev fuel n).length ≤ k := by
  intro fuel
  induction fuel with
  | zero => intro n k _; simp [natDigitsRev]
  | succ f ih =>
    intro n k h
    by_cases h0 : n = 0
    · simp [natDigitsRev, h0]
    · rw [natDigitsRev]
      simp only [h0, if_false, List.length_cons]
      cases k with
      | zero =>
        exfalso
        simp at h
        omega
      | succ k2 =>
        have hk : n / 10 < 10 ^ k2 := by
          rw [Nat.div_lt_iff_lt_mul (by norm_num)]
          calc n < 10 ^ (k2 + 1) := h
          _ = 10 ^ k2 * 10 := by ring
        have := ih (n / 10) k2 hk
        omega

theorem natChars_length_le (n k : Nat) (h1 : 1 ≤ k) (h2 : n < 10 ^ k) :
    (natChars n).length ≤ k := by
  unfold natChars natDigitsBE
  by_cases h : n = 0
  · simp [h]; omega
  · simp only [h, if_false, List.length_map, List.length_reverse]
    exact natDigitsRev_length n n k h2

theorem natChars_ne_nil (n : Nat) : natChars n ≠ [] := by
  unfold natChars
  intro h
  exact natDigitsBE_ne_nil n (List.map_eq_nil_iff.mp h)

theorem takeDigits_map_digitCh (ds : List Nat) (rest : JSStr)
    (hds : ∀ d ∈ ds, d < 10)
    (hrest : ∀ c, rest.head? = some c → charDigit? c = none) :
    takeDigits (ds.map digitCh ++ rest) = (ds, rest) := by
  induction ds with
  | nil =>
    simp only [List.map_nil, List.nil_append]
    cases rest with
    | nil => rfl
    | cons c t =>
      have hc := hrest c rfl
      simp [takeDigits, hc]
  | cons d ds ih =>
    have hd : d < 10 := hds d (List.mem_cons_self d ds)
    have hcd : charDigit? (digitCh d) = some d := (digitCh_props d hd).2.1
    have IH := ih (fun x hx => hds x (List.mem_cons_of_mem d hx))
    simp only [List.map_cons, List.cons_append, takeDigits, hcd]
    rw [show (List.map digitCh ds).append rest = List.map digitCh ds ++ rest from rfl, IH]

theorem digitsVal_replicate_zero (k : Nat) (ds : List Nat) :
    digitsVal (List.replicate k 0 ++ ds) = digitsVal ds := by
  induction k with
  | zero => simp
  | succ m ih =>
    rw [List.replicate_succ, List.cons_append]
    show digitsVal (0 :: (List.replicate m 0 ++ ds)) = digitsVal ds
    unfold digitsVal
    simp only [List.foldl_cons]
    exact ih

/-- parseIntJS on a pure (non-empty) digit-character string yields its
value. -/
theorem parseIntJS_digits (ds : List Nat) (h : ∀ d ∈ ds, d < 10)
    (hne : ds ≠ []) :
    parseIntJS (ds.map digitCh) = some ((digitsVal ds : Nat) : Int) := by
  cases ds with
  | nil => exact absurd rfl hne
  | cons d0 tl =>
    have hd0 : d0 < 10 := h d0 (List.mem_cons_self d0 tl)
    have hws : ∀ c ∈ (d0 :: tl).map digitCh, isJsWS c = false := by
      intro c hc
      rcases List.mem_map.mp hc with ⟨d, hd, rfl⟩
      exact (digitCh_props d (h d hd)).1
    have htake : takeDigits ((d0 :: tl).map digitCh) = (d0 :: tl, []) := by
      have := takeDigits_map_digitCh (d0 :: tl) [] h
        (fun c hc => by simp at hc)
      simpa using this
    unfold parseIntJS
    rw [dropWhile_eq_self_of_all hws]
    have hhead : ((d0 :: tl).map digitCh).head? = some (digitCh d0) := by simp
    have hm : digitCh d0 ≠ '-' := (digitCh_props d0 hd0).2.2.1
    have hp : digitCh d0 ≠ '+' := (digitCh_props d0 hd0).2.2.2.1
    have htake2 : takeDigits (digitCh d0 :: List.map digitCh tl) = (d0 :: tl, []) := by
      simpa using htake
    simp [hhead, hm, hp, htake2]

/-- parseIntJS on a zero-left-padded numeral recovers the number. -/
theorem parseIntJS_padStart_natChars (w n : Nat) :
    parseIntJS (padStartCh (natChars n) w '0') = some ((n : Nat) : Int) := by
  have hrepr : padStartCh (natChars n) w '0'
      = (List.replicate (w - (natChars n).length) 0 ++ natDigitsBE n).map digitCh := by
    unfold padStartCh natChars
    rw [List.map_append, List.map_replicate]
    rfl
  rw [hrepr, parseIntJS_digits, digitsVal_replicate_zero, natDigitsBE_val]
  · intro d hd
    rcases List.mem_append.mp hd with h1 | h2
    · have := List.eq_of_mem_replicate h1
      omega
    · exact natDigitsBE_lt10 n d h2
  · intro hnil
    have := natDigitsBE_ne_nil n
    simp at hnil
    exact this hnil.2

theorem pad2_parse (n : Nat) : parseIntJS (pad2 (some (n : Int))) = some ((n : Nat) : Int) := by
  show parseIntJS (padStartCh (jsNumChars (some (n : Int))) 2 '0') = _
  have : jsNumChars (some (n : Int)) = natChars n := rfl
  rw [this, parseIntJS_padStart_natChars]

theorem pad4_parse (n : Nat) : parseIntJS (pad4 (some (n : Int))) = some ((n : Nat) : Int) := by
  show parseIntJS (padStartCh (jsNumChars (some (n : Int))) 4 '0') = _
  have : jsNumChars (some (n : Int)) = natChars n := rfl
  rw [this, parseIntJS_padStart_natChars]

theorem pad2_length (n : Nat) (h : n ≤ 99) : (pad2 (some (n : Int))).length = 2 := by
  show (padStartCh (jsNumChars (some (n : Int))) 2 '0').length = 2
  have he : jsNumChars (some (n : Int)) = natChars n := rfl
  rw [he]
  unfold padStartCh
  have hlen : (natChars n).length ≤ 2 :=
    natChars_length_le n 2 (by norm_num) (by norm_num; omega)
  simp [List.length_replicate]
  omega

theorem pad4_length (n : Nat) (h : n ≤ 9999) : (pad4 (some (n : Int))).length = 4 := by
  show (padStartCh (jsNumChars (some (n : Int))) 4 '0').length = 4
  have he : jsNumChars (some (n : Int)) = natChars n := rfl
  rw [he]
  unfold padStartCh
  have hlen : (natChars n).length ≤ 4 :=
    natChars_length_le n 4 (by norm_num) (by norm_num; omega)
  simp [List.length_replicate]
  omega

/-- Every character of a zero-padded numeral is a digit character. -/
theorem padStart_natChars_digits (w n : Nat) :
    ∀ c ∈ padStartCh (natChars n) w '0', ∃ d, d < 10 ∧ c = digitCh d := by
  intro c hc
  unfold padStartCh at hc
  rcases List.mem_append.mp hc with h1 | h2
  · have := List.eq_of_mem_replicate h1
    exact ⟨0, by norm_num, by rw [this]; rfl⟩
  · unfold natChars at h2
    rcases List.mem_map.mp h2 with ⟨d, hd, rfl⟩
    exact ⟨d, natDigitsBE_lt10 n d hd, rfl⟩

theorem pad2_digits (n : Nat) :
    ∀ c ∈ pad2 (some (n : Int)), ∃ d, d < 10 ∧ c = digitCh d := by
  have he : jsNumChars (some (n : Int)) = natChars n := rfl
  show ∀ c ∈ padStartCh (jsNumChars (some (n : Int))) 2 '0', _
  rw [he]
  exact padStart_natChars_digits 2 n

theorem pad4_digits (n : Nat) :
    ∀ c ∈ pad4 (some (n : Int)), ∃ d, d < 10 ∧ c = digitCh d := by
  have he : jsNumChars (some (n : Int)) = natChars n := rfl
  show ∀ c ∈ padStartCh (jsNumChars (some (n : Int))) 4 '0', _
  rw [he]
  exact padStart_natChars_digits 4 n

-- ═══ Lemmas: slicing fixed-width concatenations ══════════════════════════

theorem jsSlice_take (A rest : JSStr) (a : Nat) (hA : A.length = a) :
    jsSlice (A ++ rest) 0 a = A := by
  unfold jsSlice
  rw [← hA, List.drop_zero, List.take_left]

theorem jsSlice_drop (A B rest : JSStr) (a b2 : Nat) (hA : A.length = a)
    (hab : b2 = a + B.length) :
    jsSlice (A ++ (B ++ rest)) a b2 = B := by
  unfold jsSlice
  subst hab
  subst hA
  rw [List.take_append, List.take_left, List.drop_left]

theorem getLast?_append_right (A B : JSStr) (h : B ≠ []) :
    (A ++ B).getLast? = B.getLast? :=
  List.getLast?_append_of_ne_nil A h

-- ═══ Lemmas: per-codec round trips ═══════════════════════════════════════

theorem pad2_wsFree (n : Nat) : ∀ c ∈ pad2 (some (n : Int)), isJsWS c = false := by
  intro c hc
  obtain ⟨d, hd, rfl⟩ := pad2_digits n c hc
  exact (digitCh_props d hd).1

theorem pad4_wsFree (n : Nat) : ∀ c ∈ pad4 (some (n : Int)), isJsWS c = false := by
  intro c hc
  obtain ⟨d, hd, rfl⟩ := pad4_digits n c hc
  exact (digitCh_props d hd).1

/-- DATE: parsing the `YYYYMMDD` serialization of an in-grammar date
recovers it exactly. -/
theorem DATE_roundtrip (v : ICalDate) (h : v.Wf) :
    DATE.parse (DATE.serialize v) = v := by
  obtain ⟨Y, M, D⟩ := v
  obtain ⟨⟨y, hy, hvy⟩, ⟨mo, hmo, hvmo⟩, ⟨d, hd, hvd⟩⟩ := h
  subst hvy hvmo hvd
  have h4 := pad4_length y hy
  have h2m := pad2_length mo hmo
  have h2d := pad2_length d hd
  show DATE.parse (pad4 (some (y : Int)) ++ pad2 (some (mo : Int)) ++ pad2 (some (d : Int))) = _
  unfold DATE.parse
  have hws : ∀ c ∈ pad4 (some (y : Int)) ++ pad2 (some (mo : Int)) ++ pad2 (some (d : Int)),
      isJsWS c = false := by
    intro c hc
    rcases List.mem_append.mp hc with hc1 | hc2
    · rcases List.mem_append.mp hc1 with hc3 | hc4
      · exact pad4_wsFree y c hc3
      · exact pad2_wsFree mo c hc4
    · exact pad2_wsFree d c hc2
  rw [jsTrim_eq_self hws]
  have e1 : jsSlice (pad4 (some (y : Int)) ++ pad2 (some (mo : Int)) ++ pad2 (some (d : Int))) 0 4
      = pad4 (some (y : Int)) := by
    rw [List.append_assoc]
    exact jsSlice_take _ _ 4 h4
  have e2 : jsSlice (pad4 (some (y : Int)) ++ pad2 (some (mo : Int)) ++ pad2 (some (d : Int))) 4 6
      = pad2 (some (mo : Int)) := by
    rw [List.append_assoc]
    exact jsSlice_drop _ _ _ 4 6 h4 (by rw [h2m])
  have e3 : jsSlice (pad4 (some (y : Int)) ++ pad2 (some (mo : Int)) ++ pad2 (some (d : Int))) 6 8
      = pad2 (some (d : Int)) := by
    have hr : pad4 (some (y : Int)) ++ pad2 (some (mo : Int)) ++ pad2 (some (d : Int))
        = (pad4 (some (y : Int)) ++ pad2 (some (mo : Int))) ++ (pad2 (some (d : Int)) ++ []) := by
      simp
    rw [hr]
    exact jsSlice_drop _ _ _ 6 8 (by rw [List.length_append, h4, h2m]) (by rw [h2d])
  simp only [e1, e2, e3, pad4_parse y, pad2_parse mo, pad2_parse d]

theorem jsSlice_eq (s pre B post : JSStr) (a b : Nat)
    (hs : s = pre ++ B ++ post) (ha : pre.length = a) (hb : b = a + B.length) :
    jsSlice s a b = B := by
  subst hs
  rw [List.append_assoc]
  exact jsSlice_drop pre B post a b ha hb

theorem pad2_ne_nil (n : Nat) : pad2 (some (n : Int)) ≠ [] := by
  show padStartCh (jsNumChars (some (n : Int))) 2 '0' ≠ []
  have he : jsNumChars (some (n : Int)) = natChars n := rfl
  rw [he]
  unfold padStartCh
  intro h
  rcases List.append_eq_nil.mp h with ⟨_, h2⟩
  exact natChars_ne_nil n h2

theorem pmGet_tzidParams (tz : Option JSStr) :
    pmGet (tzidParams tz) (js "TZID") = tz.map PVal.str := by
  cases tz with
  | none => rfl
  | some t => simp [tzidParams, pmGet, List.find?]

/-- DATE-TIME: parsing the serialization of an in-grammar date-time, with
its TZID travelling in the parameters where the document layer carries it,
recovers the value exactly (the trailing `Z` is emitted and re-read iff the
UTC flag is set). -/
theorem DATE_TIME_roundtrip_core (y mo d hr mi sc : Nat) (utc : Bool) (tz : Option JSStr)
    (hy : y ≤ 9999) (hmo : mo ≤ 99) (hd : d ≤ 99) (hhr : hr ≤ 99) (hmi : mi ≤ 99)
    (hsc : sc ≤ 99) :
    DATE_TIME.parse
      (DATE_TIME.serialize
        ⟨some (y : Int), some (mo : Int), some (d : Int), some (hr : Int),
          some (mi : Int), some (sc : Int), utc, tz⟩)
      (tzidParams tz) =
      ⟨some (y : Int), some (mo : Int), some (d : Int), some (hr : Int),
        some (mi : Int), some (sc : Int), utc, tz⟩ := by
  have l4 := pad4_length y hy
  have lm := pad2_length mo hmo
  have ld := pad2_length d hd
  have lh := pad2_length hr hhr
  have li := pad2_length mi hmi
  have ls := pad2_length sc hsc
  set A := pad4 (some (y : Int)) with hA
  set B := pad2 (some (mo : Int)) with hB
  set C := pad2 (some (d : Int)) with hC
  set D := pad2 (some (hr : Int)) with hD
  set E := pad2 (some (mi : Int)) with hE
  set F := pad2 (some (sc : Int)) with hF
  have hcore : DATE_TIME.serialize
      ⟨some (y : Int), some (mo : Int), some (d : Int), some (hr : Int),
        some (mi : Int), some (sc : Int), utc, tz⟩
      = (if utc then (A ++ B ++ C ++ 'T' :: (D ++ E ++ F)) ++ ['Z']
         else A ++ B ++ C ++ 'T' :: (D ++ E ++ F)) := by
    unfold DATE_TIME.serialize
    cases utc <;> rfl
  set core := A ++ B ++ C ++ 'T' :: (D ++ E ++ F) with hcoreDef
  have hwsCore : ∀ c ∈ core, isJsWS c = false := by
    intro c hc
    rw [hcoreDef] at hc
    simp only [List.mem_append, List.mem_cons] at hc
    rcases hc with ((h1 | h2) | h3) | h4 | (h5 | h6) | h7
    · exact pad4_wsFree y c h1
    · exact pad2_wsFree mo c h2
    · exact pad2_wsFree d c h3
    · subst h4; decide
    · exact pad2_wsFree hr c h5
    · exact pad2_wsFree mi c h6
    · exact pad2_wsFree sc c h7
  have e04 : jsSlice core 0 4 = A := by
    rw [hcoreDef, List.append_assoc, List.append_assoc]
    exact jsSlice_take _ _ 4 l4
  have e46 : jsSlice core 4 6 = B := by
    refine jsSlice_eq core A B (C ++ 'T' :: (D ++ E ++ F)) 4 6 ?_ l4 (by rw [lm])
    simp [hcoreDef, List.append_assoc]
  have e68 : jsSlice core 6 8 = C := by
    refine jsSlice_eq core (A ++ B) C ('T' :: (D ++ E ++ F)) 6 8 ?_ ?_ (by rw [ld])
    · simp [hcoreDef, List.append_assoc]
    · rw [List.length_append, l4, lm]
  have e911 : jsSlice core 9 11 = D := by
    refine jsSlice_eq core (A ++ B ++ C ++ ['T']) D (E ++ F) 9 11 ?_ ?_ (by rw [lh])
    · simp [hcoreDef, List.append_assoc]
    · simp [l4, lm, ld]
  have e1113 : jsSlice core 11 13 = E := by
    refine jsSlice_eq core (A ++ B ++ C ++ ['T'] ++ D) E F 11 13 ?_ ?_ (by rw [li])
    · simp [hcoreDef, List.append_assoc]
    · simp [l4, lm, ld, lh]
  have e1315 : jsSlice core 13 15 = F := by
    refine jsSlice_eq core (A ++ B ++ C ++ ['T'] ++ D ++ E) F [] 13 15 ?_ ?_ (by rw [ls])
    · simp [hcoreDef, List.append_assoc]
    · simp [l4, lm, ld, lh, li]
  have htz := pmGet_tzidParams tz
  rw [hcore]
  cases utc with
  | true =>
    rw [if_pos rfl]
    have htrim : jsTrim (core ++ ['Z']) = core ++ ['Z'] := by
      apply jsTrim_eq_self
      intro c hc
      rcases List.mem_append.mp hc with h1 | h2
      · exact hwsCore c h1
      · simp at h2
        subst h2
        decide
    unfold DATE_TIME.parse
    simp only [htrim, List.getLast?_concat, beq_self_eq_true, if_true,
      List.dropLast_concat, e04, e46, e68, e911, e1113, e1315, htz,
      hA, hB, hC, hD, hE, hF, pad4_parse, pad2_parse]
    cases tz <;> rfl
  | false =>
    rw [if_neg (by simp)]
    have hFne : F ≠ [] := by rw [hF]; exact pad2_ne_nil sc
    have hlastF : F.getLast? = some (F.getLast hFne) := List.getLast?_eq_getLast F hFne
    have hmemF : F.getLast hFne ∈ F := List.getLast_mem hFne
    have hmemF2 : F.getLast hFne ∈ pad2 (some (sc : Int)) := by
      rw [← hF]
      exact hmemF
    obtain ⟨dd, hdd, hEq⟩ := pad2_digits sc _ hmemF2
    have hcoreLast : core.getLast? = some (digitCh dd) := by
      rw [hcoreDef,
        show A ++ B ++ C ++ 'T' :: (D ++ E ++ F)
          = (A ++ B ++ C ++ 'T' :: (D ++ E)) ++ F from by simp [List.append_assoc],
        getLast?_append_right _ F hFne, hlastF, hEq]
    have hZ : digitCh dd ≠ 'Z' := (digitCh_props dd hdd).2.2.2.2.1
    have hbeq : ((core.getLast?) == some 'Z') = false := by
      rw [hcoreLast]
      simp [hZ]
    unfold DATE_TIME.parse
    simp only [jsTrim_eq_self hwsCore, hbeq, Bool.false_eq_true, if_false,
      e04, e46, e68, e911, e1113, e1315, htz,
      hA, hB, hC, hD, hE, hF, pad4_parse, pad2_parse]
    cases tz <;> rfl

/-- UTC-OFFSET: parsing the `(+|-)HHMM[SS]` serialization of an in-grammar
offset recovers it, sign included. -/
theorem UTC_OFFSET_roundtrip (v : ICalUtcOffset) (h : v.Wf) :
    UTC_OFFSET.parse (UTC_OFFSET.serialize v) = v := by
  obtain ⟨sg, H, M, S⟩ := v
  obtain ⟨hsign, ⟨hh, hhb, he1⟩, ⟨mm, hmb, he2⟩, hsec⟩ :
      (sg = js "+" ∨ sg = js "-") ∧ WfN 99 H ∧ WfN 99 M ∧
      (S = none ∨ ∃ k : Nat, k ≤ 99 ∧ S = some ((k : Int) : JSNum)) := h
  subst he1 he2
  have lh := pad2_length hh hhb
  have lm := pad2_length mm hmb
  set A := pad2 (some (hh : Int)) with hA
  set B := pad2 (some (mm : Int)) with hB
  obtain ⟨sc, hsg, hscv⟩ : ∃ sc : Char, sg = [sc] ∧ (sc = '+' ∨ sc = '-') := by
    rcases hsign with h1 | h1
    · exact ⟨'+', h1, Or.inl rfl⟩
    · exact ⟨'-', h1, Or.inr rfl⟩
  subst hsg
  have hwssc : isJsWS sc = false := by rcases hscv with h1 | h1 <;> subst h1 <;> decide
  rcases hsec with hs0 | ⟨ss, hssb, hs1⟩
  · subst hs0
    show UTC_OFFSET.parse ([sc] ++ A ++ B) = _
    have hws : ∀ c ∈ [sc] ++ A ++ B, isJsWS c = false := by
      intro c hc
      simp only [List.mem_append, List.mem_singleton] at hc
      rcases hc with (h1 | h2) | h3
      · subst h1; exact hwssc
      · exact pad2_wsFree hh c h2
      · exact pad2_wsFree mm c h3
    have e13 : jsSlice ([sc] ++ A ++ B) 1 3 = A := by
      refine jsSlice_eq _ [sc] A B 1 3 ?_ rfl (by rw [lh])
      simp [List.append_assoc]
    have e35 : jsSlice ([sc] ++ A ++ B) 3 5 = B := by
      refine jsSlice_eq _ ([sc] ++ A) B [] 3 5 (by simp) (by simp [lh]) (by rw [lm])
    have hlen : ([sc] ++ A ++ B).length = 5 := by simp [lh, lm]
    unfold UTC_OFFSET.parse
    simp only [jsTrim_eq_self hws, e13, e35, hlen, hA, hB, pad2_parse]
    rcases hscv with h1 | h1 <;> subst h1 <;> simp <;> rfl
  · subst hs1
    have ls := pad2_length ss hssb
    set C := pad2 (some (ss : Int)) with hC
    show UTC_OFFSET.parse ([sc] ++ A ++ B ++ C) = _
    have hws : ∀ c ∈ [sc] ++ A ++ B ++ C, isJsWS c = false := by
      intro c hc
      simp only [List.mem_append, List.mem_singleton] at hc
      rcases hc with ((h1 | h2) | h3) | h4
      · subst h1; exact hwssc
      · exact pad2_wsFree hh c h2
      · exact pad2_wsFree mm c h3
      · exact pad2_wsFree ss c h4
    have e13 : jsSlice ([sc] ++ A ++ B ++ C) 1 3 = A := by
      refine jsSlice_eq _ [sc] A (B ++ C) 1 3 ?_ rfl (by rw [lh])
      simp [List.append_assoc]
    have e35 : jsSlice ([sc] ++ A ++ B ++ C) 3 5 = B := by
      refine jsSlice_eq _ ([sc] ++ A) B C 3 5 ?_ (by simp [lh]) (by rw [lm])
      simp [List.append_assoc]
    have e57 : jsSlice ([sc] ++ A ++ B ++ C) 5 7 = C := by
      refine jsSlice_eq _ ([sc] ++ A ++ B) C [] 5 7 (by simp) (by simp [lh, lm]) (by rw [ls])
    have hlen : ([sc] ++ A ++ B ++ C).length = 7 := by simp [lh, lm, ls]
    unfold UTC_OFFSET.parse
    simp only [jsTrim_eq_self hws, e13, e35, e57, hlen, hA, hB, hC, pad2_parse]
    rcases hscv with h1 | h1 <;> subst h1 <;> simp <;> rfl

-- ═══ Lemmas: the DURATION scanners ═══════════════════════════════════════

theorem takeDigits_rest_mem : ∀ (l : JSStr), ∀ x ∈ (takeDigits l).2, x ∈ l := by
  intro l
  induction l with
  | nil => intro x hx; simp [takeDigits] at hx
  | cons c rest ih =>
    intro x hx
    unfold takeDigits at hx
    cases hcd : charDigit? c with
    | some d =>
      rw [hcd] at hx
      simp only at hx
      exact List.mem_cons_of_mem c (ih x hx)
    | none =>
      rw [hcd] at hx
      simpa using hx

theorem findNumBefore_not_mem (t : Char) : ∀ (l : JSStr), t ∉ l →
    findNumBefore t l = none := by
  intro l
  induction l with
  | nil => intro _; rfl
  | cons c rest ih =>
    intro hnm
    have hnc : t ∉ rest := fun hm => hnm (List.mem_cons_of_mem c hm)
    unfold findNumBefore
    cases hcd : charDigit? c with
    | some d =>
      simp only
      have hhd : ¬((takeDigits rest).2.head? = some t) := by
        intro hh
        have hmem : t ∈ (takeDigits rest).2 := by
          cases hr : (takeDigits rest).2 with
          | nil => rw [hr] at hh; simp at hh
          | cons a b =>
            rw [hr] at hh
            simp at hh
            subst hh
            exact List.mem_cons_self _ b
        exact hnc (takeDigits_rest_mem rest t hmem)
      simp only [hhd, if_false]
      exact ih hnc
    | none => exact ih hnc

theorem findNumBefore_found (t : Char) (ds : List Nat) (rest : JSStr)
    (h : ∀ d ∈ ds, d < 10) (hne : ds ≠ []) (ht : charDigit? t = none) :
    findNumBefore t (ds.map digitCh ++ t :: rest) = some (digitsVal ds) := by
  cases ds with
  | nil => exact absurd rfl hne
  | cons d0 tl =>
    have hd0 : d0 < 10 := h d0 (List.mem_cons_self d0 tl)
    have htl : ∀ d ∈ tl, d < 10 := fun d hd => h d (List.mem_cons_of_mem d0 hd)
    have htake : takeDigits (tl.map digitCh ++ t :: rest) = (tl, t :: rest) :=
      takeDigits_map_digitCh tl (t :: rest) htl
        (fun c hc => by simp at hc; rw [← hc]; exact ht)
    unfold findNumBefore
    simp only [List.map_cons, List.cons_append, (digitCh_props d0 hd0).2.1, htake]
    simp

theorem findNumBefore_skip_run (t : Char) (ds : List Nat) (u : Char) (rest : JSStr)
    (h : ∀ d ∈ ds, d < 10) (hu : charDigit? u = none) (hut : u ≠ t) :
    findNumBefore t (ds.map digitCh ++ u :: rest) = findNumBefore t rest := by
  induction ds with
  | nil =>
    simp only [List.map_nil, List.nil_append]
    conv_lhs => rw [findNumBefore]
    rw [hu]
  | cons d0 tl ih =>
    have hd0 : d0 < 10 := h d0 (List.mem_cons_self d0 tl)
    have htl : ∀ d ∈ tl, d < 10 := fun d hd => h d (List.mem_cons_of_mem d0 hd)
    have htake : takeDigits (tl.map digitCh ++ u :: rest) = (tl, u :: rest) :=
      takeDigits_map_digitCh tl (u :: rest) htl
        (fun c hc => by simp at hc; rw [← hc]; exact hu)
    simp only [List.map_cons, List.cons_append]
    conv_lhs => rw [findNumBefore]
    simp only [(digitCh_props d0 hd0).2.1, htake]
    have : ¬((u :: rest).head? = some t) := by simp [hut]
    simp only [this, if_false]
    exact ih htl

theorem jsIndexOfCh_not_mem (c : Char) : ∀ (l : JSStr), c ∉ l →
    jsIndexOfCh c l = none := by
  intro l
  induction l with
  | nil => intro _; rfl
  | cons a rest ih =>
    intro hnm
    have hna : a ≠ c := fun he => hnm (he ▸ List.mem_cons_self a rest)
    unfold jsIndexOfCh
    rw [if_neg hna, ih (fun hm => hnm (List.mem_cons_of_mem a hm))]
    rfl

theorem jsIndexOfCh_append_cons (c : Char) (A rest : JSStr) (h : c ∉ A) :
    jsIndexOfCh c (A ++ c :: rest) = some A.length := by
  induction A with
  | nil =>
    unfold jsIndexOfCh
    simp
  | cons a tl ih =>
    have hna : a ≠ c := fun he => h (he ▸ List.mem_cons_self a tl)
    have htl : c ∉ tl := fun hm => h (List.mem_cons_of_mem a hm)
    show jsIndexOfCh c (a :: (tl ++ c :: rest)) = some (a :: tl).length
    unfold jsIndexOfCh
    rw [if_neg hna, ih htl]
    simp

theorem drop_append_cons (A : JSStr) (c : Char) (rest : JSStr) :
    (A ++ c :: rest).drop (A.length + 1) = rest := by
  have h1 : A ++ c :: rest = (A ++ [c]) ++ rest := by simp
  have h2 : A.length + 1 = (A ++ [c]).length := by simp
  rw [h1, h2]
  exact List.drop_left (A ++ [c]) rest

theorem digitCh_ne_of_nonDigit (d : Nat) (hd : d < 10) (c : Char)
    (hc : charDigit? c = none) : digitCh d ≠ c := by
  intro he
  have h1 := (digitCh_props d hd).2.1
  rw [he, hc] at h1
  exact Option.noConfusion h1

theorem unitPart_chars (u : Char) (n : Option Nat) :
    ∀ c ∈ unitPart u n, (∃ d, d < 10 ∧ c = digitCh d) ∨ c = u := by
  intro c hc
  cases n with
  | none => simp [unitPart] at hc
  | some k =>
    rcases List.mem_append.mp hc with h1 | h2
    · rcases List.mem_map.mp h1 with ⟨d, hd, rfl⟩
      exact Or.inl ⟨d, natDigitsBE_lt10 k d hd, rfl⟩
    · simp at h2
      exact Or.inr h2

theorem not_mem_unitPart (t u : Char) (n : Option Nat) (ht : charDigit? t = none)
    (htu : t ≠ u) : t ∉ unitPart u n := by
  intro hmem
  rcases unitPart_chars u n t hmem with ⟨d, hd, he⟩ | he
  · exact digitCh_ne_of_nonDigit d hd t ht he.symm
  · exact htu he

theorem unitPart_wsFree (u : Char) (n : Option Nat) (hu : isJsWS u = false) :
    ∀ c ∈ unitPart u n, isJsWS c = false := by
  intro c hc
  rcases unitPart_chars u n c hc with ⟨d, hd, rfl⟩ | rfl
  · exact (digitCh_props d hd).1
  · exact hu

theorem findNumBefore_unitPart_found (u : Char) (k : Nat) (rest : JSStr)
    (hu : charDigit? u = none) :
    findNumBefore u (unitPart u (some k) ++ rest) = some k := by
  show findNumBefore u ((natDigitsBE k).map digitCh ++ [u] ++ rest) = some k
  rw [List.append_assoc]
  show findNumBefore u ((natDigitsBE k).map digitCh ++ u :: rest) = some k
  rw [findNumBefore_found u (natDigitsBE k) rest (natDigitsBE_lt10 k)
    (natDigitsBE_ne_nil k) hu, natDigitsBE_val]

theorem findNumBefore_skip_unitPart (t u : Char) (n : Option Nat) (rest : JSStr)
    (hu : charDigit? u = none) (hut : u ≠ t) :
    findNumBefore t (unitPart u n ++ rest) = findNumBefore t rest := by
  cases n with
  | none => rfl
  | some k =>
    show findNumBefore t ((natDigitsBE k).map digitCh ++ [u] ++ rest) = _
    rw [List.append_assoc]
    show findNumBefore t ((natDigitsBE k).map digitCh ++ u :: rest) = _
    exact findNumBefore_skip_run t (natDigitsBE k) u rest (natDigitsBE_lt10 k) hu hut

/-- The day/time serializer fragment for one unit collapses to `unitPart`
when the unit is absent-or-positive. -/
theorem serialize_unit_eq (u : Char) (o : Option Nat)
    (ho : ∀ k, o = some k → 1 ≤ k) :
    (if jsTruthyField (o.map (fun k => ((k : Int) : JSNum))) then
      jsNumChars ((o.map (fun k => ((k : Int) : JSNum))).getD none) ++ [u]
     else []) = unitPart u o := by
  cases o with
  | none => rfl
  | some k =>
    have hk := ho k rfl
    have htrue : jsTruthyField ((some k : Option Nat).map (fun k => ((k : Int) : JSNum))) = true := by
      simp [jsTruthyField, jsTruthyNum]
      omega
    rw [htrue, if_pos rfl]
    rfl

theorem truthy_unit_eq (o : Option Nat) (ho : ∀ k, o = some k → 1 ≤ k) :
    jsTruthyField (o.map (fun k => ((k : Int) : JSNum))) = o.isSome := by
  cases o with
  | none => rfl
  | some k =>
    have hk := ho k rfl
    simp [jsTruthyField, jsTruthyNum]
    omega

/-- Evaluation of DURATION.parse on a string of the shape the serializer
emits: optional minus sign, `P`, then a whitespace-free body. -/
theorem DURATION_parse_eval (neg : Bool) (body : JSStr)
    (hws : ∀ c ∈ body, isJsWS c = false) :
    DURATION.parse ((if neg then ['-'] else []) ++ 'P' :: body) =
      (match matchAnchoredWeeks body with
       | some w =>
         { negative := neg, weeks := some (some (w : Int)), days := none,
           hours := none, minutes := none, seconds := none }
       | none =>
         match jsIndexOfCh 'T' body with
         | none =>
           { negative := neg, weeks := none,
             days := (findNumBefore 'D' body).map (fun n => some (n : Int)),
             hours := none, minutes := none, seconds := none }
         | some i =>
           { negative := neg, weeks := none,
             days := (findNumBefore 'D' body).map (fun n => some (n : Int)),
             hours := (findNumBefore 'H' (body.drop (i + 1))).map
               (fun n => some (n : Int)),
             minutes := (findNumBefore 'M' (body.drop (i + 1))).map
               (fun n => some (n : Int)),
             seconds := (findNumBefore 'S' (body.drop (i + 1))).map
               (fun n => some (n : Int)) }) := by
  cases neg with
  | false =>
    have htrim : jsTrim ('P' :: body) = 'P' :: body := jsTrim_eq_self (by
      intro c hc
      rcases List.mem_cons.mp hc with rfl | h2
      · decide
      · exact hws c h2)
    show DURATION.parse ('P' :: body) = _
    unfold DURATION.parse
    rw [htrim]
    simp only [List.head?_cons, List.tail_cons,
      show ((some 'P' : Option Char) == some '-') = false from rfl]
    rw [if_neg (show ¬('P' = '+' ∨ 'P' = '-') from by decide)]
    simp only [List.head?_cons, List.tail_cons]
    rw [if_neg (show ¬((some 'P' : Option Char) ≠ some 'P') from by simp)]
  | true =>
    have htrim : jsTrim ('-' :: 'P' :: body) = '-' :: 'P' :: body := jsTrim_eq_self (by
      intro c hc
      rcases List.mem_cons.mp hc with rfl | h2
      · decide
      · rcases List.mem_cons.mp h2 with rfl | h3
        · decide
        · exact hws c h3)
    show DURATION.parse ('-' :: 'P' :: body) = _
    unfold DURATION.parse
    rw [htrim]
    simp only [List.head?_cons, List.tail_cons,
      show ((some '-' : Option Char) == some '-') = true from rfl]
    rw [if_pos (show ('-' = '+' ∨ True) from Or.inr trivial)]
    simp only [List.head?_cons, List.tail_cons]
    rw [if_neg (show ¬((some 'P' : Option Char) ≠ some 'P') from by simp)]

/-- DURATION: parsing the serialization of an in-grammar duration (weeks, or
absent-or-positive day/time units) recovers it exactly. -/
theorem DURATION_roundtrip (v : ICalDuration) (h : v.Wf) :
    DURATION.parse (DURATION.serialize v) = v := by
  obtain ⟨neg, W, Dy, Hh, Mn, Sc⟩ := v
  cases W with
  | some w =>
    obtain ⟨⟨k, hw⟩, hD, hH, hM, hS⟩ :
        (∃ k : Nat, w = some (k : Int)) ∧ Dy = none ∧ Hh = none ∧ Mn = none ∧
          Sc = none := h
    subst hw hD hH hM hS
    have hser : DURATION.serialize ⟨neg, some (some (k : Int)), none, none, none, none⟩
        = (if neg then ['-'] else []) ++ 'P' :: (natChars k ++ ['W']) := by
      cases neg <;> rfl
    have htake : takeDigits ((natDigitsBE k).map digitCh ++ ['W'])
        = (natDigitsBE k, ['W']) :=
      takeDigits_map_digitCh _ _ (natDigitsBE_lt10 k)
        (fun c hc => by simp at hc; subst hc; decide)
    have hweeks : matchAnchoredWeeks (natChars k ++ ['W']) = some k := by
      unfold matchAnchoredWeeks
      have hne : ((natDigitsBE k).isEmpty) = false := by
        cases he : natDigitsBE k with
        | nil => exact absurd he (natDigitsBE_ne_nil k)
        | cons a t => rfl
      rw [show natChars k ++ ['W'] = (natDigitsBE k).map digitCh ++ ['W'] from rfl, htake]
      simp [hne, natDigitsBE_val]
    have hwsb : ∀ c ∈ natChars k ++ ['W'], isJsWS c = false := by
      intro c hc
      rcases List.mem_append.mp hc with h1 | h2
      · rcases List.mem_map.mp h1 with ⟨d, hd, rfl⟩
        exact (digitCh_props d (natDigitsBE_lt10 k d hd)).1
      · simp at h2
        subst h2
        decide
    rw [hser, DURATION_parse_eval neg _ hwsb, hweeks]
  | none =>
    obtain ⟨hD, hH, hM, hS⟩ : WfUnit Dy ∧ WfUnit Hh ∧ WfUnit Mn ∧ WfUnit Sc := h
    have hconv : ∀ u : Option JSNum, WfUnit u →
        ∃ o : Option Nat, u = o.map (fun k => ((k : Int) : JSNum)) ∧
          (∀ k, o = some k → 1 ≤ k) := by
      intro u hu
      rcases hu with rfl | ⟨k, hk, rfl⟩
      · exact ⟨none, rfl, by intro k h2; cases h2⟩
      · exact ⟨some k, rfl, by intro k2 h2; simp at h2; omega⟩
    obtain ⟨dO, hDy, hDpos⟩ := hconv Dy hD
    obtain ⟨hO, hHh, hHpos⟩ := hconv Hh hH
    obtain ⟨mO, hMn, hMpos⟩ := hconv Mn hM
    obtain ⟨sO, hSc, hSpos⟩ := hconv Sc hS
    subst hDy hHh hMn hSc
    set inner := unitPart 'H' hO ++ (unitPart 'M' mO ++ unitPart 'S' sO) with hinner
    set TP := (if (hO.isSome || mO.isSome || sO.isSome) then 'T' :: inner else [])
      with hTP
    set body := unitPart 'D' dO ++ TP with hbody
    have hser : DURATION.serialize
        ⟨neg, none, dO.map (fun k => ((k : Int) : JSNum)),
          hO.map (fun k => ((k : Int) : JSNum)), mO.map (fun k => ((k : Int) : JSNum)),
          sO.map (fun k => ((k : Int) : JSNum))⟩
        = (if neg then ['-'] else []) ++ 'P' :: body := by
      unfold DURATION.serialize
      dsimp only
      rw [serialize_unit_eq 'D' dO hDpos, serialize_unit_eq 'H' hO hHpos,
        serialize_unit_eq 'M' mO hMpos, serialize_unit_eq 'S' sO hSpos,
        truthy_unit_eq hO hHpos, truthy_unit_eq mO hMpos, truthy_unit_eq sO hSpos]
      rw [hbody, hTP, hinner]
      cases neg <;> simp [List.append_assoc]
    have hwsInner : ∀ c ∈ inner, isJsWS c = false := by
      intro c hc
      rw [hinner] at hc
      rcases List.mem_append.mp hc with h1 | h2
      · exact unitPart_wsFree 'H' hO (by decide) c h1
      · rcases List.mem_append.mp h2 with h3 | h4
        · exact unitPart_wsFree 'M' mO (by decide) c h3
        · exact unitPart_wsFree 'S' sO (by decide) c h4
    have hwsBody : ∀ c ∈ body, isJsWS c = false := by
      intro c hc
      rw [hbody] at hc
      rcases List.mem_append.mp hc with h1 | h2
      · exact unitPart_wsFree 'D' dO (by decide) c h1
      · rw [hTP] at h2
        by_cases ht : (hO.isSome || mO.isSome || sO.isSome : Bool)
        · rw [if_pos ht] at h2
          rcases List.mem_cons.mp h2 with rfl | h3
          · decide
          · exact hwsInner c h3
        · rw [if_neg ht] at h2
          simp at h2
    have hDinTP : 'D' ∉ TP := by
      rw [hTP]
      by_cases ht : (hO.isSome || mO.isSome || sO.isSome : Bool)
      · rw [if_pos ht]
        intro hmem
        rcases List.mem_cons.mp hmem with he | hmem2
        · exact absurd he (by decide)
        · rw [hinner] at hmem2
          rcases List.mem_append.mp hmem2 with h1 | h2
          · exact not_mem_unitPart 'D' 'H' hO (by decide) (by decide) h1
          · rcases List.mem_append.mp h2 with h3 | h4
            · exact not_mem_unitPart 'D' 'M' mO (by decide) (by decide) h3
            · exact not_mem_unitPart 'D' 'S' sO (by decide) (by decide) h4
      · rw [if_neg ht]
        simp
    have hTinD : 'T' ∉ unitPart 'D' dO :=
      not_mem_unitPart 'T' 'D' dO (by decide) (by decide)
    have hwk : matchAnchoredWeeks body = none := by
      rw [hbody]
      cases dO with
      | some k =>
        show matchAnchoredWeeks ((natDigitsBE k).map digitCh ++ ['D'] ++ TP) = none
        rw [List.append_assoc]
        show matchAnchoredWeeks ((natDigitsBE k).map digitCh ++ 'D' :: TP) = none
        unfold matchAnchoredWeeks
        rw [takeDigits_map_digitCh _ _ (natDigitsBE_lt10 k)
          (fun c hc => by simp at hc; subst hc; decide)]
        have hne : ((natDigitsBE k).isEmpty) = false := by
          cases he : natDigitsBE k with
          | nil => exact absurd he (natDigitsBE_ne_nil k)
          | cons a t => rfl
        simp [hne]
      | none =>
        show matchAnchoredWeeks ([] ++ TP) = none
        rw [List.nil_append, hTP]
        by_cases ht : (hO.isSome || mO.isSome || sO.isSome : Bool)
        · rw [if_pos ht]
          unfold matchAnchoredWeeks
          have h1 : takeDigits ('T' :: inner) = ([], 'T' :: inner) := by
            unfold takeDigits
            rw [show charDigit? 'T' = none from rfl]
          rw [h1]
          rfl
        · rw [if_neg ht]
          rfl
    have hfD : findNumBefore 'D' body = dO := by
      rw [hbody]
      cases dO with
      | some k => exact findNumBefore_unitPart_found 'D' k TP (by decide)
      | none =>
        show findNumBefore 'D' ([] ++ TP) = none
        rw [List.nil_append]
        exact findNumBefore_not_mem 'D' TP hDinTP
    have hfH : findNumBefore 'H' inner = hO := by
      rw [hinner]
      cases hO with
      | some k => exact findNumBefore_unitPart_found 'H' k _ (by decide)
      | none =>
        show findNumBefore 'H' ([] ++ (unitPart 'M' mO ++ unitPart 'S' sO)) = none
        rw [List.nil_append]
        apply findNumBefore_not_mem
        intro hmem
        rcases List.mem_append.mp hmem with h1 | h2
        · exact not_mem_unitPart 'H' 'M' mO (by decide) (by decide) h1
        · exact not_mem_unitPart 'H' 'S' sO (by decide) (by decide) h2
    have hfM : findNumBefore 'M' inner = mO := by
      rw [hinner, findNumBefore_skip_unitPart 'M' 'H' hO _ (by decide) (by decide)]
      cases mO with
      | some k => exact findNumBefore_unitPart_found 'M' k _ (by decide)
      | none =>
        show findNumBefore 'M' ([] ++ unitPart 'S' sO) = none
        rw [List.nil_append]
        exact findNumBefore_not_mem 'M' _
          (not_mem_unitPart 'M' 'S' sO (by decide) (by decide))
    have hfS : findNumBefore 'S' inner = sO := by
      rw [hinner, findNumBefore_skip_unitPart 'S' 'H' hO _ (by decide) (by decide),
        findNumBefore_skip_unitPart 'S' 'M' mO _ (by decide) (by decide)]
      cases sO with
      | some k =>
        have := findNumBefore_unitPart_found 'S' k [] (by decide)
        simpa using this
      | none => rfl
    rw [hser, DURATION_parse_eval neg body hwsBody, hwk]
    by_cases ht : (hO.isSome || mO.isSome || sO.isSome : Bool)
    · have hTPval : TP = 'T' :: inner := by rw [hTP, if_pos ht]
      have hidx : jsIndexOfCh 'T' body = some (unitPart 'D' dO).length := by
        rw [hbody, hTPval]
        exact jsIndexOfCh_append_cons 'T' (unitPart 'D' dO) inner hTinD
      have hdrop : body.drop ((unitPart 'D' dO).length + 1) = inner := by
        rw [hbody, hTPval]
        exact drop_append_cons (unitPart 'D' dO) 'T' inner
      rw [hidx]
      simp only [hdrop, hfD, hfH, hfM, hfS]
    · have hTPval : TP = [] := by rw [hTP, if_neg ht]
      have hidx : jsIndexOfCh 'T' body = none := by
        rw [hbody, hTPval, List.append_nil]
        exact jsIndexOfCh_not_mem 'T' _ hTinD
      have hOn : hO = none := by
        cases hO
        · rfl
        · simp at ht
      have hMn2 : mO = none := by
        cases mO
        · rfl
        · simp at ht
      have hSn : sO = none := by
        cases sO
        · rfl
        · simp at ht
      rw [hidx]
      simp only [hfD, hOn, hMn2, hSn]
      rfl

theorem natChars_wsFree (n : Nat) : ∀ c ∈ natChars n, isJsWS c = false := by
  intro c hc
  rcases List.mem_map.mp hc with ⟨d, hd, rfl⟩
  exact (digitCh_props d (natDigitsBE_lt10 n d hd)).1

theorem jsNumChars_wsFree (n : JSNum) : ∀ c ∈ jsNumChars n, isJsWS c = false := by
  intro c hc
  cases n with
  | none =>
    simp only [jsNumChars] at hc
    have he : js "NaN" = ['N', 'a', 'N'] := rfl
    rw [he] at hc
    simp only [List.mem_cons, List.not_mem_nil, or_false] at hc
    rcases hc with rfl | rfl | rfl <;> decide
  | some i =>
    cases i with
    | ofNat m => exact natChars_wsFree m c hc
    | negSucc m =>
      rcases List.mem_cons.mp hc with rfl | h2
      · decide
      · exact natChars_wsFree (m + 1) c h2

/-- Every DURATION serialization is an optional minus sign, `P`, and a
whitespace-free body. -/
theorem DURATION_serialize_shape (v : ICalDuration) :
    ∃ body : JSStr,
      DURATION.serialize v = (if v.negative then ['-'] else []) ++ 'P' :: body ∧
      ∀ c ∈ body, isJsWS c = false := by
  obtain ⟨neg, W, Dy, Hh, Mn, Sc⟩ := v
  cases W with
  | some w =>
    refine ⟨jsNumChars w ++ ['W'], by cases neg <;> rfl, ?_⟩
    intro c hc
    rcases List.mem_append.mp hc with h1 | h2
    · exact jsNumChars_wsFree w c h1
    · simp at h2
      subst h2
      decide
  | none =>
    refine ⟨(if jsTruthyField Dy then jsNumChars (Dy.getD none) ++ ['D'] else []) ++
      (if (jsTruthyField Hh || jsTruthyField Mn || jsTruthyField Sc) then
        'T' :: ((if jsTruthyField Hh then jsNumChars (Hh.getD none) ++ ['H'] else []) ++
                (if jsTruthyField Mn then jsNumChars (Mn.getD none) ++ ['M'] else []) ++
                (if jsTruthyField Sc then jsNumChars (Sc.getD none) ++ ['S'] else []))
       else []), by cases neg <;> rfl, ?_⟩
    have hunit : ∀ (o : Option JSNum) (u : Char), isJsWS u = false →
        ∀ c ∈ (if jsTruthyField o then jsNumChars (o.getD none) ++ [u] else []),
          isJsWS c = false := by
      intro o u hu c hc
      by_cases ho : jsTruthyField o
      · rw [if_pos ho] at hc
        rcases List.mem_append.mp hc with h1 | h2
        · exact jsNumChars_wsFree _ c h1
        · simp at h2
          subst h2
          exact hu
      · rw [if_neg ho] at hc
        simp at hc
    intro c hc
    rcases List.mem_append.mp hc with h1 | h2
    · exact hunit Dy 'D' (by decide) c h1
    · by_cases ht : (jsTruthyField Hh || jsTruthyField Mn || jsTruthyField Sc : Bool)
      · rw [if_pos ht] at h2
        rcases List.mem_cons.mp h2 with rfl | h3
        · decide
        · rcases List.mem_append.mp h3 with h4 | h5
          · rcases List.mem_append.mp h4 with h6 | h7
            · exact hunit Hh 'H' (by decide) c h6
            · exact hunit Mn 'M' (by decide) c h7
          · exact hunit Sc 'S' (by decide) c h5
      · rw [if_neg ht] at h2
        simp at h2

/-- Record-level DATE-TIME round trip. -/
theorem DATE_TIME_roundtrip (v : ICalDateTime) (h : v.Wf) :
    DATE_TIME.parse (DATE_TIME.serialize v) (tzidParams v.tzid) = v := by
  obtain ⟨Y, M, D, H, Mi, S, utc, tz⟩ := v
  obtain ⟨⟨y, hy, e1⟩, ⟨mo, hmo, e2⟩, ⟨d, hd, e3⟩, ⟨hr, hhr, e4⟩, ⟨mi, hmi, e5⟩,
      ⟨sc, hsc, e6⟩⟩ :
      WfN 9999 Y ∧ WfN 99 M ∧ WfN 99 D ∧ WfN 99 H ∧ WfN 99 Mi ∧ WfN 99 S := h
  subst e1 e2 e3 e4 e5 e6
  exact DATE_TIME_roundtrip_core y mo d hr mi sc utc tz hy hmo hd hhr hmi hsc

/-- Character inventory of a DATE-TIME serialization: digits, `T`, `Z`. -/
theorem DATE_TIME_serialize_chars (v : ICalDateTime) (h : v.Wf) :
    ∀ c ∈ DATE_TIME.serialize v, (∃ d, d < 10 ∧ c = digitCh d) ∨ c = 'T' ∨ c = 'Z' := by
  obtain ⟨Y, M, D, H, Mi, S, utc, tz⟩ := v
  obtain ⟨⟨y, hy, e1⟩, ⟨mo, hmo, e2⟩, ⟨d, hd, e3⟩, ⟨hr, hhr, e4⟩, ⟨mi, hmi, e5⟩,
      ⟨sc, hsc, e6⟩⟩ :
      WfN 9999 Y ∧ WfN 99 M ∧ WfN 99 D ∧ WfN 99 H ∧ WfN 99 Mi ∧ WfN 99 S := h
  subst e1 e2 e3 e4 e5 e6
  intro c hc
  have hcore : ∀ x ∈ pad4 (some (y : Int)) ++ pad2 (some (mo : Int)) ++
      pad2 (some (d : Int)) ++
      'T' :: (pad2 (some (hr : Int)) ++ pad2 (some (mi : Int)) ++ pad2 (some (sc : Int))),
      (∃ dd, dd < 10 ∧ x = digitCh dd) ∨ x = 'T' ∨ x = 'Z' := by
    intro x hx
    simp only [List.mem_append, List.mem_cons] at hx
    rcases hx with ((h1 | h2) | h3) | h4 | (h5 | h6) | h7
    · exact Or.inl (pad4_digits y x h1)
    · exact Or.inl (pad2_digits mo x h2)
    · exact Or.inl (pad2_digits d x h3)
    · exact Or.inr (Or.inl h4)
    · exact Or.inl (pad2_digits hr x h5)
    · exact Or.inl (pad2_digits mi x h6)
    · exact Or.inl (pad2_digits sc x h7)
  unfold DATE_TIME.serialize at hc
  dsimp only at hc
  cases utc with
  | true =>
    rw [if_pos rfl] at hc
    rcases List.mem_append.mp hc with h1 | h2
    · exact hcore c h1
    · simp at h2
      subst h2
      exact Or.inr (Or.inr rfl)
  | false =>
    rw [if_neg (by simp)] at hc
    exact hcore c hc

theorem DATE_TIME_serialize_wsFree (v : ICalDateTime) (h : v.Wf) :
    ∀ c ∈ DATE_TIME.serialize v, isJsWS c = false := by
  intro c hc
  rcases DATE_TIME_serialize_chars v h c hc with ⟨d, hd, rfl⟩ | rfl | rfl
  · exact (digitCh_props d hd).1
  · decide
  · decide

theorem pad4_ne_nil (n : Nat) : pad4 (some (n : Int)) ≠ [] := by
  show padStartCh (jsNumChars (some (n : Int))) 4 '0' ≠ []
  have he : jsNumChars (some (n : Int)) = natChars n := rfl
  rw [he]
  unfold padStartCh
  intro hx
  rcases List.append_eq_nil.mp hx with ⟨_, h2⟩
  exact natChars_ne_nil n h2

/-- The first character of a DATE-TIME serialization is a digit. -/
theorem DATE_TIME_serialize_head (v : ICalDateTime) (h : v.Wf) :
    ∃ d rest, d < 10 ∧ DATE_TIME.serialize v = digitCh d :: rest := by
  obtain ⟨Y, M, D, H, Mi, S, utc, tz⟩ := v
  obtain ⟨⟨y, hy, e1⟩, ⟨mo, hmo, e2⟩, ⟨d, hd, e3⟩, ⟨hr, hhr, e4⟩, ⟨mi, hmi, e5⟩,
      ⟨sc, hsc, e6⟩⟩ :
      WfN 9999 Y ∧ WfN 99 M ∧ WfN 99 D ∧ WfN 99 H ∧ WfN 99 Mi ∧ WfN 99 S := h
  subst e1 e2 e3 e4 e5 e6
  obtain ⟨c0, tl, hc0⟩ : ∃ c0 tl, pad4 (some (y : Int)) = c0 :: tl := by
    cases hp : pad4 (some (y : Int)) with
    | nil => exact absurd hp (pad4_ne_nil y)
    | cons a t => exact ⟨a, t, rfl⟩
  obtain ⟨dd, hdd, hde⟩ := pad4_digits y c0 (by rw [hc0]; exact List.mem_cons_self c0 tl)
  subst hde
  have hser : ∃ rest, DATE_TIME.serialize
      ⟨some (y : Int), some (mo : Int), some (d : Int), some (hr : Int),
        some (mi : Int), some (sc : Int), utc, tz⟩ = digitCh dd :: rest := by
    unfold DATE_TIME.serialize
    dsimp only
    cases utc with
    | true =>
      rw [if_pos rfl, hc0]
      exact ⟨_, rfl⟩
    | false =>
      rw [if_neg (by simp), hc0]
      exact ⟨_, rfl⟩
  obtain ⟨rest, hrest⟩ := hser
  exact ⟨dd, rest, hdd, hrest⟩

/-- PERIOD: parsing the `start/end` serialization of an in-grammar period
recovers it, distinguishing the end alternative by its leading `P`. -/
theorem PERIOD_roundtrip (v : ICalPeriod) (h : v.Wf) :
    PERIOD.parse (PERIOD.serialize v) = Except.ok v := by
  obtain ⟨start, stop⟩ := v
  have hstartWf : start.Wf := h.1
  have hstartTz : start.tzid = none := h.2.1
  have hstop := h.2.2
  set SS := DATE_TIME.serialize start with hSS
  have hSlashS : '/' ∉ SS := by
    intro hmem
    rcases DATE_TIME_serialize_chars start hstartWf '/' hmem with ⟨dd, hdd, he⟩ | he | he
    · exact digitCh_ne_of_nonDigit dd hdd '/' (by decide) he.symm
    · exact absurd he (by decide)
    · exact absurd he (by decide)
  obtain ⟨ES, hESdef⟩ : ∃ ES : JSStr, PERIOD.serialize ⟨start, stop⟩ = SS ++ '/' :: ES ∧
      (match stop with
       | PeriodEnd.dt dtv => ES = DATE_TIME.serialize dtv
       | PeriodEnd.dur dv => ES = DURATION.serialize dv) := by
    cases stop with
    | dt dtv => exact ⟨DATE_TIME.serialize dtv, rfl, rfl⟩
    | dur dv => exact ⟨DURATION.serialize dv, rfl, rfl⟩
  obtain ⟨hES1, hES2⟩ := hESdef
  rw [hES1]
  unfold PERIOD.parse
  rw [jsIndexOfCh_append_cons '/' SS ES hSlashS]
  have hslice : jsSlice (SS ++ '/' :: ES) 0 SS.length = SS :=
    jsSlice_take SS ('/' :: ES) SS.length rfl
  have hdropES : jsSliceFrom (SS ++ '/' :: ES) (SS.length + 1) = ES :=
    drop_append_cons SS '/' ES
  dsimp only
  rw [hslice, hdropES]
  have hstartParse : DATE_TIME.parse SS [] = start := by
    have := DATE_TIME_roundtrip start hstartWf
    rw [hstartTz] at this
    exact this
  cases stop with
  | dur dv =>
    have hdvWf : dv.Wf := hstop
    have hES3 : ES = DURATION.serialize dv := hES2
    obtain ⟨body, hbody, hbodyWs⟩ := DURATION_serialize_shape dv
    have hESval : ES = (if dv.negative then ['-'] else []) ++ 'P' :: body := by
      rw [hES3, hbody]
    have htrimES : jsTrim ES = ES := by
      apply jsTrim_eq_self
      intro c hc
      rw [hESval] at hc
      rcases List.mem_append.mp hc with h1 | h2
      · by_cases hn : dv.negative
        · rw [if_pos hn] at h1
          simp at h1
          subst h1
          decide
        · rw [if_neg hn] at h1
          simp at h1
      · rcases List.mem_cons.mp h2 with rfl | h3
        · decide
        · exact hbodyWs c h3
    have hpref : (jsStartsWith (js "P") (jsTrim ES) ||
        jsStartsWith (js "-P") (jsTrim ES) || jsStartsWith (js "+P") (jsTrim ES)) = true := by
      rw [htrimES, hESval]
      by_cases hn : dv.negative
      · rw [if_pos hn]
        show (jsStartsWith (js "P") ('-' :: 'P' :: body) ||
          jsStartsWith (js "-P") ('-' :: 'P' :: body) ||
          jsStartsWith (js "+P") ('-' :: 'P' :: body)) = true
        simp [jsStartsWith, js, List.isPrefixOf]
      · rw [if_neg hn]
        show (jsStartsWith (js "P") ('P' :: body) ||
          jsStartsWith (js "-P") ('P' :: body) ||
          jsStartsWith (js "+P") ('P' :: body)) = true
        simp [jsStartsWith, js, List.isPrefixOf]
    rw [hpref]
    simp only [if_true, hstartParse]
    have : DURATION.parse (jsTrim ES) = dv := by
      rw [htrimES, hES3]
      exact DURATION_roundtrip dv hdvWf
    rw [this]
  | dt dtv =>
    obtain ⟨hdtWf, hdtTz⟩ : dtv.Wf ∧ dtv.tzid = none := hstop
    have hES3 : ES = DATE_TIME.serialize dtv := hES2
    have htrimES : jsTrim ES = ES := by
      apply jsTrim_eq_self
      rw [hES3]
      exact DATE_TIME_serialize_wsFree dtv hdtWf
    obtain ⟨dd, rest, hdd, hshape⟩ := DATE_TIME_serialize_head dtv hdtWf
    have hESshape : ES = digitCh dd :: rest := by rw [hES3, hshape]
    have hpref : (jsStartsWith (js "P") (jsTrim ES) ||
        jsStartsWith (js "-P") (jsTrim ES) || jsStartsWith (js "+P") (jsTrim ES)) = false := by
      rw [htrimES, hESshape]
      have h1 : digitCh dd ≠ 'P' := digitCh_ne_of_nonDigit dd hdd 'P' (by decide)
      have h2 : digitCh dd ≠ '-' := (digitCh_props dd hdd).2.2.1
      have h3 : digitCh dd ≠ '+' := (digitCh_props dd hdd).2.2.2.1
      show (jsStartsWith (js "P") (digitCh dd :: rest) ||
        jsStartsWith (js "-P") (digitCh dd :: rest) ||
        jsStartsWith (js "+P") (digitCh dd :: rest)) = false
      simp [jsStartsWith, js, List.isPrefixOf]
      exact ⟨⟨fun hx => h1 hx.symm, fun hx => absurd hx.symm h2⟩,
        fun hx => absurd hx.symm h3⟩
    rw [hpref]
    simp only [Bool.false_eq_true, if_false, hstartParse]
    have : DATE_TIME.parse (jsTrim ES) [] = dtv := by
      rw [htrimES, hES3]
      have := DATE_TIME_roundtrip dtv hdtWf
      rw [hdtTz] at this
      exact this
    rw [this]

-- ═══ Lemmas: base64 ══════════════════════════════════════════════════════

theorem b64Val_b64Ch : ∀ v < 64, b64Val? (b64Ch v) = some v := by
  decide

theorem b64Ch_wsFree : ∀ v < 64, isJsWS (b64Ch v) = false := by
  decide

/-- Character inventory of a base64 encoding of genuine bytes. -/
theorem b64Encode_chars (bytes : List Nat) (h : ∀ b ∈ bytes, b < 256) :
    ∀ c ∈ b64EncodeBytes bytes, (∃ v, v < 64 ∧ c = b64Ch v) ∨ c = '=' :=
  match bytes, h with
  | [], _ => by intro c hc; simp [b64EncodeBytes] at hc
  | [b1], h => by
    have hb1 : b1 < 256 := h b1 (by simp)
    intro c hc
    unfold b64EncodeBytes at hc
    simp only [List.mem_cons, List.not_mem_nil, or_false] at hc
    rcases hc with rfl | rfl | rfl | rfl
    · exact Or.inl ⟨b1 / 4, by omega, rfl⟩
    · exact Or.inl ⟨b1 % 4 * 16, by omega, rfl⟩
    · exact Or.inr rfl
    · exact Or.inr rfl
  | [b1, b2], h => by
    have hb1 : b1 < 256 := h b1 (by simp)
    have hb2 : b2 < 256 := h b2 (by simp)
    intro c hc
    unfold b64EncodeBytes at hc
    simp only [List.mem_cons, List.not_mem_nil, or_false] at hc
    rcases hc with rfl | rfl | rfl | rfl
    · exact Or.inl ⟨b1 / 4, by omega, rfl⟩
    · exact Or.inl ⟨b1 % 4 * 16 + b2 / 16, by omega, rfl⟩
    · exact Or.inl ⟨b2 % 16 * 4, by omega, rfl⟩
    · exact Or.inr rfl
  | b1 :: b2 :: b3 :: rest, h => by
    have hb1 : b1 < 256 := h b1 (by simp)
    have hb2 : b2 < 256 := h b2 (by simp)
    have hb3 : b3 < 256 := h b3 (by simp)
    have hrest : ∀ b ∈ rest, b < 256 := fun b hb => h b (by simp [hb])
    intro c hc
    unfold b64EncodeBytes at hc
    simp only [List.mem_cons] at hc
    rcases hc with rfl | rfl | rfl | rfl | hmem
    · exact Or.inl ⟨b1 / 4, by omega, rfl⟩
    · exact Or.inl ⟨b1 % 4 * 16 + b2 / 16, by omega, rfl⟩
    · exact Or.inl ⟨b2 % 16 * 4 + b3 / 64, by omega, rfl⟩
    · exact Or.inl ⟨b3 % 64, by omega, rfl⟩
    · exact b64Encode_chars rest hrest c hmem

theorem b64Encode_wsFree (bytes : List Nat) (h : ∀ b ∈ bytes, b < 256) :
    ∀ c ∈ b64EncodeBytes bytes, isJsWS c = false := by
  intro c hc
  rcases b64Encode_chars bytes h c hc with ⟨v, hv, rfl⟩ | rfl
  · exact b64Ch_wsFree v hv
  · decide

/-- Decoding the re-collected sextets of a base64 encoding recovers the
bytes. -/
theorem b64_roundtrip (bytes : List Nat) (h : ∀ b ∈ bytes, b < 256) :
    b64DecodeSextets ((b64EncodeBytes bytes).filterMap b64Val?) = bytes :=
  match bytes, h with
  | [], _ => rfl
  | [b1], h => by
    have hb1 : b1 < 256 := h b1 (by simp)
    have e1 : b64Val? (b64Ch (b1 / 4)) = some (b1 / 4) := b64Val_b64Ch _ (by omega)
    have e2 : b64Val? (b64Ch (b1 % 4 * 16)) = some (b1 % 4 * 16) :=
      b64Val_b64Ch _ (by omega)
    unfold b64EncodeBytes
    simp only [List.filterMap_cons, e1, e2,
      show b64Val? '=' = none from rfl, List.filterMap_nil]
    unfold b64DecodeSextets
    simp only [List.cons.injEq, and_true]
    omega
  | [b1, b2], h => by
    have hb1 : b1 < 256 := h b1 (by simp)
    have hb2 : b2 < 256 := h b2 (by simp)
    have e1 : b64Val? (b64Ch (b1 / 4)) = some (b1 / 4) := b64Val_b64Ch _ (by omega)
    have e2 : b64Val? (b64Ch (b1 % 4 * 16 + b2 / 16)) = some (b1 % 4 * 16 + b2 / 16) :=
      b64Val_b64Ch _ (by omega)
    have e3 : b64Val? (b64Ch (b2 % 16 * 4)) = some (b2 % 16 * 4) :=
      b64Val_b64Ch _ (by omega)
    unfold b64EncodeBytes
    simp only [List.filterMap_cons, e1, e2, e3,
      show b64Val? '=' = none from rfl, List.filterMap_nil]
    unfold b64DecodeSextets
    simp only [List.cons.injEq, and_true]
    constructor <;> omega
  | b1 :: b2 :: b3 :: rest, h => by
    have hb1 : b1 < 256 := h b1 (by simp)
    have hb2 : b2 < 256 := h b2 (by simp)
    have hb3 : b3 < 256 := h b3 (by simp)
    have hrest : ∀ b ∈ rest, b < 256 := fun b hb => h b (by simp [hb])
    have e1 : b64Val? (b64Ch (b1 / 4)) = some (b1 / 4) := b64Val_b64Ch _ (by omega)
    have e2 : b64Val? (b64Ch (b1 % 4 * 16 + b2 / 16)) = some (b1 % 4 * 16 + b2 / 16) :=
      b64Val_b64Ch _ (by omega)
    have e3 : b64Val? (b64Ch (b2 % 16 * 4 + b3 / 64)) = some (b2 % 16 * 4 + b3 / 64) :=
      b64Val_b64Ch _ (by omega)
    have e4 : b64Val? (b64Ch (b3 % 64)) = some (b3 % 64) := b64Val_b64Ch _ (by omega)
    have ih := b64_roundtrip rest hrest
    unfold b64EncodeBytes
    simp only [List.filterMap_cons, e1, e2, e3, e4]
    unfold b64DecodeSextets
    simp only [ih, List.cons.injEq]
    refine ⟨by omega, by omega, by omega, trivial⟩

/-- BINARY: decoding the base64 serialization of a byte buffer recovers the
buffer exactly. -/
theorem BINARY_roundtrip (v : ICalBinary) (h : v.Wf) :
    BINARY.parse (BINARY.serialize v) = v := by
  obtain ⟨data⟩ := v
  have hWf : ∀ b ∈ data, b < 256 := h
  show BINARY.parse (b64EncodeBytes data) = _
  unfold BINARY.parse
  rw [jsTrim_eq_self (b64Encode_wsFree data hWf), b64_roundtrip data hWf]

-- ═══ Lemmas: split-on-separator and decimal floats (GEO) ═════════════════

theorem splitOnCh_ne_nil (c : Char) : ∀ l : JSStr, splitOnCh c l ≠ [] := by
  intro l
  induction l with
  | nil => simp [splitOnCh]
  | cons a rest ih =>
    unfold splitOnCh
    by_cases hac : a = c
    · simp [hac]
    · simp only [hac, if_false]
      cases hr : splitOnCh c rest with
      | nil => exact absurd hr ih
      | cons x t => simp

theorem splitOnCh_not_mem (c : Char) : ∀ l : JSStr, c ∉ l → splitOnCh c l = [l] := by
  intro l
  induction l with
  | nil => intro _; rfl
  | cons a rest ih =>
    intro hnm
    have hac : ¬(a = c) := fun he => hnm (he ▸ List.mem_cons_self a rest)
    unfold splitOnCh
    rw [ih (fun hm => hnm (List.mem_cons_of_mem a hm))]
    simp [hac]

theorem splitOnCh_prepend_free (c : Char) (A rest : JSStr) (h : c ∉ A) :
    splitOnCh c (A ++ rest) =
      match splitOnCh c rest with
      | [] => [A]
      | x :: t => (A ++ x) :: t := by
  induction A with
  | nil =>
    simp only [List.nil_append]
    cases hr : splitOnCh c rest with
    | nil => exact absurd hr (splitOnCh_ne_nil c rest)
    | cons x t => simp
  | cons a tl ih =>
    have hac : ¬(a = c) := fun he => h (he ▸ List.mem_cons_self a tl)
    have htl : c ∉ tl := fun hm => h (List.mem_cons_of_mem a hm)
    show splitOnCh c (a :: (tl ++ rest)) = _
    simp only [splitOnCh]
    rw [ih htl]
    cases hr : splitOnCh c rest with
    | nil => exact absurd hr (splitOnCh_ne_nil c rest)
    | cons x t => simp [hac]

/-- Splitting at the single separator between two separator-free parts. -/
theorem splitOnCh_sep_mid (c : Char) (A B : JSStr) (hA : c ∉ A) (hB : c ∉ B) :
    splitOnCh c (A ++ c :: B) = [A, B] := by
  rw [splitOnCh_prepend_free c A (c :: B) hA]
  have h1 : splitOnCh c (c :: B) = [] :: splitOnCh c B := by
    simp [splitOnCh]
  rw [h1, splitOnCh_not_mem c B hB]
  simp

theorem stripTrailingZeros_of_canonical (l : List Nat) (h : l.getLast? ≠ some 0) :
    stripTrailingZeros l = l := by
  unfold stripTrailingZeros
  cases hl : l.reverse with
  | nil =>
    rw [List.reverse_eq_nil_iff] at hl
    simp [hl]
  | cons a t =>
    have ha : l.getLast? = some a := by
      rw [← List.head?_reverse, hl]
      rfl
    have hane : ¬(a == 0) = true := by
      intro hbeq
      rw [beq_iff_eq] at hbeq
      exact h (hbeq ▸ ha)
    rw [List.dropWhile_cons, if_neg hane, ← hl, List.reverse_reverse]

/-- Character inventory of a decimal rendering with in-range fraction
digits. -/
theorem jsDecChars_chars (d : JSDec) (hfr : ∀ x ∈ d.frac, x < 10) :
    ∀ c ∈ jsDecChars d, (∃ x, x < 10 ∧ c = digitCh x) ∨ c = '-' ∨ c = '.' := by
  intro c hc
  unfold jsDecChars at hc
  rcases List.mem_append.mp hc with h1 | h2
  · rcases List.mem_append.mp h1 with h3 | h4
    · by_cases hn : d.neg
      · rw [if_pos hn] at h3
        simp at h3
        subst h3
        exact Or.inr (Or.inl rfl)
      · rw [if_neg hn] at h3
        simp at h3
    · rcases List.mem_map.mp h4 with ⟨x, hx, rfl⟩
      exact Or.inl ⟨x, natDigitsBE_lt10 _ x hx, rfl⟩
  · by_cases hf : d.frac.isEmpty
    · rw [if_pos hf] at h2
      simp at h2
    · rw [if_neg hf] at h2
      rcases List.mem_cons.mp h2 with rfl | h3
      · exact Or.inr (Or.inr rfl)
      · rcases List.mem_map.mp h3 with ⟨x, hx, rfl⟩
        exact Or.inl ⟨x, hfr x hx, rfl⟩

theorem jsDecChars_wsFree (d : JSDec) (hfr : ∀ x ∈ d.frac, x < 10) :
    ∀ c ∈ jsDecChars d, isJsWS c = false := by
  intro c hc
  rcases jsDecChars_chars d hfr c hc with ⟨x, hx, rfl⟩ | rfl | rfl
  · exact (digitCh_props x hx).1
  · decide
  · decide

/-- Evaluation of parseFloat on an optional minus sign followed by a
whitespace-free string not starting with a sign. -/
theorem parseFloatJS_eval (neg : Bool) (u : JSStr)
    (hws : ∀ c ∈ u, isJsWS c = false)
    (hhead : ∀ c, u.head? = some c → c ≠ '-' ∧ c ≠ '+') :
    parseFloatJS ((if neg then ['-'] else []) ++ u) =
      (if ((takeDigits u).1).isEmpty ∧
          (match (takeDigits u).2 with
           | '.' :: rest => (takeDigits rest).1
           | _ => []).isEmpty then none
       else some
        { neg := neg && !((digitsVal (takeDigits u).1 == 0) &&
            (stripTrailingZeros (match (takeDigits u).2 with
              | '.' :: rest => (takeDigits rest).1
              | _ => [])).isEmpty),
          ip := digitsVal (takeDigits u).1,
          frac := stripTrailingZeros (match (takeDigits u).2 with
            | '.' :: rest => (takeDigits rest).1
            | _ => []) }) := by
  cases neg with
  | true =>
    rw [if_pos rfl]
    have htrim : ('-' :: u).dropWhile isJsWS = '-' :: u := dropWhile_eq_self_of_all (by
      intro c hc
      rcases List.mem_cons.mp hc with rfl | h2
      · decide
      · exact hws c h2)
    show parseFloatJS ('-' :: u) = _
    unfold parseFloatJS
    rw [htrim]
    simp only [List.head?_cons, List.tail_cons]
    rw [if_pos (Or.inl trivial)]
    rcases htd : takeDigits u with ⟨ipDs, r⟩
    simp
  | false =>
    simp only [Bool.false_eq_true, if_false, List.nil_append]
    have htrim : u.dropWhile isJsWS = u := dropWhile_eq_self_of_all hws
    unfold parseFloatJS
    rw [htrim]
    dsimp only
    have hcond : ¬(u.head? = some '-' ∨ u.head? = some '+') := by
      intro hor
      rcases hor with h1 | h1
      · exact (hhead '-' h1).1 rfl
      · exact (hhead '+' h1).2 rfl
    rw [if_neg hcond]
    have hnegd : (decide (u.head? = some '-')) = false := by
      cases hu : u.head? with
      | none => rfl
      | some c =>
        have := (hhead c hu).1
        simp [this]
    rcases htd : takeDigits u with ⟨ipDs, r⟩
    simp [hnegd]

/-- parseFloat undoes the decimal rendering of a canonical decimal. -/
theorem parseFloat_jsDecChars (d : JSDec) (h : d.Wf) :
    parseFloatJS (jsDecChars d) = some d := by
  obtain ⟨neg, ip, frac⟩ := d
  obtain ⟨hfr, hlast, hneg⟩ : (∀ x ∈ frac, x < 10) ∧ frac.getLast? ≠ some 0 ∧
      (neg = true → ¬(ip = 0 ∧ frac = [])) := h
  have hne : ((natDigitsBE ip).isEmpty) = false := by
    cases he : natDigitsBE ip with
    | nil => exact absurd he (natDigitsBE_ne_nil ip)
    | cons a t => rfl
  have hheadDigit : ∀ rest : JSStr, ∀ c, (natChars ip ++ rest).head? = some c →
      c ≠ '-' ∧ c ≠ '+' := by
    intro rest c hc
    obtain ⟨c0, tl0, hc0⟩ : ∃ c0 tl0, natChars ip = c0 :: tl0 := by
      cases hn : natChars ip with
      | nil => exact absurd hn (natChars_ne_nil ip)
      | cons a t => exact ⟨a, t, rfl⟩
    rw [hc0] at hc
    simp at hc
    obtain ⟨x, hx, hxe⟩ : ∃ x, x < 10 ∧ c0 = digitCh x := by
      have hmem : c0 ∈ natChars ip := by rw [hc0]; exact List.mem_cons_self c0 tl0
      rcases List.mem_map.mp hmem with ⟨x, hx2, hxe2⟩
      exact ⟨x, natDigitsBE_lt10 ip x hx2, hxe2.symm⟩
    subst hc
    subst hxe
    exact ⟨(digitCh_props x hx).2.2.1, (digitCh_props x hx).2.2.2.1⟩
  cases hfe : frac with
  | nil =>
    subst hfe
    have hshape : jsDecChars ⟨neg, ip, ([] : List Nat)⟩
        = (if neg then ['-'] else []) ++ (natChars ip ++ []) := by
      simp [jsDecChars, List.append_assoc]
    have htake : takeDigits (natChars ip ++ []) = (natDigitsBE ip, []) := by
      have := takeDigits_map_digitCh (natDigitsBE ip) [] (natDigitsBE_lt10 ip)
        (fun c hc => by simp at hc)
      simpa [natChars] using this
    rw [hshape, parseFloatJS_eval neg (natChars ip ++ [])
      (by
        intro c hc
        simp only [List.append_nil] at hc
        exact natChars_wsFree ip c hc)
      (hheadDigit [])]
    rw [htake]
    simp only [hne, Bool.false_eq_true, false_and, if_false, natDigitsBE_val]
    cases neg with
    | false => simp [stripTrailingZeros]
    | true =>
      have hip0 : ip ≠ 0 := fun he => hneg rfl ⟨he, rfl⟩
      simp [stripTrailingZeros, hip0]
  | cons f0 ftl =>
    subst hfe
    have hshape : jsDecChars ⟨neg, ip, f0 :: ftl⟩
        = (if neg then ['-'] else []) ++
          (natChars ip ++ '.' :: (f0 :: ftl).map digitCh) := by
      simp [jsDecChars, List.append_assoc]
    have htake : takeDigits (natChars ip ++ '.' :: (f0 :: ftl).map digitCh)
        = (natDigitsBE ip, '.' :: (f0 :: ftl).map digitCh) := by
      have := takeDigits_map_digitCh (natDigitsBE ip) ('.' :: (f0 :: ftl).map digitCh)
        (natDigitsBE_lt10 ip)
        (fun c hc => by simp at hc; rw [← hc]; rfl)
      simpa [natChars] using this
    have htakeF : takeDigits ((f0 :: ftl).map digitCh) = (f0 :: ftl, []) := by
      have := takeDigits_map_digitCh (f0 :: ftl) [] hfr (fun c hc => by simp at hc)
      simpa using this
    have hstrip : stripTrailingZeros (f0 :: ftl) = f0 :: ftl :=
      stripTrailingZeros_of_canonical _ hlast
    rw [hshape, parseFloatJS_eval neg (natChars ip ++ '.' :: (f0 :: ftl).map digitCh)
      (by
        intro c hc
        rcases List.mem_append.mp hc with h1 | h2
        · exact natChars_wsFree ip c h1
        · rcases List.mem_cons.mp h2 with rfl | h3
          · decide
          · rcases List.mem_map.mp h3 with ⟨x, hx, rfl⟩
            exact (digitCh_props x (hfr x hx)).1)
      (hheadDigit ('.' :: (f0 :: ftl).map digitCh))]
    rw [htake]
    simp only [htakeF, hne, Bool.false_eq_true, false_and, if_false, natDigitsBE_val,
      hstrip]
    simp

/-- GEO: parsing the `lat;long` serialization of a GEO value with two
canonical non-NaN coordinates recovers it exactly. -/
theorem GEO_roundtrip (v : ICalGeo) (h : v.Wf) :
    GEO.parse (GEO.serialize v) = v := by
  obtain ⟨LA, LO⟩ := v
  obtain ⟨⟨a, haWf, hae⟩, ⟨b, hbWf, hbe⟩⟩ :
      (∃ a : JSDec, a.Wf ∧ LA = some a) ∧ (∃ b : JSDec, b.Wf ∧ LO = some b) := h
  subst hae hbe
  show GEO.parse (jsDecChars a ++ ';' :: jsDecChars b) = _
  have hsemiA : ';' ∉ jsDecChars a := by
    intro hmem
    rcases jsDecChars_chars a haWf.1 ';' hmem with ⟨x, hx, he⟩ | he | he
    · exact digitCh_ne_of_nonDigit x hx ';' (by decide) he.symm
    · exact absurd he (by decide)
    · exact absurd he (by decide)
  have hsemiB : ';' ∉ jsDecChars b := by
    intro hmem
    rcases jsDecChars_chars b hbWf.1 ';' hmem with ⟨x, hx, he⟩ | he | he
    · exact digitCh_ne_of_nonDigit x hx ';' (by decide) he.symm
    · exact absurd he (by decide)
    · exact absurd he (by decide)
  unfold GEO.parse
  rw [splitOnCh_sep_mid ';' (jsDecChars a) (jsDecChars b) hsemiA hsemiB]
  simp only [List.getD, List.get?, List.getElem?_cons_zero, List.getElem?_cons_succ,
    Option.getD_some]
  rw [parseFloat_jsDecChars a haWf, parseFloat_jsDecChars b hbWf]

-- ═══ Lemmas: RECUR round trip ════════════════════════════════════════════

theorem recurAB_props : ∀ c ∈ recurAB,
    isJsWS c = false ∧ c ≠ ';' ∧ c ≠ '=' ∧ Char.toUpper c = c := by
  decide

theorem digitCh_mem_AB : ∀ d < 10, digitCh d ∈ recurAB := by decide

theorem natChars_mem_AB (n : Nat) : ∀ c ∈ natChars n, c ∈ recurAB := by
  intro c hc
  rcases List.mem_map.mp hc with ⟨d, hd, rfl⟩
  exact digitCh_mem_AB d (natDigitsBE_lt10 n d hd)

theorem intChars_mem_AB (i : Int) : ∀ c ∈ intChars i, c ∈ recurAB := by
  intro c hc
  cases i with
  | ofNat n => exact natChars_mem_AB n c hc
  | negSucc m =>
    rcases List.mem_cons.mp hc with rfl | h2
    · decide
    · exact natChars_mem_AB (m + 1) c h2

theorem joinSep_mem (sep : Char) : ∀ parts : List JSStr, ∀ c ∈ joinSep sep parts,
    c = sep ∨ ∃ p ∈ parts, c ∈ p := by
  intro parts
  induction parts with
  | nil => intro c hc; simp [joinSep] at hc
  | cons p rest ih =>
    intro c hc
    cases rest with
    | nil =>
      exact Or.inr ⟨p, List.mem_cons_self p [], hc⟩
    | cons q rest2 =>
      rcases List.mem_append.mp hc with h1 | h2
      · exact Or.inr ⟨p, List.mem_cons_self p (q :: rest2), h1⟩
      · rcases List.mem_cons.mp h2 with rfl | h3
        · exact Or.inl rfl
        · rcases ih c h3 with h4 | ⟨p2, hp2, hcp2⟩
          · exact Or.inl h4
          · exact Or.inr ⟨p2, List.mem_cons_of_mem p hp2, hcp2⟩

theorem renderPair_mem (p : JSStr × JSStr) :
    ∀ c ∈ renderPair p, c ∈ p.1 ∨ c = '=' ∨ c ∈ p.2 := by
  intro c hc
  rcases List.mem_append.mp hc with h1 | h2
  · exact Or.inl h1
  · rcases List.mem_cons.mp h2 with rfl | h3
    · exact Or.inr (Or.inl rfl)
    · exact Or.inr (Or.inr h3)

theorem splitOnCh_joinSep (c : Char) : ∀ parts : List JSStr, parts ≠ [] →
    (∀ p ∈ parts, c ∉ p) → splitOnCh c (joinSep c parts) = parts := by
  intro parts
  induction parts with
  | nil => intro h; exact absurd rfl h
  | cons p rest ih =>
    intro _ hfree
    cases rest with
    | nil =>
      show splitOnCh c p = [p]
      exact splitOnCh_not_mem c p (hfree p (List.mem_cons_self p []))
    | cons q rest2 =>
      show splitOnCh c (p ++ c :: joinSep c (q :: rest2)) = _
      rw [splitOnCh_prepend_free c p _ (hfree p (List.mem_cons_self p (q :: rest2)))]
      have h1 : splitOnCh c (c :: joinSep c (q :: rest2))
          = [] :: splitOnCh c (joinSep c (q :: rest2)) := by
        simp [splitOnCh]
      rw [h1, ih (by simp) (fun x hx => hfree x (List.mem_cons_of_mem p hx))]
      simp

theorem jsIndexOfCh_render (k v : JSStr) (h : '=' ∉ k) :
    jsIndexOfCh '=' (renderPair (k, v)) = some k.length := by
  show jsIndexOfCh '=' (k ++ '=' :: v) = some k.length
  induction k with
  | nil => simp [jsIndexOfCh]
  | cons a tl ih =>
    have ha : ¬(a = '=') := fun he => h (he ▸ List.mem_cons_self a tl)
    show jsIndexOfCh '=' (a :: (tl ++ '=' :: v)) = _
    unfold jsIndexOfCh
    rw [if_neg ha, ih (fun hm => h (List.mem_cons_of_mem a hm))]
    rfl

theorem jsSlice_render (k v : JSStr) : jsSlice (renderPair (k, v)) 0 k.length = k := by
  show jsSlice (k ++ '=' :: v) 0 k.length = k
  unfold jsSlice
  rw [List.drop_zero, List.take_left]

theorem jsSliceFrom_render (k v : JSStr) :
    jsSliceFrom (renderPair (k, v)) (k.length + 1) = v := by
  show jsSliceFrom (k ++ '=' :: v) (k.length + 1) = v
  unfold jsSliceFrom
  have h1 : k ++ '=' :: v = (k ++ ['=']) ++ v := by simp
  have h2 : (k ++ ['=']).length = k.length + 1 := by simp
  rw [h1, ← h2, List.drop_left]

theorem jsUpper_of_fixed (k : JSStr) (h : ∀ c ∈ k, Char.toUpper c = c) :
    jsUpper k = k := by
  unfold jsUpper
  calc k.map Char.toUpper = k.map id := List.map_congr_left h
  _ = k := List.map_id k

theorem buildKVMap_render_aux (pairs : SMap)
    (hk : ∀ p ∈ pairs, '=' ∉ p.1 ∧ jsUpper p.1 = p.1) :
    ∀ acc, ((pairs.map renderPair).foldl
      (fun m part =>
        match jsIndexOfCh '=' part with
        | none => m
        | some eq => smSet m (jsUpper (jsSlice part 0 eq)) (jsSliceFrom part (eq + 1)))
      acc) = pairs.foldl (fun m p => smSet m p.1 p.2) acc := by
  induction pairs with
  | nil => intro acc; rfl
  | cons p rest ih =>
    intro acc
    obtain ⟨hpe, hpu⟩ := hk p (List.mem_cons_self p rest)
    have hrest : ∀ q ∈ rest, '=' ∉ q.1 ∧ jsUpper q.1 = q.1 :=
      fun q hq => hk q (List.mem_cons_of_mem p hq)
    show ((renderPair p :: rest.map renderPair).foldl _ acc) = _
    rw [List.foldl_cons, List.foldl_cons]
    have hp : p = (p.1, p.2) := rfl
    have hidx : jsIndexOfCh '=' (renderPair p) = some p.1.length := by
      rw [hp]; exact jsIndexOfCh_render p.1 p.2 hpe
    rw [hidx]
    dsimp only
    have hsl : jsSlice (renderPair p) 0 p.1.length = p.1 := by
      rw [hp]; exact jsSlice_render p.1 p.2
    have hsf : jsSliceFrom (renderPair p) (p.1.length + 1) = p.2 := by
      rw [hp]; exact jsSliceFrom_render p.1 p.2
    rw [hsl, hsf, hpu]
    exact ih hrest (smSet acc p.1 p.2)

theorem buildKVMap_render (pairs : SMap)
    (hk : ∀ p ∈ pairs, '=' ∉ p.1 ∧ jsUpper p.1 = p.1) :
    buildKVMap (pairs.map renderPair) =
      pairs.foldl (fun m p => smSet m p.1 p.2) [] := by
  unfold buildKVMap
  exact buildKVMap_render_aux pairs hk []

theorem smGet_append (A B : SMap) (k : JSStr) :
    smGet (A ++ B) k = (smGet A k).or (smGet B k) := by
  unfold smGet
  rw [List.find?_append]
  cases List.find? (fun e => e.1 == k) A with
  | none => rfl
  | some e => rfl

theorem smSet_fresh (m : SMap) (k : JSStr) (v : JSStr) (h : smGet m k = none) :
    smSet m k v = m ++ [(k, v)] := by
  unfold smGet at h
  unfold smSet
  cases hf : List.find? (fun e => e.1 == k) m with
  | none => simp
  | some e => rw [hf] at h; simp at h

theorem smGet_singleton (k q v : JSStr) :
    smGet [(k, v)] q = if k = q then some v else none := by
  unfold smGet
  by_cases h : k = q
  · subst h; simp
  · have hb : (k == q) = false := by simp [h]
    simp [List.find?, hb, h]

theorem foldl_smSet_nodup : ∀ pairs : SMap, ∀ acc : SMap,
    List.Pairwise (fun p q : JSStr × JSStr => p.1 ≠ q.1) pairs →
    (∀ p ∈ pairs, smGet acc p.1 = none) →
    pairs.foldl (fun m p => smSet m p.1 p.2) acc = acc ++ pairs := by
  intro pairs
  induction pairs with
  | nil => intro acc _ _; simp
  | cons p rest ih =>
    intro acc hpw hfresh
    rw [List.foldl_cons]
    have hset : smSet acc p.1 p.2 = acc ++ [(p.1, p.2)] :=
      smSet_fresh acc p.1 p.2 (hfresh p (List.mem_cons_self p rest))
    have hp : (p.1, p.2) = p := rfl
    rw [hset, hp]
    have hpw2 := (List.pairwise_cons.mp hpw).2
    have hne := (List.pairwise_cons.mp hpw).1
    rw [ih (acc ++ [p]) hpw2 (by
      intro q hq
      rw [smGet_append]
      rw [hfresh q (List.mem_cons_of_mem p hq)]
      have : smGet [p] q.1 = none := by
        have hqp : p.1 ≠ q.1 := hne q hq
        have hp2 : [p] = [(p.1, p.2)] := rfl
        rw [hp2, smGet_singleton]
        rw [if_neg hqp]
      rw [this]
      rfl)]
    simp

theorem optPairSeg_keys (k : JSStr) (v : Option JSStr) :
    List.Sublist ((optPairSeg k v).map Prod.fst) [k] := by
  cases v with
  | none => exact List.nil_sublist [k]
  | some s => exact List.Sublist.refl [k]

theorem RECUR_KEYS_nodup : RECUR_KEYS.Nodup := by decide

theorem pairs_keys_sublist (val : ICalRecur) :
    List.Sublist ((RECUR.pairs val).map Prod.fst) RECUR_KEYS := by
  unfold RECUR.pairs RECUR_KEYS
  simp only [List.map_append]
  refine List.Sublist.append (List.Sublist.append (List.Sublist.append
    (List.Sublist.append (List.Sublist.append (List.Sublist.append
    (List.Sublist.append (List.Sublist.append (List.Sublist.append
    (List.Sublist.append (List.Sublist.append (List.Sublist.append
    (List.Sublist.append (optPairSeg_keys _ _) (optPairSeg_keys _ _))
    (optPairSeg_keys _ _)) (optPairSeg_keys _ _)) (optPairSeg_keys _ _))
    (optPairSeg_keys _ _)) (optPairSeg_keys _ _)) (optPairSeg_keys _ _))
    (optPairSeg_keys _ _)) (optPairSeg_keys _ _)) (optPairSeg_keys _ _))
    (optPairSeg_keys _ _)) (optPairSeg_keys _ _)) (optPairSeg_keys _ _)

theorem pairs_nodup (val : ICalRecur) :
    List.Pairwise (fun p q : JSStr × JSStr => p.1 ≠ q.1) (RECUR.pairs val) := by
  have h1 := pairs_keys_sublist val
  have h2 : ((RECUR.pairs val).map Prod.fst).Nodup :=
    List.Nodup.sublist h1 RECUR_KEYS_nodup
  exact List.pairwise_map.mp h2

theorem smGet_optPairSeg (k q : JSStr) (v : Option JSStr) :
    smGet (optPairSeg k v) q = if k = q then v else none := by
  cases v with
  | none =>
    show smGet [] q = _
    by_cases h : k = q <;> simp [smGet, h]
  | some s =>
    show smGet [(k, s)] q = _
    exact smGet_singleton k q s

theorem intChars_inventory (i : Int) :
    ∀ c ∈ intChars i, (∃ d, d < 10 ∧ c = digitCh d) ∨ c = '-' := by
  intro c hc
  cases i with
  | ofNat n =>
    rcases List.mem_map.mp hc with ⟨d, hd, rfl⟩
    exact Or.inl ⟨d, natDigitsBE_lt10 n d hd, rfl⟩
  | negSucc m =>
    rcases List.mem_cons.mp hc with rfl | h2
    · exact Or.inr rfl
    · rcases List.mem_map.mp h2 with ⟨d, hd, rfl⟩
      exact Or.inl ⟨d, natDigitsBE_lt10 (m + 1) d hd, rfl⟩

theorem intChars_wsFree (i : Int) : ∀ c ∈ intChars i, isJsWS c = false := by
  intro c hc
  rcases intChars_inventory i c hc with ⟨d, hd, rfl⟩ | rfl
  · exact (digitCh_props d hd).1
  · decide

theorem comma_not_mem_intChars (i : Int) : ',' ∉ intChars i := by
  intro hc
  rcases intChars_inventory i ',' hc with ⟨d, hd, he⟩ | he
  · exact (digitCh_props d hd).2.2.2.2.2.2.2.2.2.1 he.symm
  · exact absurd he (by decide)

theorem intChars_ne_nil (i : Int) : intChars i ≠ [] := by
  cases i with
  | ofNat n => exact natChars_ne_nil n
  | negSucc m => simp [intChars]

theorem parseIntJS_intChars (i : Int) : parseIntJS (intChars i) = some i := by
  cases i with
  | ofNat n =>
    show parseIntJS ((natDigitsBE n).map digitCh) = some (Int.ofNat n)
    have h := parseIntJS_digits (natDigitsBE n) (natDigitsBE_lt10 n) (natDigitsBE_ne_nil n)
    rw [natDigitsBE_val] at h
    exact h
  | negSucc m =>
    show parseIntJS ('-' :: natChars (m + 1)) = some (Int.negSucc m)
    have hws : ∀ c ∈ '-' :: natChars (m + 1), isJsWS c = false := by
      intro c hc
      rcases List.mem_cons.mp hc with rfl | h2
      · decide
      · exact natChars_wsFree (m + 1) c h2
    have htake : takeDigits (natChars (m + 1)) = (natDigitsBE (m + 1), []) := by
      have := takeDigits_map_digitCh (natDigitsBE (m + 1)) [] (natDigitsBE_lt10 (m + 1))
        (fun c hc => by simp at hc)
      simpa [natChars] using this
    unfold parseIntJS
    rw [dropWhile_eq_self_of_all hws]
    simp only [List.head?_cons, List.tail_cons]
    rw [if_pos (Or.inl trivial)]
    have hne : ((natDigitsBE (m + 1)).isEmpty) = false := by
      cases he : natDigitsBE (m + 1) with
      | nil => exact absurd he (natDigitsBE_ne_nil (m + 1))
      | cons a t => rfl
    simp [htake, hne, natDigitsBE_val, Int.negSucc_eq]

theorem numberJS_intChars (i : Int) : numberJS (intChars i) = some i := by
  unfold numberJS
  rw [jsTrim_eq_self (intChars_wsFree i)]
  cases i with
  | ofNat n =>
    have hint : intChars (Int.ofNat n) = natChars n := rfl
    rw [hint]
    have hne2 : ((natChars n).isEmpty) = false := by
      cases he : natChars n with
      | nil => exact absurd he (natChars_ne_nil n)
      | cons a t => rfl
    rw [if_neg (by rw [hne2]; simp)]
    dsimp only
    obtain ⟨c0, tl0, hc0⟩ : ∃ c0 tl0, natChars n = c0 :: tl0 := by
      cases hn : natChars n with
      | nil => exact absurd hn (natChars_ne_nil n)
      | cons a t => exact ⟨a, t, rfl⟩
    obtain ⟨d0, hd0, hde⟩ : ∃ d, d < 10 ∧ c0 = digitCh d := by
      have hmem : c0 ∈ natChars n := by rw [hc0]; exact List.mem_cons_self c0 tl0
      rcases List.mem_map.mp hmem with ⟨x, hx, hxe⟩
      exact ⟨x, natDigitsBE_lt10 n x hx, hxe.symm⟩
    subst hde
    have hhead : (natChars n).head? = some (digitCh d0) := by rw [hc0]; rfl
    have hcond : ¬((natChars n).head? = some '-' ∨ (natChars n).head? = some '+') := by
      rw [hhead]
      push_neg
      constructor
      · intro he
        exact (digitCh_props d0 hd0).2.2.1 (by injection he)
      · intro he
        exact (digitCh_props d0 hd0).2.2.2.1 (by injection he)
    rw [if_neg hcond]
    have hnegd : ¬((natChars n).head? = some '-') := by
      rw [hhead]
      intro he
      exact (digitCh_props d0 hd0).2.2.1 (by injection he)
    have htake : takeDigits (natChars n) = (natDigitsBE n, []) := by
      have := takeDigits_map_digitCh (natDigitsBE n) [] (natDigitsBE_lt10 n)
        (fun c hc => by simp at hc)
      simpa [natChars] using this
    rw [htake]
    have hne : ((natDigitsBE n).isEmpty) = false := by
      cases he : natDigitsBE n with
      | nil => exact absurd he (natDigitsBE_ne_nil n)
      | cons a t => rfl
    simp [hne, hnegd, natDigitsBE_val]
  | negSucc m =>
    have hint : intChars (Int.negSucc m) = '-' :: natChars (m + 1) := rfl
    rw [hint]
    rw [if_neg (by simp)]
    dsimp only
    simp only [List.head?_cons, List.tail_cons]
    rw [if_pos (Or.inl trivial)]
    have htake : takeDigits (natChars (m + 1)) = (natDigitsBE (m + 1), []) := by
      have := takeDigits_map_digitCh (natDigitsBE (m + 1)) [] (natDigitsBE_lt10 (m + 1))
        (fun c hc => by simp at hc)
      simpa [natChars] using this
    have hne : ((natDigitsBE (m + 1)).isEmpty) = false := by
      cases he : natDigitsBE (m + 1) with
      | nil => exact absurd he (natDigitsBE_ne_nil (m + 1))
      | cons a t => rfl
    rw [htake]
    simp [hne, natDigitsBE_val, Int.negSucc_eq]

theorem freq_chars_upper (f : RecurFreq) :
    jsUpper (RecurFreq.chars f) = RecurFreq.chars f := by
  cases f <;> decide

theorem freqOfChars_chars (f : RecurFreq) :
    freqOfChars? (RecurFreq.chars f) = some f := by
  cases f <;> decide

theorem weekday_chars_mem_AB (w : Weekday) : ∀ c ∈ Weekday.chars w, c ∈ recurAB := by
  cases w <;> decide

theorem weekday_chars_wsFree (w : Weekday) : ∀ c ∈ Weekday.chars w, isJsWS c = false := by
  cases w <;> decide

theorem weekday_chars_head_not_digit (w : Weekday) :
    ∀ c, (Weekday.chars w).head? = some c → charDigit? c = none := by
  cases w <;> decide

theorem weekday_upper_chars (w : Weekday) :
    weekdayOfChars? (jsUpper (Weekday.chars w)) = some w := by
  cases w <;> decide

theorem freq_chars_mem_AB (f : RecurFreq) : ∀ c ∈ RecurFreq.chars f, c ∈ recurAB := by
  cases f <;> decide

theorem comma_not_mem_weekday_chars (w : Weekday) : ',' ∉ Weekday.chars w := by
  cases w <;> decide

theorem byDayChars_mem_AB (r : ByDayRule) (hr : r.Wf) :
    ∀ c ∈ byDayChars r, c ∈ recurAB := by
  obtain ⟨day, ordwk⟩ := r
  intro c hc
  rcases List.mem_append.mp hc with h1 | h2
  · rcases hr with hnone | ⟨i, hi⟩
    · rw [show ordwk = none from hnone] at h1
      simp at h1
    · rw [show ordwk = some (some i) from hi] at h1
      exact intChars_mem_AB i c h1
  · exact weekday_chars_mem_AB day c h2

theorem comma_not_mem_byDayChars (r : ByDayRule) (hr : r.Wf) :
    ',' ∉ byDayChars r := by
  obtain ⟨day, ordwk⟩ := r
  intro hc
  rcases List.mem_append.mp hc with h1 | h2
  · rcases hr with hnone | ⟨i, hi⟩
    · rw [show ordwk = none from hnone] at h1
      simp at h1
    · rw [show ordwk = some (some i) from hi] at h1
      exact comma_not_mem_intChars i h1
  · exact comma_not_mem_weekday_chars day h2

theorem weekday_chars_ne_nil (w : Weekday) : Weekday.chars w ≠ [] := by
  cases w <;> decide

theorem byDayChars_ne_nil (r : ByDayRule) : byDayChars r ≠ [] := by
  intro hc
  rcases List.append_eq_nil.mp hc with ⟨_, h2⟩
  exact weekday_chars_ne_nil r.day h2

theorem byDayChars_wsFree (r : ByDayRule) (hr : r.Wf) :
    ∀ c ∈ byDayChars r, isJsWS c = false := by
  intro c hc
  exact (recurAB_props c (byDayChars_mem_AB r hr c hc)).1

theorem parseByDayEntry_byDayChars (r : ByDayRule) (hr : r.Wf) :
    parseByDayEntry (byDayChars r) = r := by
  obtain ⟨day, ordwk⟩ := r
  rcases hr with hnone | ⟨i, hi⟩
  · obtain rfl : ordwk = none := hnone
    show parseByDayEntry ([] ++ Weekday.chars day) = _
    cases day <;> decide
  · obtain rfl : ordwk = some (some i) := hi
    show parseByDayEntry (intChars i ++ Weekday.chars day) = _
    have hws : ∀ c ∈ intChars i ++ Weekday.chars day, isJsWS c = false := by
      intro c hc
      rcases List.mem_append.mp hc with h1 | h2
      · exact intChars_wsFree i c h1
      · exact weekday_chars_wsFree day c h2
    unfold parseByDayEntry
    rw [jsTrim_eq_self hws]
    dsimp only
    cases i with
    | ofNat n =>
      have hint : intChars (Int.ofNat n) ++ Weekday.chars day
          = natChars n ++ Weekday.chars day := rfl
      rw [hint]
      obtain ⟨c0, tl0, hc0⟩ : ∃ c0 tl0, natChars n = c0 :: tl0 := by
        cases hn : natChars n with
        | nil => exact absurd hn (natChars_ne_nil n)
        | cons a t => exact ⟨a, t, rfl⟩
      obtain ⟨d0, hd0, hde⟩ : ∃ d, d < 10 ∧ c0 = digitCh d := by
        have hmem : c0 ∈ natChars n := by rw [hc0]; exact List.mem_cons_self c0 tl0
        rcases List.mem_map.mp hmem with ⟨x, hx, hxe⟩
        exact ⟨x, natDigitsBE_lt10 n x hx, hxe.symm⟩
      subst hde
      have hhead : (natChars n ++ Weekday.chars day).head? = some (digitCh d0) := by
        rw [hc0]; rfl
      have hplus : ¬((natChars n ++ Weekday.chars day).head? = some '+') := by
        rw [hhead]
        intro he
        exact (digitCh_props d0 hd0).2.2.2.1 (by injection he)
      have hminus : ¬((natChars n ++ Weekday.chars day).head? = some '-') := by
        rw [hhead]
        intro he
        exact (digitCh_props d0 hd0).2.2.1 (by injection he)
      rw [if_neg hplus, if_neg hminus]
      have htake : takeDigits (natChars n ++ Weekday.chars day)
          = (natDigitsBE n, Weekday.chars day) := by
        show takeDigits ((natDigitsBE n).map digitCh ++ Weekday.chars day) = _
        exact takeDigits_map_digitCh (natDigitsBE n) (Weekday.chars day)
          (natDigitsBE_lt10 n) (weekday_chars_head_not_digit day)
      rw [htake]
      cases he : natDigitsBE n with
      | nil => exact absurd he (natDigitsBE_ne_nil n)
      | cons a t =>
        have hval : digitsVal (a :: t) = n := by rw [← he, natDigitsBE_val]
        simp only [hval, weekday_upper_chars day]
        rfl
    | negSucc m =>
      have hint : intChars (Int.negSucc m) ++ Weekday.chars day
          = '-' :: (natChars (m + 1) ++ Weekday.chars day) := rfl
      rw [hint]
      simp only [List.head?_cons, List.tail_cons]
      rw [if_pos trivial]
      have htake : takeDigits (natChars (m + 1) ++ Weekday.chars day)
          = (natDigitsBE (m + 1), Weekday.chars day) := by
        show takeDigits ((natDigitsBE (m + 1)).map digitCh ++ Weekday.chars day) = _
        exact takeDigits_map_digitCh (natDigitsBE (m + 1)) (Weekday.chars day)
          (natDigitsBE_lt10 (m + 1)) (weekday_chars_head_not_digit day)
      rw [htake]
      cases he : natDigitsBE (m + 1) with
      | nil => exact absurd he (natDigitsBE_ne_nil (m + 1))
      | cons a t =>
        have hval : digitsVal (a :: t) = m + 1 := by rw [← he, natDigitsBE_val]
        simp only [hval, weekday_upper_chars day]
        have hneg : -((m + 1 : Nat) : Int) = Int.negSucc m := by
          rw [Int.negSucc_eq]
          simp
        rw [hneg]
        rfl

theorem DATE_serialize_digits (d : ICalDate) (h : d.Wf) :
    ∀ c ∈ DATE.serialize d, ∃ k, k < 10 ∧ c = digitCh k := by
  obtain ⟨Y, M, D⟩ := d
  obtain ⟨⟨y, hy, e1⟩, ⟨mo, hmo, e2⟩, ⟨dd, hdd, e3⟩⟩ :
      WfN 9999 Y ∧ WfN 99 M ∧ WfN 99 D := h
  subst e1 e2 e3
  intro c hc
  have hc2 : c ∈ pad4 (some (y : Int)) ++ pad2 (some (mo : Int)) ++ pad2 (some (dd : Int)) := hc
  rcases List.mem_append.mp hc2 with h1 | h2
  · rcases List.mem_append.mp h1 with h3 | h4
    · rcases pad4_digits y c h3 with ⟨k, hk, rfl⟩
      exact ⟨k, hk, rfl⟩
    · rcases pad2_digits mo c h4 with ⟨k, hk, rfl⟩
      exact ⟨k, hk, rfl⟩
  · rcases pad2_digits dd c h2 with ⟨k, hk, rfl⟩
    exact ⟨k, hk, rfl⟩

theorem DATE_serialize_mem_AB (d : ICalDate) (h : d.Wf) :
    ∀ c ∈ DATE.serialize d, c ∈ recurAB := by
  intro c hc
  rcases DATE_serialize_digits d h c hc with ⟨k, hk, rfl⟩
  exact digitCh_mem_AB k hk

theorem DATE_serialize_ne_nil (d : ICalDate) (h : d.Wf) : DATE.serialize d ≠ [] := by
  obtain ⟨Y, M, D⟩ := d
  obtain ⟨⟨y, hy, e1⟩, ⟨mo, hmo, e2⟩, ⟨dd, hdd, e3⟩⟩ :
      WfN 9999 Y ∧ WfN 99 M ∧ WfN 99 D := h
  subst e1 e2 e3
  intro hx
  have hx2 : pad4 (some (y : Int)) ++ pad2 (some (mo : Int)) ++ pad2 (some (dd : Int))
      = [] := hx
  rcases List.append_eq_nil.mp hx2 with ⟨h1, _⟩
  rcases List.append_eq_nil.mp h1 with ⟨h3, _⟩
  exact pad4_ne_nil y h3

theorem T_not_mem_DATE_serialize (d : ICalDate) (h : d.Wf) :
    'T' ∉ DATE.serialize d := by
  intro hc
  rcases DATE_serialize_digits d h 'T' hc with ⟨k, hk, he⟩
  exact (digitCh_props k hk).2.2.2.2.2.1 he.symm

theorem DATE_TIME_serialize_mem_AB (v : ICalDateTime) (h : v.Wf) :
    ∀ c ∈ DATE_TIME.serialize v, c ∈ recurAB := by
  intro c hc
  rcases DATE_TIME_serialize_chars v h c hc with ⟨k, hk, rfl⟩ | rfl | rfl
  · exact digitCh_mem_AB k hk
  · decide
  · decide

theorem T_mem_DATE_TIME_serialize (v : ICalDateTime) :
    'T' ∈ DATE_TIME.serialize v := by
  unfold DATE_TIME.serialize
  dsimp only
  have hcore : 'T' ∈ pad4 v.year ++ pad2 v.month ++ pad2 v.day ++
      'T' :: (pad2 v.hour ++ pad2 v.minute ++ pad2 v.second) :=
    List.mem_append.mpr (Or.inr (List.mem_cons_self _ _))
  by_cases hu : v.utc = true
  · rw [if_pos hu]
    exact List.mem_append_left _ hcore
  · rw [if_neg hu]
    exact hcore

theorem DATE_TIME_serialize_ne_nil (v : ICalDateTime) :
    DATE_TIME.serialize v ≠ [] := by
  intro hx
  have := T_mem_DATE_TIME_serialize v
  rw [hx] at this
  simp at this

-- ── The serialize / pairs bridge ─────────────────────────────────────────

theorem numListPart_eq_render (k : JSStr) (l : Option (List JSNum)) :
    numListPart k l = (optPairSeg k (numListStr l)).map renderPair := by
  cases l with
  | none => rfl
  | some xs =>
    unfold numListPart numListStr
    dsimp only
    by_cases h : xs.isEmpty
    · rw [if_pos h, if_pos h]
      rfl
    · rw [if_neg h, if_neg h]
      rfl

theorem serializeParts_eq_pairs (val : ICalRecur) :
    RECUR.serializeParts val = (RECUR.pairs val).map renderPair := by
  obtain ⟨freq, untl, count, interval, bysec, bymin, byhr, byday, bymd, byyd,
    bywn, bymo, bysp, wkst⟩ := val
  unfold RECUR.serializeParts RECUR.pairs
  dsimp only
  simp only [List.map_append, numListPart_eq_render]
  rcases byday with _ | rs
  · rcases untl with _ | (d | d) <;> rcases count with _ | c <;>
      rcases interval with _ | i <;> rcases wkst with _ | w <;> rfl
  · dsimp only [bydayStr]
    by_cases hrs : rs.isEmpty
    · rw [if_pos hrs, if_pos hrs]
      rcases untl with _ | (d | d) <;> rcases count with _ | c <;>
        rcases interval with _ | i <;> rcases wkst with _ | w <;> rfl
    · rw [if_neg hrs, if_neg hrs]
      rcases untl with _ | (d | d) <;> rcases count with _ | c <;>
        rcases interval with _ | i <;> rcases wkst with _ | w <;> rfl

-- ── Alphabet of the rendered pairs ───────────────────────────────────────

theorem optPairSeg_mem {p : JSStr × JSStr} {k : JSStr} {v : Option JSStr}
    (h : p ∈ optPairSeg k v) : ∃ s, v = some s ∧ p = (k, s) := by
  cases v with
  | none => simp [optPairSeg] at h
  | some s => exact ⟨s, rfl, List.mem_singleton.mp h⟩

theorem numListSeg_AB (k : JSStr) (l : Option (List JSNum)) (hl : WfIntList l)
    (hk : ∀ c ∈ k, c ∈ recurAB) {p : JSStr × JSStr}
    (hp : p ∈ optPairSeg k (numListStr l)) :
    (∀ c ∈ p.1, c ∈ recurAB) ∧ (∀ c ∈ p.2, c ∈ recurAB) := by
  obtain ⟨s, hv, rfl⟩ := optPairSeg_mem hp
  refine ⟨hk, ?_⟩
  rcases hl with rfl | ⟨xs, hne, rfl⟩
  · simp [numListStr] at hv
  · dsimp only [numListStr] at hv
    rw [if_neg (by simp [hne])] at hv
    obtain rfl : joinSep ',' ((xs.map (fun i => (some i : JSNum))).map jsNumChars) = s := by
      injection hv
    intro c hc
    rcases joinSep_mem ',' _ c hc with rfl | ⟨p2, hp2, hcp⟩
    · decide
    · rcases List.mem_map.mp hp2 with ⟨y, hy, rfl⟩
      rcases List.mem_map.mp hy with ⟨i, hi, rfl⟩
      exact intChars_mem_AB i c hcp

theorem bydaySeg_AB (l : Option (List ByDayRule))
    (hl : l = none ∨ (∃ rs : List ByDayRule, rs ≠ [] ∧ (∀ r ∈ rs, r.Wf) ∧ l = some rs))
    {p : JSStr × JSStr} (hp : p ∈ optPairSeg (js "BYDAY") (bydayStr l)) :
    (∀ c ∈ p.1, c ∈ recurAB) ∧ (∀ c ∈ p.2, c ∈ recurAB) := by
  obtain ⟨s, hv, rfl⟩ := optPairSeg_mem hp
  refine ⟨?_, ?_⟩
  · show ∀ c ∈ js "BYDAY", c ∈ recurAB
    decide
  rcases hl with rfl | ⟨rs, hne, hwf, rfl⟩
  · simp [bydayStr] at hv
  · dsimp only [bydayStr] at hv
    rw [if_neg (by simp [hne])] at hv
    obtain rfl : joinSep ',' (rs.map byDayChars) = s := by injection hv
    intro c hc
    rcases joinSep_mem ',' _ c hc with rfl | ⟨p2, hp2, hcp⟩
    · decide
    · rcases List.mem_map.mp hp2 with ⟨r, hr, rfl⟩
      exact byDayChars_mem_AB r (hwf r hr) c hcp

theorem untlSeg_AB (l : Option RecurUntil)
    (hl1 : ∀ d, l = some (RecurUntil.date d) → d.Wf)
    (hl2 : ∀ d, l = some (RecurUntil.dateTime d) → d.Wf ∧ d.tzid = none)
    {p : JSStr × JSStr} (hp : p ∈ optPairSeg (js "UNTIL") (untlStr l)) :
    (∀ c ∈ p.1, c ∈ recurAB) ∧ (∀ c ∈ p.2, c ∈ recurAB) := by
  obtain ⟨s, hv, rfl⟩ := optPairSeg_mem hp
  refine ⟨?_, ?_⟩
  · show ∀ c ∈ js "UNTIL", c ∈ recurAB
    decide
  rcases l with _ | (d | d)
  · simp [untlStr] at hv
  · obtain rfl : DATE.serialize d = s := by
      have hv2 : some (DATE.serialize d) = some s := hv
      injection hv2
    exact DATE_serialize_mem_AB d (hl1 d rfl)
  · obtain rfl : DATE_TIME.serialize d = s := by
      have hv2 : some (DATE_TIME.serialize d) = some s := hv
      injection hv2
    exact DATE_TIME_serialize_mem_AB d (hl2 d rfl).1

theorem intSeg_AB (k : JSStr) (o : Option JSNum)
    (ho : o = none ∨ ∃ i : Int, o = some (some i)) (hk : ∀ c ∈ k, c ∈ recurAB)
    {p : JSStr × JSStr} (hp : p ∈ optPairSeg k (o.map jsNumChars)) :
    (∀ c ∈ p.1, c ∈ recurAB) ∧ (∀ c ∈ p.2, c ∈ recurAB) := by
  obtain ⟨s, hv, rfl⟩ := optPairSeg_mem hp
  refine ⟨hk, ?_⟩
  rcases ho with rfl | ⟨i, rfl⟩
  · simp at hv
  · obtain rfl : jsNumChars (some i) = s := by
      have hv2 : some (jsNumChars (some i)) = some s := hv
      injection hv2
    exact fun c hc => intChars_mem_AB i c hc

theorem wkstSeg_AB (o : Option Weekday) {p : JSStr × JSStr}
    (hp : p ∈ optPairSeg (js "WKST") (o.map Weekday.chars)) :
    (∀ c ∈ p.1, c ∈ recurAB) ∧ (∀ c ∈ p.2, c ∈ recurAB) := by
  obtain ⟨s, hv, rfl⟩ := optPairSeg_mem hp
  refine ⟨?_, ?_⟩
  · show ∀ c ∈ js "WKST", c ∈ recurAB
    decide
  rcases o with _ | w
  · simp at hv
  · obtain rfl : Weekday.chars w = s := by
      have hv2 : some (Weekday.chars w) = some s := hv
      injection hv2
    exact weekday_chars_mem_AB w

theorem pairs_mem_AB (val : ICalRecur) (h : val.Wf) :
    ∀ p ∈ RECUR.pairs val, (∀ c ∈ p.1, c ∈ recurAB) ∧ (∀ c ∈ p.2, c ∈ recurAB) := by
  obtain ⟨freq, untl, count, interval, bysec, bymin, byhr, byday, bymd, byyd,
    bywn, bymo, bysp, wkst⟩ := val
  unfold ICalRecur.Wf at h
  dsimp only at h
  obtain ⟨huntl, hcount, hintv, hbysec, hbymin, hbyhr, hbyday, hbymd, hbyyd,
      hbywn, hbymo, hbysp⟩ := h
  intro p hp
  unfold RECUR.pairs at hp
  dsimp only at hp
  rcases List.mem_append.mp hp with hp | hseg
  rotate_left
  · exact wkstSeg_AB wkst hseg
  rcases List.mem_append.mp hp with hp | hseg
  rotate_left
  · exact numListSeg_AB _ bysp hbysp (by decide) hseg
  rcases List.mem_append.mp hp with hp | hseg
  rotate_left
  · exact numListSeg_AB _ bymo hbymo (by decide) hseg
  rcases List.mem_append.mp hp with hp | hseg
  rotate_left
  · exact numListSeg_AB _ bywn hbywn (by decide) hseg
  rcases List.mem_append.mp hp with hp | hseg
  rotate_left
  · exact numListSeg_AB _ byyd hbyyd (by decide) hseg
  rcases List.mem_append.mp hp with hp | hseg
  rotate_left
  · exact numListSeg_AB _ bymd hbymd (by decide) hseg
  rcases List.mem_append.mp hp with hp | hseg
  rotate_left
  · exact bydaySeg_AB byday hbyday hseg
  rcases List.mem_append.mp hp with hp | hseg
  rotate_left
  · exact numListSeg_AB _ byhr hbyhr (by decide) hseg
  rcases List.mem_append.mp hp with hp | hseg
  rotate_left
  · exact numListSeg_AB _ bymin hbymin (by decide) hseg
  rcases List.mem_append.mp hp with hp | hseg
  rotate_left
  · exact numListSeg_AB _ bysec hbysec (by decide) hseg
  rcases List.mem_append.mp hp with hp | hseg
  rotate_left
  · exact intSeg_AB _ interval hintv (by decide) hseg
  rcases List.mem_append.mp hp with hp | hseg
  rotate_left
  · exact intSeg_AB _ count hcount (by decide) hseg
  rcases List.mem_append.mp hp with hp | hseg
  rotate_left
  · exact untlSeg_AB untl
      (fun d hd => by rw [hd] at huntl; exact huntl)
      (fun d hd => by rw [hd] at huntl; exact huntl)
      hseg
  obtain ⟨s, hv, rfl⟩ := optPairSeg_mem hp
  refine ⟨?_, ?_⟩
  · show ∀ c ∈ js "FREQ", c ∈ recurAB
    decide
  obtain rfl : RecurFreq.chars freq = s := by
    have hv2 : some (RecurFreq.chars freq) = some s := hv
    injection hv2
  exact freq_chars_mem_AB freq

-- ── The whole parsed key-value map of a serialization ────────────────────

theorem RECUR_serialize_map (val : ICalRecur) (h : val.Wf) :
    buildKVMap (splitOnCh ';' (jsTrim (RECUR.serialize val))) = RECUR.pairs val := by
  have hAB := pairs_mem_AB val h
  have hser : RECUR.serialize val = joinSep ';' ((RECUR.pairs val).map renderPair) := by
    unfold RECUR.serialize
    rw [serializeParts_eq_pairs]
  have hfreeSemi : ∀ q ∈ (RECUR.pairs val).map renderPair, ';' ∉ q := by
    intro q hq hcq
    rcases List.mem_map.mp hq with ⟨p, hp, rfl⟩
    rcases renderPair_mem p ';' hcq with h1 | h1 | h1
    · exact (recurAB_props ';' ((hAB p hp).1 ';' h1)).2.1 rfl
    · exact absurd h1 (by decide)
    · exact (recurAB_props ';' ((hAB p hp).2 ';' h1)).2.1 rfl
  have hws : ∀ c ∈ RECUR.serialize val, isJsWS c = false := by
    intro c hc
    rw [hser] at hc
    rcases joinSep_mem ';' _ c hc with rfl | ⟨q, hq, hcq⟩
    · decide
    · rcases List.mem_map.mp hq with ⟨p, hp, rfl⟩
      rcases renderPair_mem p c hcq with h1 | h1 | h1
      · exact (recurAB_props c ((hAB p hp).1 c h1)).1
      · rw [h1]; decide
      · exact (recurAB_props c ((hAB p hp).2 c h1)).1
  have hne : (RECUR.pairs val).map renderPair ≠ [] := by
    unfold RECUR.pairs
    intro hx
    simp at hx
    exact absurd hx.1 (by simp [optPairSeg])
  have hkeys : ∀ p ∈ RECUR.pairs val, '=' ∉ p.1 ∧ jsUpper p.1 = p.1 := by
    intro p hp
    constructor
    · intro hcq
      exact (recurAB_props '=' ((hAB p hp).1 '=' hcq)).2.2.1 rfl
    · exact jsUpper_of_fixed p.1 (fun c hc => (recurAB_props c ((hAB p hp).1 c hc)).2.2.2)
  rw [jsTrim_eq_self hws, hser, splitOnCh_joinSep ';' _ hne hfreeSemi,
    buildKVMap_render _ hkeys,
    foldl_smSet_nodup _ [] (pairs_nodup val) (fun p _ => rfl)]
  simp

theorem numList_parse_back (l : Option (List JSNum)) (hl : WfIntList l) :
    (numListStr l).map (fun s => (splitOnCh ',' s).map numberJS) = l := by
  rcases hl with rfl | ⟨xs, hne, rfl⟩
  · rfl
  · dsimp only [numListStr]
    rw [if_neg (by simp [hne])]
    have hparts : (xs.map (fun i => (some i : JSNum))).map jsNumChars
        = xs.map intChars := by
      rw [List.map_map]
      rfl
    rw [hparts]
    have hsplit : splitOnCh ',' (joinSep ',' (xs.map intChars)) = xs.map intChars := by
      refine splitOnCh_joinSep ',' _ (by simp [hne]) ?_
      intro p hp
      rcases List.mem_map.mp hp with ⟨i, _, rfl⟩
      exact comma_not_mem_intChars i
    have hcongr : (xs.map (numberJS ∘ intChars)) = xs.map (fun i => (some i : JSNum)) :=
      List.map_congr_left (fun i _ => numberJS_intChars i)
    show some ((splitOnCh ',' (joinSep ',' (xs.map intChars))).map numberJS)
      = some (xs.map (fun i => (some i : JSNum)))
    rw [hsplit, List.map_map, hcongr]

set_option maxHeartbeats 16000000 in
/-- RECUR: parsing the canonical `KEY=value;…` serialization of an
in-grammar recurrence rule recovers it exactly. -/
theorem RECUR_roundtrip (v : ICalRecur) (h : v.Wf) :
    RECUR.parse (RECUR.serialize v) = Except.ok v := by
  have hmap := RECUR_serialize_map v h
  have hFREQ : smGet (RECUR.pairs v) (js "FREQ") = some v.freq.chars := by
    unfold RECUR.pairs
    simp +decide [smGet_append, smGet_optPairSeg]
  have hUNTIL : smGet (RECUR.pairs v) (js "UNTIL") = untlStr v.untl := by
    unfold RECUR.pairs
    simp +decide [smGet_append, smGet_optPairSeg]
  have hCOUNT : smGet (RECUR.pairs v) (js "COUNT") = v.count.map jsNumChars := by
    unfold RECUR.pairs
    simp +decide [smGet_append, smGet_optPairSeg]
  have hINTERVAL : smGet (RECUR.pairs v) (js "INTERVAL") = v.interval.map jsNumChars := by
    unfold RECUR.pairs
    simp +decide [smGet_append, smGet_optPairSeg]
  have hBYSECOND : smGet (RECUR.pairs v) (js "BYSECOND") = numListStr v.bysecond := by
    unfold RECUR.pairs
    simp +decide [smGet_append, smGet_optPairSeg]
  have hBYMINUTE : smGet (RECUR.pairs v) (js "BYMINUTE") = numListStr v.byminute := by
    unfold RECUR.pairs
    simp +decide [smGet_append, smGet_optPairSeg]
  have hBYHOUR : smGet (RECUR.pairs v) (js "BYHOUR") = numListStr v.byhour := by
    unfold RECUR.pairs
    simp +decide [smGet_append, smGet_optPairSeg]
  have hBYDAY : smGet (RECUR.pairs v) (js "BYDAY") = bydayStr v.byday := by
    unfold RECUR.pairs
    simp +decide [smGet_append, smGet_optPairSeg]
  have hBYMONTHDAY : smGet (RECUR.pairs v) (js "BYMONTHDAY") = numListStr v.bymonthday := by
    unfold RECUR.pairs
    simp +decide [smGet_append, smGet_optPairSeg]
  have hBYYEARDAY : smGet (RECUR.pairs v) (js "BYYEARDAY") = numListStr v.byyearday := by
    unfold RECUR.pairs
    simp +decide [smGet_append, smGet_optPairSeg]
  have hBYWEEKNO : smGet (RECUR.pairs v) (js "BYWEEKNO") = numListStr v.byweekno := by
    unfold RECUR.pairs
    simp +decide [smGet_append, smGet_optPairSeg]
  have hBYMONTH : smGet (RECUR.pairs v) (js "BYMONTH") = numListStr v.bymonth := by
    unfold RECUR.pairs
    simp +decide [smGet_append, smGet_optPairSeg]
  have hBYSETPOS : smGet (RECUR.pairs v) (js "BYSETPOS") = numListStr v.bysetpos := by
    unfold RECUR.pairs
    simp +decide [smGet_append, smGet_optPairSeg]
  have hWKST : smGet (RECUR.pairs v) (js "WKST") = v.wkst.map Weekday.chars := by
    unfold RECUR.pairs
    simp +decide [smGet_append, smGet_optPairSeg]
  unfold ICalRecur.Wf at h
  obtain ⟨huntl, hcount, hintv, hbysec, hbymin, hbyhr, hbyday, hbymd, hbyyd,
    hbywn, hbymo, hbysp⟩ := h
  unfold RECUR.parse
  rw [hmap]
  dsimp only
  rw [hFREQ, hUNTIL, hCOUNT, hINTERVAL, hBYSECOND, hBYMINUTE, hBYHOUR,
    hBYDAY, hBYMONTHDAY, hBYYEARDAY, hBYWEEKNO, hBYMONTH, hBYSETPOS, hWKST]
  have hgetD : (some v.freq.chars).getD [] = v.freq.chars := rfl
  rw [hgetD, freq_chars_upper v.freq, freqOfChars_chars v.freq]
  dsimp only
  have hv : v = ⟨v.freq, v.untl, v.count, v.interval, v.bysecond, v.byminute,
      v.byhour, v.byday, v.bymonthday, v.byyearday, v.byweekno, v.bymonth,
      v.bysetpos, v.wkst⟩ := rfl
  conv_rhs => rw [hv]
  simp only [Except.ok.injEq, ICalRecur.mk.injEq]
  refine ⟨trivial, ?_, ?_, ?_, ?_, ?_, ?_, ?_, ?_, ?_, ?_, ?_, ?_, ?_⟩
  · -- UNTIL
    rcases huv : v.untl with _ | (d | d)
    · simp [untlStr]
    · rw [huv] at huntl
      dsimp only [untlStr]
      have hemp : (DATE.serialize d).isEmpty = false := by
        cases he : DATE.serialize d with
        | nil => exact absurd he (DATE_serialize_ne_nil d huntl)
        | cons a t => rfl
      have hcont : (DATE.serialize d).contains 'T' = false := by
        simpa using T_not_mem_DATE_serialize d huntl
      simp only [hemp, hcont, Bool.false_eq_true, if_false]
      rw [DATE_roundtrip d huntl]
    · rw [huv] at huntl
      dsimp only [untlStr]
      have hemp : (DATE_TIME.serialize d).isEmpty = false := by
        cases he : DATE_TIME.serialize d with
        | nil => exact absurd he (DATE_TIME_serialize_ne_nil d)
        | cons a t => rfl
      have hcont : (DATE_TIME.serialize d).contains 'T' = true := by
        simpa using T_mem_DATE_TIME_serialize d
      simp only [hemp, hcont, Bool.false_eq_true, if_false, if_true]
      have hrt := DATE_TIME_roundtrip d huntl.1
      rw [huntl.2] at hrt
      have htz : tzidParams none = [] := rfl
      rw [htz] at hrt
      rw [hrt]
  · -- COUNT
    rcases hcount with hc | ⟨i, hc⟩ <;> rw [hc]
    · rfl
    · have hji : jsNumChars (some i) = intChars i := rfl
      simp [hji, parseIntJS_intChars i]
  · -- INTERVAL
    rcases hintv with hc | ⟨i, hc⟩ <;> rw [hc]
    · rfl
    · have hji : jsNumChars (some i) = intChars i := rfl
      simp [hji, parseIntJS_intChars i]
  · exact numList_parse_back v.bysecond hbysec
  · exact numList_parse_back v.byminute hbymin
  · exact numList_parse_back v.byhour hbyhr
  · -- BYDAY
    rcases hbv : v.byday with _ | rs
    · simp [bydayStr]
    · rw [hbv] at hbyday
      rcases hbyday with hb0 | ⟨rs2, hne, hwf, hb1⟩
      · exact absurd hb0 (by simp)
      · have h2 : rs2 = rs := by injection hb1 with h3; exact h3.symm
        rw [h2] at hne hwf
        dsimp only [bydayStr]
        rw [if_neg (by simp [hne])]
        have hjoin : (joinSep ',' (rs.map byDayChars)).isEmpty = false := by
          cases hrs : rs with
          | nil => exact absurd hrs hne
          | cons r0 rtl =>
            have h0 : byDayChars r0 ≠ [] := byDayChars_ne_nil r0
            cases rtl with
            | nil =>
              show (joinSep ',' [byDayChars r0]).isEmpty = false
              cases hb : byDayChars r0 with
              | nil => exact absurd hb h0
              | cons a t => rfl
            | cons r1 rtl2 =>
              show (byDayChars r0 ++ ',' :: joinSep ',' (byDayChars r1 :: rtl2.map byDayChars)).isEmpty = false
              cases hb : byDayChars r0 with
              | nil => exact absurd hb h0
              | cons a t => rfl
        simp only [hjoin, Bool.false_eq_true, if_false]
        have hsplit : splitOnCh ',' (joinSep ',' (rs.map byDayChars)) = rs.map byDayChars := by
          refine splitOnCh_joinSep ',' _ (by simp [hne]) ?_
          intro p hp
          rcases List.mem_map.mp hp with ⟨r, hr, rfl⟩
          exact comma_not_mem_byDayChars r (hwf r hr)
        rw [hsplit, List.map_map]
        have hcongr : rs.map (parseByDayEntry ∘ byDayChars) = rs.map id :=
          List.map_congr_left (fun r hr => parseByDayEntry_byDayChars r (hwf r hr))
        rw [hcongr, List.map_id]
  · exact numList_parse_back v.bymonthday hbymd
  · exact numList_parse_back v.byyearday hbyyd
  · exact numList_parse_back v.byweekno hbywn
  · exact numList_parse_back v.bymonth hbymo
  · exact numList_parse_back v.bysetpos hbysp
  · -- WKST
    rcases hw : v.wkst with _ | w
    · rfl
    · show weekdayOfChars? (jsUpper (Weekday.chars w)) = some w
      exact weekday_upper_chars w

-- ═══ Lemmas: line folding ════════════════════════════════════════════════

theorem charOctets_le (c : Nat) : 1 ≤ charOctets c ∧ charOctets c ≤ 4 := by
  unfold charOctets
  split_ifs <;> omega

theorem charOctets_surr (c : Nat) (h : 0xd800 ≤ c ∧ c < 0xe000) :
    charOctets c = 4 := by
  unfold charOctets
  split_ifs <;> omega

theorem octetLen_cons (c : Nat) (t : U16Str) (h : c < 0xd800 ∨ 0xe000 ≤ c) :
    octetLen (c :: t) = charOctets c + octetLen t := by
  cases t with
  | nil =>
    show octetLen [c] = charOctets c + 0
    conv_lhs => rw [octetLen]
    unfold charOctets
    split_ifs <;> omega
  | cons d r =>
    conv_lhs => rw [octetLen]
    unfold charOctets
    split_ifs <;> omega

theorem octetLen_pair (c d : Nat) (t : U16Str) (h : 0xd800 ≤ c ∧ c < 0xe000) :
    octetLen (c :: d :: t) = 4 + octetLen t := by
  conv_lhs => rw [octetLen]
  split_ifs <;> omega

theorem octetLen_single_surr (c : Nat) (h : 0xd800 ≤ c ∧ c < 0xe000) :
    octetLen [c] = 4 := by
  conv_lhs => rw [octetLen]
  split_ifs <;> omega

theorem chunkSplit_append_n : ∀ n : Nat, ∀ l : U16Str, l.length ≤ n →
    ∀ budget octets : Nat,
    (chunkSplit budget octets l).1 ++ (chunkSplit budget octets l).2 = l := by
  intro n
  induction n with
  | zero =>
    intro l hl budget octets
    have h0 : l = [] := List.length_eq_zero.mp (Nat.le_zero.mp hl)
    subst h0
    rfl
  | succ n ih =>
    intro l hl budget octets
    cases l with
    | nil => rfl
    | cons c rest =>
      unfold chunkSplit
      dsimp only
      by_cases h1 : octets + charOctets c > budget
      · rw [if_pos h1]
        rfl
      · rw [if_neg h1]
        by_cases h2 : 0xd800 ≤ c ∧ c < 0xdc00
        · rw [if_pos h2]
          cases rest with
          | nil => rfl
          | cons d rest2 =>
            rcases h3 : chunkSplit budget (octets + charOctets c) rest2 with ⟨t, r⟩
            have hrec := ih rest2 (by simp at hl ⊢; omega) budget (octets + charOctets c)
            rw [h3] at hrec
            dsimp at hrec
            try dsimp only
            try rw [h3]
            simp [hrec]
        · rw [if_neg h2]
          rcases h3 : chunkSplit budget (octets + charOctets c) rest with ⟨t, r⟩
          have hrec := ih rest (by simp at hl ⊢; omega) budget (octets + charOctets c)
          rw [h3] at hrec
          dsimp at hrec
          try dsimp only
          try rw [h3]
          simp [hrec]

theorem chunkSplit_append (budget octets : Nat) (l : U16Str) :
    (chunkSplit budget octets l).1 ++ (chunkSplit budget octets l).2 = l :=
  chunkSplit_append_n l.length l le_rfl budget octets

theorem chunkSplit_octets_n : ∀ n : Nat, ∀ l : U16Str, l.length ≤ n →
    wfUTF16 l = true → ∀ budget octets : Nat, octets ≤ budget →
    octets + octetLen (chunkSplit budget octets l).1 ≤ budget := by
  intro n
  induction n with
  | zero =>
    intro l hl _ budget octets hob
    have h0 : l = [] := List.length_eq_zero.mp (Nat.le_zero.mp hl)
    subst h0
    show octets + octetLen [] ≤ budget
    show octets + 0 ≤ budget
    omega
  | succ n ih =>
    intro l hl hwf budget octets hob
    cases l with
    | nil =>
      show octets + 0 ≤ budget
      omega
    | cons c rest =>
      unfold chunkSplit
      dsimp only
      by_cases h1 : octets + charOctets c > budget
      · rw [if_pos h1]
        show octets + 0 ≤ budget
        omega
      · rw [if_neg h1]
        by_cases h2 : 0xd800 ≤ c ∧ c < 0xdc00
        · have hnf : ¬(c < 0xd800 ∨ 0xe000 ≤ c) := by omega
          unfold wfUTF16 at hwf
          rw [if_neg hnf, if_pos h2.2] at hwf
          rw [if_pos h2]
          cases rest with
          | nil => simp at hwf
          | cons d rest2 =>
            have hwf2 : wfUTF16 rest2 = true := by
              rw [Bool.and_eq_true] at hwf
              exact hwf.2
            rcases h3 : chunkSplit budget (octets + charOctets c) rest2 with ⟨t, r⟩
            have hw4 : charOctets c = 4 := charOctets_surr c ⟨h2.1, by omega⟩
            have hrec := ih rest2 (by simp at hl ⊢; omega) hwf2 budget
              (octets + charOctets c) (by omega)
            rw [h3] at hrec
            dsimp at hrec
            try dsimp only
            try rw [h3]
            try dsimp only
            rw [octetLen_pair c d t ⟨h2.1, by omega⟩]
            omega
        · by_cases h4 : c < 0xd800 ∨ 0xe000 ≤ c
          · unfold wfUTF16 at hwf
            rw [if_pos h4, Bool.and_eq_true] at hwf
            have hwfr : wfUTF16 rest = true := hwf.2
            rw [if_neg h2]
            rcases h3 : chunkSplit budget (octets + charOctets c) rest with ⟨t, r⟩
            have hrec := ih rest (by simp at hl ⊢; omega) hwfr budget
              (octets + charOctets c) (by omega)
            rw [h3] at hrec
            dsimp at hrec
            try dsimp only
            try rw [h3]
            try dsimp only
            rw [octetLen_cons c t h4]
            omega
          · unfold wfUTF16 at hwf
            rw [if_neg h4, if_neg (by omega)] at hwf
            simp at hwf

theorem chunkSplit_wf_n : ∀ n : Nat, ∀ l : U16Str, l.length ≤ n →
    wfUTF16 l = true → ∀ budget octets : Nat,
    wfUTF16 (chunkSplit budget octets l).1 = true ∧
    wfUTF16 (chunkSplit budget octets l).2 = true := by
  intro n
  induction n with
  | zero =>
    intro l hl hwf budget octets
    have h0 : l = [] := List.length_eq_zero.mp (Nat.le_zero.mp hl)
    subst h0
    exact ⟨rfl, rfl⟩
  | succ n ih =>
    intro l hl hwf budget octets
    cases l with
    | nil => exact ⟨rfl, rfl⟩
    | cons c rest =>
      unfold chunkSplit
      dsimp only
      by_cases h1 : octets + charOctets c > budget
      · rw [if_pos h1]
        exact ⟨rfl, hwf⟩
      · rw [if_neg h1]
        by_cases h2 : 0xd800 ≤ c ∧ c < 0xdc00
        · have hnf : ¬(c < 0xd800 ∨ 0xe000 ≤ c) := by omega
          have hwf0 := hwf
          unfold wfUTF16 at hwf0
          rw [if_neg hnf, if_pos h2.2] at hwf0
          rw [if_pos h2]
          cases rest with
          | nil => simp at hwf0
          | cons d rest2 =>
            rw [Bool.and_eq_true] at hwf0
            rcases hwf0 with ⟨hd, hwf2⟩
            rcases h3 : chunkSplit budget (octets + charOctets c) rest2 with ⟨t, r⟩
            have hrec := ih rest2 (by simp at hl ⊢; omega) hwf2 budget
              (octets + charOctets c)
            rw [h3] at hrec
            dsimp at hrec
            try dsimp only
            try rw [h3]
            try dsimp only
            refine ⟨?_, hrec.2⟩
            show wfUTF16 (c :: d :: t) = true
            unfold wfUTF16
            rw [if_neg hnf, if_pos h2.2]
            rw [Bool.and_eq_true]
            exact ⟨hd, hrec.1⟩
        · by_cases h4 : c < 0xd800 ∨ 0xe000 ≤ c
          · have hwf0 := hwf
            unfold wfUTF16 at hwf0
            rw [if_pos h4, Bool.and_eq_true] at hwf0
            rcases hwf0 with ⟨hc, hwfr⟩
            rw [if_neg h2]
            rcases h3 : chunkSplit budget (octets + charOctets c) rest with ⟨t, r⟩
            have hrec := ih rest (by simp at hl ⊢; omega) hwfr budget
              (octets + charOctets c)
            rw [h3] at hrec
            dsimp at hrec
            try dsimp only
            try rw [h3]
            try dsimp only
            refine ⟨?_, hrec.2⟩
            show wfUTF16 (c :: t) = true
            unfold wfUTF16
            rw [if_pos h4, Bool.and_eq_true]
            exact ⟨hc, hrec.1⟩
          · have hwf0 := hwf
            unfold wfUTF16 at hwf0
            rw [if_neg h4, if_neg (by omega)] at hwf0
            simp at hwf0

theorem chunkSplit_ne_nil (budget : Nat) (hb : 4 ≤ budget) (l : U16Str)
    (hl : l ≠ []) : (chunkSplit budget 0 l).1 ≠ [] := by
  cases l with
  | nil => exact absurd rfl hl
  | cons c rest =>
    unfold chunkSplit
    dsimp only
    have hw := charOctets_le c
    rw [if_neg (by omega)]
    by_cases h2 : 0xd800 ≤ c ∧ c < 0xdc00
    · rw [if_pos h2]
      cases rest with
      | nil => simp
      | cons d rest2 =>
        rcases h3 : chunkSplit budget (0 + charOctets c) rest2 with ⟨t, r⟩
        simp
    · rw [if_neg h2]
      rcases h3 : chunkSplit budget (0 + charOctets c) rest with ⟨t, r⟩
      simp

theorem foldGo_false_chunks : ∀ fuel : Nat, ∀ l : U16Str, wfUTF16 l = true →
    ∀ ch ∈ foldGo fuel false l,
    ∃ p, ch = 32 :: p ∧ octetLen p ≤ 74 ∧ wfUTF16 p = true := by
  intro fuel
  induction fuel with
  | zero => intro l _ ch hch; simp [foldGo] at hch
  | succ fuel ih =>
    intro l hwf ch hch
    cases l with
    | nil => simp [foldGo] at hch
    | cons c rest =>
      unfold foldGo at hch
      have h74 : (if (false : Bool) = true then 75 else 74) = 74 := rfl
      have h32 : (if (false : Bool) = true then ([] : U16Str) else [32]) = [32] := rfl
      rw [h74, h32] at hch
      rcases h3 : chunkSplit 74 0 (c :: rest) with ⟨t, r⟩
      rw [h3] at hch
      dsimp only at hch
      by_cases he : t.isEmpty
      · rw [if_pos he] at hch
        simp at hch
      · rw [if_neg he] at hch
        have hsplit := chunkSplit_wf_n (c :: rest).length (c :: rest) le_rfl hwf 74 0
        rw [h3] at hsplit
        dsimp at hsplit
        have hoct := chunkSplit_octets_n (c :: rest).length (c :: rest) le_rfl hwf 74 0
          (by omega)
        rw [h3] at hoct
        dsimp at hoct
        rcases List.mem_cons.mp hch with rfl | hch2
        · exact ⟨t, rfl, by omega, hsplit.1⟩
        · exact ih r hsplit.2 ch hch2

theorem foldGo_false_concat : ∀ fuel : Nat, ∀ l : U16Str, l.length < fuel →
    ((foldGo fuel false l).map List.tail).flatten = l := by
  intro fuel
  induction fuel with
  | zero => intro l hl; omega
  | succ fuel ih =>
    intro l hl
    cases l with
    | nil => rfl
    | cons c rest =>
      unfold foldGo
      have h74 : (if (false : Bool) = true then 75 else 74) = 74 := rfl
      have h32 : (if (false : Bool) = true then ([] : U16Str) else [32]) = [32] := rfl
      rw [h74, h32]
      rcases h3 : chunkSplit 74 0 (c :: rest) with ⟨t, r⟩
      dsimp only
      have htne : t ≠ [] := by
        have h5 := chunkSplit_ne_nil 74 (by omega) (c :: rest) (by simp)
        rw [h3] at h5
        exact h5
      rw [if_neg (by simpa using htne)]
      have happ := chunkSplit_append 74 0 (c :: rest)
      rw [h3] at happ
      dsimp at happ
      have hrl : r.length < fuel := by
        have h5 : t.length + r.length = rest.length + 1 := by
          have h6 := congrArg List.length happ
          simpa using h6
        have h6 : 1 ≤ t.length := by
          cases t with
          | nil => exact absurd rfl htne
          | cons a b => simp
        simp at hl
        omega
      show (List.tail ([32] ++ t) :: (foldGo fuel false r).map List.tail).flatten = _
      rw [List.flatten_cons, ih r hrl]
      show t ++ r = c :: rest
      exact happ

theorem foldChunks_cons (line : U16Str) (h : line ≠ []) :
    foldChunks line
      = (chunkSplit 75 0 line).1
          :: foldGo line.length false (chunkSplit 75 0 line).2 := by
  cases line with
  | nil => exact absurd rfl h
  | cons c rest =>
    show foldGo (rest.length + 1 + 1) true (c :: rest) = _
    conv_lhs => unfold foldGo
    dsimp only
    have h75 : (if (true : Bool) = true then 75 else 74) = 75 := rfl
    have h32 : (if (true : Bool) = true then ([] : U16Str) else [32]) = [] := rfl
    try rw [h75]
    try rw [h32]
    rcases h3 : chunkSplit 75 0 (c :: rest) with ⟨t, r⟩
    try rw [h3]
    dsimp only
    have htne : t ≠ [] := by
      have h5 := chunkSplit_ne_nil 75 (by omega) (c :: rest) (by simp)
      rw [h3] at h5
      exact h5
    rw [if_neg (by simpa using htne)]
    simp

theorem foldChunks_concat (line : U16Str) (h : line ≠ []) :
    (chunkSplit 75 0 line).1
      ++ ((foldGo line.length false (chunkSplit 75 0 line).2).map List.tail).flatten
      = line := by
  rcases h3 : chunkSplit 75 0 line with ⟨t, r⟩
  have happ := chunkSplit_append 75 0 line
  rw [h3] at happ
  dsimp at happ
  have htne : t ≠ [] := by
    have h5 := chunkSplit_ne_nil 75 (by omega) line h
    rw [h3] at h5
    exact h5
  have hrl : r.length < line.length := by
    have h5 : t.length + r.length = line.length := by
      have h6 := congrArg List.length happ
      simpa using h6
    have h6 : 1 ≤ t.length := by
      cases t with
      | nil => exact absurd rfl htne
      | cons a b => simp
    omega
  try rw [h3]
  dsimp only
  rw [foldGo_false_concat line.length r hrl]
  exact happ

theorem octetLen_ascii : ∀ l : U16Str, (∀ u ∈ l, u < 128) → octetLen l = l.length := by
  intro l
  induction l with
  | nil => intro _; rfl
  | cons c rest ih =>
    intro h
    have hc : c < 128 := h c (List.mem_cons_self c rest)
    rw [octetLen_cons c rest (Or.inl (by omega))]
    have hw : charOctets c = 1 := by
      unfold charOctets
      rw [if_pos (by omega)]
    rw [hw, ih (fun u hu => h u (List.mem_cons_of_mem c hu)), List.length_cons]
    omega

theorem chunkSplit_ascii : ∀ n : Nat, ∀ l : U16Str, l.length ≤ n →
    (∀ u ∈ l, u < 128) → ∀ budget octets : Nat, octets ≤ budget →
    chunkSplit budget octets l = (l.take (budget - octets), l.drop (budget - octets)) := by
  intro n
  induction n with
  | zero =>
    intro l hl _ budget octets _
    have h0 : l = [] := List.length_eq_zero.mp (Nat.le_zero.mp hl)
    subst h0
    simp [chunkSplit]
  | succ n ih =>
    intro l hl hA budget octets hob
    cases l with
    | nil => simp [chunkSplit]
    | cons c rest =>
      have hc : c < 128 := hA c (List.mem_cons_self c rest)
      have hw : charOctets c = 1 := by
        unfold charOctets
        rw [if_pos (by omega)]
      unfold chunkSplit
      dsimp only
      rw [hw]
      by_cases h1 : octets + 1 > budget
      · rw [if_pos h1]
        have hz : budget - octets = 0 := by omega
        rw [hz]
        simp
      · rw [if_neg h1]
        rw [if_neg (by omega)]
        rw [ih rest (by simp at hl ⊢; omega)
          (fun u hu => hA u (List.mem_cons_of_mem c hu)) budget (octets + 1) (by omega)]
        have hsub : budget - octets = (budget - (octets + 1)) + 1 := by omega
        rw [hsub]
        simp

theorem foldGo_singleton_ascii (fuel : Nat) (u : Nat) (hu : u < 128) :
    foldGo (fuel + 1) false [u] = [[32, u]] := by
  conv_lhs => unfold foldGo
  dsimp only
  have hcs : chunkSplit (if (false : Bool) = true then 75 else 74) 0 [u] = ([u], []) := by
    show chunkSplit 74 0 [u] = ([u], [])
    have := chunkSplit_ascii 1 [u] (by simp) (by
      intro x hx
      rcases List.mem_singleton.mp hx with rfl
      exact hu) 74 0 (by omega)
    simpa using this
  rw [hcs]
  dsimp only
  rw [if_neg (by simp)]
  have h32 : (if (false : Bool) = true then ([] : U16Str) else [32]) = [32] := rfl
  rw [h32]
  show ([32] ++ [u]) :: foldGo fuel false [] = [[32, u]]
  have hnil : foldGo fuel false [] = [] := by
    cases fuel <;> rfl
  rw [hnil]
  rfl

/-- C4 counterexample: a 76-octet line whose last character is three octets
wide.  The greedy whole-character first chunk holds only 73 octets, not the
exactly-75 the claim (and the spec's 76-octet example) demands. -/
theorem fold_76_octet_multibyte_counterexample :
    octetLen (List.replicate 73 65 ++ [8364]) = 76 ∧
    wfUTF16 (List.replicate 73 65 ++ [8364]) = true ∧
    foldChunks (List.replicate 73 65 ++ [8364])
      = [List.replicate 73 65, [32, 8364]] ∧
    octetLen (List.replicate 73 65) = 73 := by
  decide

/-- C4 (amended): lines of at most 75 octets are emitted unfolded; a longer
line is split into whole-character chunks joined by CRLF, the first of at
most (not exactly) 75 octets, each continuation one SPACE plus a payload of
at most 74 octets; the payloads concatenate back to the line and chunking
never splits a surrogate pair; the exactly-75 first chunk and the
76-octets-into-two-chunks behaviour do hold on all-ASCII lines. -/
theorem foldLine_amended :
    (∀ line : U16Str, octetLen line ≤ 75 → foldLine line = line) ∧
    (∀ line : U16Str, ¬ octetLen line ≤ 75 →
      foldLine line = joinCRLF (foldChunks line)) ∧
    (∀ line : U16Str, wfUTF16 line = true →
      octetLen (chunkSplit 75 0 line).1 ≤ 75) ∧
    (∀ line : U16Str, line ≠ [] →
      foldChunks line
        = (chunkSplit 75 0 line).1
            :: foldGo line.length false (chunkSplit 75 0 line).2) ∧
    (∀ (fuel : Nat) (l : U16Str), wfUTF16 l = true →
      ∀ ch ∈ foldGo fuel false l,
        ∃ p, ch = 32 :: p ∧ octetLen p ≤ 74 ∧ wfUTF16 p = true) ∧
    (∀ line : U16Str, line ≠ [] →
      (chunkSplit 75 0 line).1
        ++ ((foldGo line.length false (chunkSplit 75 0 line).2).map List.tail).flatten
        = line) ∧
    (∀ line : U16Str, wfUTF16 line = true →
      wfUTF16 (chunkSplit 75 0 line).1 = true ∧
      wfUTF16 (chunkSplit 75 0 line).2 = true) ∧
    (∀ line : U16Str, (∀ u ∈ line, u < 128) → 75 < octetLen line →
      (chunkSplit 75 0 line).1 = line.take 75 ∧ octetLen (line.take 75) = 75) ∧
    (∀ line : U16Str, (∀ u ∈ line, u < 128) → octetLen line = 76 →
      foldChunks line = [line.take 75, 32 :: line.drop 75]) := by
  have hascii75 : ∀ line : U16Str, (∀ u ∈ line, u < 128) → 75 < octetLen line →
      (chunkSplit 75 0 line).1 = line.take 75 ∧ octetLen (line.take 75) = 75 := by
    intro line hA h75
    rw [octetLen_ascii line hA] at h75
    have hcs := chunkSplit_ascii line.length line le_rfl hA 75 0 (by omega)
    have htk : ∀ u ∈ line.take 75, u < 128 :=
      fun u hu => hA u (List.mem_of_mem_take hu)
    constructor
    · rw [hcs]
    · rw [octetLen_ascii _ htk, List.length_take]
      omega
  refine ⟨?_, ?_, ?_, foldChunks_cons, foldGo_false_chunks, foldChunks_concat,
    ?_, hascii75, ?_⟩
  · intro line h
    unfold foldLine
    rw [if_pos h]
  · intro line h
    unfold foldLine
    rw [if_neg h]
  · intro line hwf
    have := chunkSplit_octets_n line.length line le_rfl hwf 75 0 (by omega)
    omega
  · intro line hwf
    exact chunkSplit_wf_n line.length line le_rfl hwf 75 0
  · intro line hA h76
    have hlen : line.length = 76 := by
      rw [octetLen_ascii line hA] at h76
      exact h76
    have hne : line ≠ [] := by
      intro h0
      rw [h0] at hlen
      simp at hlen
    rw [foldChunks_cons line hne]
    have hcs := chunkSplit_ascii line.length line le_rfl hA 75 0 (by omega)
    have hcs2 : chunkSplit 75 0 line = (line.take 75, line.drop 75) := by
      simpa using hcs
    rw [hcs2]
    dsimp only
    have hd : (line.drop 75).length = 1 := by
      rw [List.length_drop, hlen]
    obtain ⟨u, hu⟩ : ∃ u, line.drop 75 = [u] := by
      cases hdd : line.drop 75 with
      | nil => rw [hdd] at hd; simp at hd
      | cons a t =>
        cases t with
        | nil => exact ⟨a, rfl⟩
        | cons b t2 => rw [hdd] at hd; simp at hd
    rw [hu]
    have hu128 : u < 128 := by
      refine hA u ?_
      have := List.take_append_drop 75 line
      rw [← this]
      refine List.mem_append.mpr (Or.inr ?_)
      rw [hu]
      simp
    obtain ⟨m, hm⟩ : ∃ m, line.length = m + 1 := ⟨75, by omega⟩
    rw [hm, foldGo_singleton_ascii m u hu128]

/-- Witness for the amended folding statement: a 75-octet ASCII line is
unfolded, and a 76-octet ASCII line folds into exactly the two chunks. -/
theorem foldLine_amended_witness :
    foldLine (List.replicate 75 65) = List.replicate 75 65 ∧
    foldChunks (List.replicate 76 65)
      = [(List.replicate 76 65).take 75, 32 :: (List.replicate 76 65).drop 75] :=
  ⟨foldLine_amended.1 _ (by decide),
   foldLine_amended.2.2.2.2.2.2.2.2 _ (by decide) (by decide)⟩

/-- C2: the claim demands `TEXT.parse (TEXT.serialize s) = s` for every
string and a single-pass unescape.  The code unescapes with four sequential
global replaces instead; on the two-character string backslash-`n` the
serializer emits `\\n`, whose second and third characters then re-associate
in the first replace pass, so the round trip returns backslash-newline
instead of the original backslash-`n`. -/
theorem text_roundtrip_fails_on_backslash_n :
    TEXT.serialize ['\\', 'n'] = ['\\', '\\', 'n'] ∧
    TEXT.parse (TEXT.serialize ['\\', 'n']) = ['\\', '\n'] ∧
    TEXT.parse (TEXT.serialize ['\\', 'n']) ≠ ['\\', 'n'] := by
  decide

/-- C1 (amended): restricted to each codec's grammar domain — integer
fields inside their fixed-width slots, positive present duration units, a
non-NaN canonical GEO pair, genuine bytes for BINARY — parsing the
serialization of a structured typed value recovers it exactly, for all
eight structured codecs. -/
theorem codec_roundtrip_on_grammar_domains :
    (∀ v : ICalDate, v.Wf → DATE.parse (DATE.serialize v) = v) ∧
    (∀ v : ICalDateTime, v.Wf →
      DATE_TIME.parse (DATE_TIME.serialize v) (tzidParams v.tzid) = v) ∧
    (∀ v : ICalDuration, v.Wf → DURATION.parse (DURATION.serialize v) = v) ∧
    (∀ v : ICalPeriod, v.Wf → PERIOD.parse (PERIOD.serialize v) = Except.ok v) ∧
    (∀ v : ICalRecur, v.Wf → RECUR.parse (RECUR.serialize v) = Except.ok v) ∧
    (∀ v : ICalGeo, v.Wf → GEO.parse (GEO.serialize v) = v) ∧
    (∀ v : ICalUtcOffset, v.Wf → UTC_OFFSET.parse (UTC_OFFSET.serialize v) = v) ∧
    (∀ v : ICalBinary, v.Wf → BINARY.parse (BINARY.serialize v) = v) :=
  ⟨DATE_roundtrip, DATE_TIME_roundtrip, DURATION_roundtrip, PERIOD_roundtrip,
   RECUR_roundtrip, GEO_roundtrip, UTC_OFFSET_roundtrip, BINARY_roundtrip⟩

/-- Witness for the amended round trip: one concrete in-grammar value per
codec, hypotheses discharged at those inputs. -/
theorem codec_roundtrip_on_grammar_domains_witness :
    DATE.parse (DATE.serialize ⟨some 2024, some 6, some 30⟩)
      = ⟨some 2024, some 6, some 30⟩ ∧
    DATE_TIME.parse
      (DATE_TIME.serialize ⟨some 2024, some 6, some 30, some 12, some 34, some 56,
        false, none⟩) (tzidParams none)
      = ⟨some 2024, some 6, some 30, some 12, some 34, some 56, false, none⟩ ∧
    DURATION.parse (DURATION.serialize ⟨false, none, some (some 1), none, none,
      some (some 30)⟩) = ⟨false, none, some (some 1), none, none, some (some 30)⟩ ∧
    RECUR.parse (RECUR.serialize ⟨RecurFreq.WEEKLY, none, some (some 10), none,
      none, none, none, some [⟨Weekday.MO, none⟩], none, none, none, none, none,
      some Weekday.SU⟩)
      = Except.ok ⟨RecurFreq.WEEKLY, none, some (some 10), none, none, none, none,
          some [⟨Weekday.MO, none⟩], none, none, none, none, none, some Weekday.SU⟩ ∧
    GEO.parse (GEO.serialize ⟨some ⟨false, 37, [5]⟩, some ⟨true, 0, [2, 5]⟩⟩)
      = ⟨some ⟨false, 37, [5]⟩, some ⟨true, 0, [2, 5]⟩⟩ ∧
    UTC_OFFSET.parse (UTC_OFFSET.serialize ⟨js "+", some 5, some 30, none⟩)
      = ⟨js "+", some 5, some 30, none⟩ ∧
    BINARY.parse (BINARY.serialize ⟨[72, 105, 255]⟩) = ⟨[72, 105, 255]⟩ :=
  ⟨codec_roundtrip_on_grammar_domains.1 _
    ⟨⟨2024, by omega, rfl⟩, ⟨6, by omega, rfl⟩, ⟨30, by omega, rfl⟩⟩,
   codec_roundtrip_on_grammar_domains.2.1 _
    ⟨⟨2024, by omega, rfl⟩, ⟨6, by omega, rfl⟩, ⟨30, by omega, rfl⟩,
     ⟨12, by omega, rfl⟩, ⟨34, by omega, rfl⟩, ⟨56, by omega, rfl⟩⟩,
   codec_roundtrip_on_grammar_domains.2.2.1 _
    ⟨Or.inr ⟨1, by omega, rfl⟩, Or.inl rfl, Or.inl rfl, Or.inr ⟨30, by omega, rfl⟩⟩,
   codec_roundtrip_on_grammar_domains.2.2.2.2.1 _
    ⟨trivial, Or.inr ⟨10, rfl⟩, Or.inl rfl, Or.inl rfl, Or.inl rfl, Or.inl rfl,
     Or.inr ⟨[⟨Weekday.MO, none⟩], by decide, by
        intro r hr
        rcases List.mem_singleton.mp hr with rfl
        exact Or.inl rfl, rfl⟩,
     Or.inl rfl, Or.inl rfl, Or.inl rfl, Or.inl rfl, Or.inl rfl⟩,
   codec_roundtrip_on_grammar_domains.2.2.2.2.2.1 _
    ⟨⟨⟨false, 37, [5]⟩, by
        show (∀ x ∈ [5], x < 10) ∧ [5].getLast? ≠ some 0 ∧
          (false = true → ¬(37 = 0 ∧ [5] = []))
        decide, rfl⟩,
     ⟨⟨true, 0, [2, 5]⟩, by
        show (∀ x ∈ [2, 5], x < 10) ∧ [2, 5].getLast? ≠ some 0 ∧
          (true = true → ¬(0 = 0 ∧ [2, 5] = []))
        decide, rfl⟩⟩,
   codec_roundtrip_on_grammar_domains.2.2.2.2.2.2.1 _
    ⟨Or.inl rfl, ⟨5, by omega, rfl⟩, ⟨30, by omega, rfl⟩, Or.inl rfl⟩,
   codec_roundtrip_on_grammar_domains.2.2.2.2.2.2.2 _ (by
      show ∀ b ∈ [72, 105, 255], b < 256
      decide)⟩

/-- C3: the claim (and the spec) demand that an all-absent duration
serializes to the body `P0D`.  The code's `return s || sign+'P0D'` fallback
is dead, because `s` always already contains the `P`, so the all-absent
duration serializes to a bare `P` (resp. `-P`). -/
theorem duration_serialize_empty_body_is_bare_p :
    DURATION.serialize ⟨false, none, none, none, none, none⟩ = js "P" ∧
    DURATION.serialize ⟨true, none, none, none, none, none⟩ = js "-P" ∧
    js "P" ≠ js "P0D" := by
  decide

/-- C1 counterexample: the duration with `days` present and equal to zero is
producible by the codec itself (it is `DURATION.parse "P0D"`), but zero is
falsy in JS so serialization omits the unit, and re-parsing yields the
all-absent duration, which differs from the original value. -/
theorem codec_roundtrip_fails_on_zero_day_duration :
    DURATION.parse (js "P0D") = ⟨false, none, some (some 0), none, none, none⟩ ∧
    DURATION.serialize ⟨false, none, some (some 0), none, none, none⟩ = js "P" ∧
    DURATION.parse (DURATION.serialize ⟨false, none, some (some 0), none, none, none⟩) =
      ⟨false, none, none, none, none, none⟩ ∧
    (⟨false, none, some (some 0), none, none, none⟩ : ICalDuration) ≠
      ⟨false, none, none, none, none, none⟩ := by
  decide

/-- Shape of every successful tryParseValue result: the stored name is the
uppercased property name, the parameters pass through untouched, and the
raw value string is kept verbatim. -/
theorem tryParseValue_ok_shape (name raw : JSStr) (params : PMap) (p : Property)
    (h : tryParseValue name raw params = Except.ok p) :
    p.name = jsUpper name ∧ p.params = params ∧ p.rawValue = raw := by
  unfold tryParseValue at h
  dsimp only at h
  by_cases h1 : resolveValueType name params = js "GEO"
  · rw [if_pos h1] at h
    injection h with h2
    subst h2
    exact ⟨rfl, rfl, rfl⟩
  · rw [if_neg h1] at h
    by_cases h2 : (match getPropertyDef name with
      | some d => d.multi
      | none => false) = true
    · rw [if_pos h2] at h
      cases hm : (splitMultiValue raw).mapM
          (fun p2 => codecParse (resolveValueType name params) p2 params) with
      | error e =>
        rw [hm] at h
        simp [Except.map] at h
      | ok vals =>
        rw [hm] at h
        have h3 : Except.ok (Property.make name (PropValue.list vals) params raw)
            = Except.ok p := h
        injection h3 with h4
        subst h4
        exact ⟨rfl, rfl, rfl⟩
    · rw [if_neg h2] at h
      cases hm : codecParse (resolveValueType name params) raw params with
      | error e =>
        rw [hm] at h
        simp [Except.map] at h
      | ok v =>
        rw [hm] at h
        have h3 : Except.ok (Property.make name (PropValue.single v) params raw)
            = Except.ok p := h
        injection h3 with h4
        subst h4
        exact ⟨rfl, rfl, rfl⟩

/-- C10: parseProperty is total and never loses the raw string — whatever
the codecs do, the returned Property carries the untouched raw value, and
whenever the try-block fails (RECUR's invalid-frequency failure included)
the fallback stores that raw string as the property's value. -/
theorem parseProperty_total_fallback :
    ∀ (name raw : JSStr) (params : PMap),
      (parseProperty name raw params).rawValue = raw ∧
      (∀ e, tryParseValue name raw params = Except.error e →
        parseProperty name raw params
          = Property.make name (PropValue.single (ICalValue.str raw)) params raw) := by
  intro name raw params
  constructor
  · unfold parseProperty
    cases h : tryParseValue name raw params with
    | ok p =>
      dsimp only
      exact (tryParseValue_ok_shape name raw params p h).2.2
    | error e => rfl
  · intro e he
    unfold parseProperty
    rw [he]

/-- Witness for C10 at the RECUR hard-failure input: the catch-all stores
the untouched raw string. -/
theorem parseProperty_total_fallback_witness :
    (parseProperty (js "RRULE") (js "FREQ=NOPE") []).rawValue = js "FREQ=NOPE" ∧
    parseProperty (js "RRULE") (js "FREQ=NOPE") []
      = Property.make (js "RRULE")
          (PropValue.single (ICalValue.str (js "FREQ=NOPE"))) [] (js "FREQ=NOPE") :=
  ⟨(parseProperty_total_fallback (js "RRULE") (js "FREQ=NOPE") []).1,
   (parseProperty_total_fallback (js "RRULE") (js "FREQ=NOPE") []).2
     (String.mk (js "Invalid FREQ in RRULE: NOPE")) (by rfl)⟩

/-- C5 counterexample: an unrecognized FREQ is a typed RECUR.parse failure,
but the Property Engine recovers it — the failure never reaches the caller
of the document parse, contradicting the claimed exception. -/
theorem rrule_invalid_freq_recovered :
    RECUR.parse (js "FREQ=BOGUS")
      = Except.error (String.mk (js "Invalid FREQ in RRULE: BOGUS")) ∧
    parseProperty (js "RRULE") (js "FREQ=BOGUS") []
      = Property.make (js "RRULE")
          (PropValue.single (ICalValue.str (js "FREQ=BOGUS"))) [] (js "FREQ=BOGUS") := by
  exact ⟨rfl, rfl⟩

/-- C5 (amended): an unrecognized frequency is indeed the one hard, typed
codec failure — but it is recovered by parseProperty's catch-all exactly
like every other codec failure, falling back to the untouched raw string;
it does not propagate to the document parse's caller. -/
theorem rrule_freq_failure_amended :
    (∀ raw : JSStr,
      freqOfChars? (jsUpper ((smGet (buildKVMap (splitOnCh ';' (jsTrim raw)))
          (js "FREQ")).getD [])) = none →
      ∃ e, RECUR.parse raw = Except.error e) ∧
    (∀ (raw : JSStr) (e : String), RECUR.parse raw = Except.error e →
      parseProperty (js "RRULE") raw []
        = Property.make (js "RRULE") (PropValue.single (ICalValue.str raw)) [] raw) := by
  constructor
  · intro raw h
    unfold RECUR.parse
    dsimp only
    rw [h]
    exact ⟨_, rfl⟩
  · intro raw e he
    have hrt : resolveValueType (js "RRULE") ([] : PMap) = js "RECUR" := by decide
    have hcp : codecParse (js "RECUR") raw [] = (RECUR.parse raw).map ICalValue.recur := by
      unfold codecParse
      rw [if_neg (by decide), if_neg (by decide), if_neg (by decide),
        if_neg (by decide), if_neg (by decide), if_neg (by decide),
        if_neg (by decide), if_neg (by decide), if_neg (by decide),
        if_neg (by decide), if_neg (by decide), if_neg (by decide),
        if_neg (by decide), if_pos rfl]
    have ht : tryParseValue (js "RRULE") raw [] = Except.error e := by
      unfold tryParseValue
      dsimp only
      rw [hrt, if_neg (by decide), if_neg (by decide), hcp, he]
      rfl
    unfold parseProperty
    rw [ht]

/-- Witness for the amended C5 statement at a concrete bogus frequency. -/
theorem rrule_freq_failure_amended_witness :
    (∃ e, RECUR.parse (js "FREQ=XDAILY") = Except.error e) ∧
    parseProperty (js "RRULE") (js "FREQ=XDAILY") []
      = Property.make (js "RRULE")
          (PropValue.single (ICalValue.str (js "FREQ=XDAILY"))) [] (js "FREQ=XDAILY") :=
  ⟨rrule_freq_failure_amended.1 (js "FREQ=XDAILY") (by decide),
   rrule_freq_failure_amended.2 (js "FREQ=XDAILY")
     (String.mk (js "Invalid FREQ in RRULE: XDAILY")) (by rfl)⟩

/-- C6 counterexample: an input yielding zero tokens does not make parse
throw — the empty input tokenizes to nothing and parse synthesizes an empty
VCALENDAR wrapper. -/
theorem parse_empty_input_returns_calendar :
    tokenize (js "") = [] ∧
    parse (js "")
      = { type := js "VCALENDAR", props := [], index := [], components := [] } := by
  exact ⟨rfl, rfl⟩

/-- C6 (amended): parse is total.  It returns the component built from the
first top-level VCALENDAR node when the token stream yields one, and
otherwise — including on a stream of zero tokens — synthesizes a VCALENDAR
wrapper around the loose roots; no input makes it throw. -/
theorem parse_first_or_synthesized :
    ∀ src : JSStr,
      (∀ n, (buildTree src).find? (fun n2 => n2.type == js "VCALENDAR") = some n →
        parse src = buildComponent n) ∧
      ((buildTree src).find? (fun n2 => n2.type == js "VCALENDAR") = none →
        parse src
          = { Component.create (js "VCALENDAR") with
              components := buildComponentList (buildTree src) }) := by
  intro src
  constructor
  · intro n hn
    unfold parse
    dsimp only
    rw [hn]
  · intro hn
    unfold parse
    dsimp only
    rw [hn]

/-- Witness for the amended C6 statement: loose content without any
VCALENDAR wrapper is wrapped in a synthesized one. -/
theorem parse_first_or_synthesized_witness :
    parse (js "X:y")
      = { Component.create (js "VCALENDAR") with
          components := buildComponentList (buildTree (js "X:y")) } :=
  (parse_first_or_synthesized (js "X:y")).2 (by rfl)

/-- C7: setProperty is documented (and claimed) to remove ALL existing
properties of the name, but `findIndex` + `splice(idx, 1)` erases only the
FIRST from the ordered list: with two X properties stored, setting X leaves
the stale second one in the serialization order, and even the absent-value
form leaves it behind while deleting the whole index entry. -/
theorem setProperty_keeps_second_duplicate :
    (Component.setProperty
      (Component.addProperty
        (Component.addProperty (Component.create (js "V"))
          (Property.make (js "X") (PropValue.single (ICalValue.str (js "a"))) []
            (js "a")))
        (Property.make (js "X") (PropValue.single (ICalValue.str (js "b"))) []
          (js "b")))
      (js "X") (some (PropValue.single (ICalValue.str (js "c")))) []).props
      = [Property.make (js "X") (PropValue.single (ICalValue.str (js "c"))) [] [],
         Property.make (js "X") (PropValue.single (ICalValue.str (js "b"))) []
           (js "b")] ∧
    (Component.setProperty
      (Component.addProperty
        (Component.addProperty (Component.create (js "V"))
          (Property.make (js "X") (PropValue.single (ICalValue.str (js "a"))) []
            (js "a")))
        (Property.make (js "X") (PropValue.single (ICalValue.str (js "b"))) []
          (js "b")))
      (js "X") none []).props
      = [Property.make (js "X") (PropValue.single (ICalValue.str (js "b"))) []
          (js "b")] := by
  exact ⟨rfl, rfl⟩

/-- C9: the name-index / ordered-list invariant breaks after setProperty:
removing Y by setting it absent deletes the whole index entry but erases
only the first Y from the ordered list, so getProperties returns nothing
while the list still holds (and toString would emit) the stale second Y. -/
theorem index_vs_props_divergence :
    Component.getProperties
      (Component.setProperty
        (Component.addProperty
          (Component.addProperty (Component.create (js "V"))
            (Property.make (js "Y") (PropValue.single (ICalValue.str (js "a"))) []
              (js "a")))
          (Property.make (js "Y") (PropValue.single (ICalValue.str (js "b"))) []
            (js "b")))
        (js "Y") none []) (js "Y")
      = [] ∧
    (Component.setProperty
      (Component.addProperty
        (Component.addProperty (Component.create (js "V"))
          (Property.make (js "Y") (PropValue.single (ICalValue.str (js "a"))) []
            (js "a")))
        (Property.make (js "Y") (PropValue.single (ICalValue.str (js "b"))) []
          (js "b")))
      (js "Y") none []).props.filter (fun p => p.name == js "Y")
      = [Property.make (js "Y") (PropValue.single (ICalValue.str (js "b"))) []
          (js "b")] := by
  exact ⟨rfl, rfl⟩

-- ═══ Lemmas: parameter maps ══════════════════════════════════════════════

theorem pmGet_append (A B : PMap) (k : JSStr) :
    pmGet (A ++ B) k = (pmGet A k).or (pmGet B k) := by
  unfold pmGet
  rw [List.find?_append]
  cases List.find? (fun e => e.1 == k) A with
  | none => rfl
  | some e => rfl

theorem pmGet_singleton (k q : JSStr) (v : PVal) :
    pmGet [(k, v)] q = if k = q then some v else none := by
  unfold pmGet
  by_cases h : k = q
  · subst h
    simp
  · have hb : (k == q) = false := by simp [h]
    simp [List.find?, hb, h]

theorem pmGet_cons (e : JSStr × PVal) (rest : PMap) (q : JSStr) :
    pmGet (e :: rest) q = if (e.1 == q) = true then some e.2 else pmGet rest q := by
  unfold pmGet
  cases h : (e.1 == q) with
  | true => simp [List.find?, h]
  | false => simp [List.find?, h]

theorem pmGet_map_ne (m : PMap) (k q : JSStr) (v : PVal) (hq : k ≠ q) :
    pmGet (m.map (fun e => if e.1 == k then (e.1, v) else e)) q = pmGet m q := by
  induction m with
  | nil => rfl
  | cons e rest ih =>
    rw [List.map_cons]
    by_cases hek : (e.1 == k) = true
    · rw [if_pos hek]
      rw [pmGet_cons, pmGet_cons]
      by_cases heq : (e.1 == q) = true
      · have h1 : e.1 = k := by simpa using hek
        have h2 : e.1 = q := by simpa using heq
        exact absurd (h1 ▸ h2) hq
      · rw [if_neg (by simpa using heq), if_neg heq, ih]
    · rw [if_neg hek]
      rw [pmGet_cons, pmGet_cons]
      by_cases heq : (e.1 == q) = true
      · rw [if_pos heq, if_pos heq]
      · rw [if_neg heq, if_neg heq, ih]

theorem pmGet_replace_eq (m : PMap) (k : JSStr) (v : PVal)
    (hk : (m.find? (fun e => e.1 == k)).isSome = true) :
    pmGet (m.map (fun e => if e.1 == k then (e.1, v) else e)) k = some v := by
  induction m with
  | nil => simp at hk
  | cons e rest ih =>
    rw [List.map_cons]
    by_cases hek : (e.1 == k) = true
    · rw [if_pos hek, pmGet_cons, if_pos hek]
    · rw [if_neg hek, pmGet_cons, if_neg hek]
      apply ih
      simp only [List.find?, hek] at hk
      exact hk

theorem pmGet_pmSet (m : PMap) (k : JSStr) (v : PVal) (q : JSStr) :
    pmGet (pmSet m k v) q = if k = q then some v else pmGet m q := by
  unfold pmSet
  by_cases hs : (m.find? (fun e => e.1 == k)).isSome = true
  · rw [if_pos hs]
    by_cases hq : k = q
    · subst hq
      rw [if_pos rfl]
      exact pmGet_replace_eq m k v hs
    · rw [if_neg hq]
      exact pmGet_map_ne m k q v hq
  · rw [if_neg hs]
    rw [pmGet_append, pmGet_singleton]
    by_cases hq : k = q
    · subst hq
      have hnone : pmGet m k = none := by
        unfold pmGet
        cases hf : m.find? (fun e => e.1 == k) with
        | none => rfl
        | some e => rw [hf] at hs; simp at hs
      rw [hnone]
      simp
    · rw [if_neg hq, if_neg hq]
      cases pmGet m q with
      | none => rfl
      | some x => rfl

theorem parseParamsLoop_no_singleton : ∀ (fuel : Nat) (s : JSStr) (acc : PMap),
    (∀ k vs, pmGet acc k = some (PVal.list vs) → vs.length ≠ 1) →
    ∀ k vs, pmGet (parseParamsLoop fuel s acc).1 k = some (PVal.list vs) →
      vs.length ≠ 1 := by
  intro fuel
  induction fuel with
  | zero => intro s acc hacc k vs h; exact hacc k vs h
  | succ fuel ih =>
    intro s acc hacc k vs h
    unfold parseParamsLoop at h
    by_cases h1 : s.head? = some ';'
    · rw [if_pos h1] at h
      dsimp only at h
      revert h
      apply ih
      intro k2 vs2 h2
      by_cases h3 : (jsUpper (jsTrim (s.tail.takeWhile
          (fun c => c ≠ '=' ∧ c ≠ ';' ∧ c ≠ ':')))).isEmpty
      · rw [if_pos h3] at h2
        exact hacc k2 vs2 h2
      · rw [if_neg h3] at h2
        rw [pmGet_pmSet] at h2
        by_cases h4 : jsUpper (jsTrim (s.tail.takeWhile
            (fun c => c ≠ '=' ∧ c ≠ ';' ∧ c ≠ ':'))) = k2
        · rw [if_pos h4] at h2
          by_cases h5 : (if (s.tail.drop (s.tail.takeWhile
                (fun c => c ≠ '=' ∧ c ≠ ';' ∧ c ≠ ':')).length).head? = some '=' then
              parseParamValues ((s.tail.drop (s.tail.takeWhile
                (fun c => c ≠ '=' ∧ c ≠ ';' ∧ c ≠ ':')).length).tail.length + 1)
                (s.tail.drop (s.tail.takeWhile
                  (fun c => c ≠ '=' ∧ c ≠ ';' ∧ c ≠ ':')).length).tail
            else ([], s.tail.drop (s.tail.takeWhile
              (fun c => c ≠ '=' ∧ c ≠ ';' ∧ c ≠ ':')).length)).1.length = 1
          · rw [if_pos h5] at h2
            simp at h2
          · rw [if_neg h5] at h2
            injection h2 with h6
            injection h6 with h7
            subst h7
            exact h5
        · rw [if_neg h4] at h2
          exact hacc k2 vs2 h2
    · rw [if_neg h1] at h
      exact hacc k vs h

theorem parseContentLine_no_singleton_list (line : JSStr) (cl : ContentLine)
    (h : parseContentLine line = some cl) :
    ∀ k vs, pmGet cl.params k = some (PVal.list vs) → vs.length ≠ 1 := by
  unfold parseContentLine at h
  split at h
  · simp at h
  · dsimp only at h
    split at h
    · simp at h
    · rcases hp : parseParamsLoop
          ((line.drop (line.takeWhile (fun c => c ≠ ':' ∧ c ≠ ';')).length).length + 1)
          (line.drop (line.takeWhile (fun c => c ≠ ':' ∧ c ≠ ';')).length) [] with
        ⟨params, rest1⟩
      rw [hp] at h
      dsimp only at h
      injection h with h3
      subst h3
      dsimp only
      intro k vs hg
      have h9 := parseParamsLoop_no_singleton
        ((line.drop (line.takeWhile (fun c => c ≠ ':' ∧ c ≠ ';')).length).length + 1)
        (line.drop (line.takeWhile (fun c => c ≠ ':' ∧ c ≠ ';')).length) []
        (by intro k2 vs2 hx; simp [pmGet] at hx) k vs
      rw [hp] at h9
      exact h9 hg

theorem pmGet_mem {m : PMap} {k : JSStr} {pv : PVal} (h : pmGet m k = some pv) :
    ∃ kk, (kk, pv) ∈ m := by
  unfold pmGet at h
  cases hf : m.find? (fun e => e.1 == k) with
  | none => rw [hf] at h; simp at h
  | some e =>
    rw [hf] at h
    simp at h
    refine ⟨e.1, ?_⟩
    have hm : e ∈ m := List.mem_of_find?_eq_some hf
    have he : (e.1, pv) = e := by
      rw [← h]
    rw [he]
    exact hm

theorem smToPMap_scalar (m : SMap) (k : JSStr) (pv : PVal)
    (h : pmGet (smToPMap m) k = some pv) : ∃ s, pv = PVal.str s := by
  rcases pmGet_mem h with ⟨kk, hmem⟩
  unfold smToPMap at hmem
  rcases List.mem_map.mp hmem with ⟨e, _, he⟩
  have h2 : pv = PVal.str e.2 := by
    have h3 : (e.1, PVal.str e.2) = (kk, pv) := he
    injection h3 with h4 h5
    exact h5.symm
  exact ⟨e.2, h2⟩

theorem buildComponent_props_mem :
    ∀ (rprops : List RawProp) (base : Component) (p : Property),
      p ∈ (rprops.foldl (fun c rp =>
            c.addProperty (parseProperty rp.name rp.value (smToPMap rp.params)))
          base).props →
      p ∈ base.props ∨
        ∃ rp ∈ rprops, p = parseProperty rp.name rp.value (smToPMap rp.params) := by
  intro rprops
  induction rprops with
  | nil => intro base p hp; exact Or.inl hp
  | cons rp rest ih =>
    intro base p hp
    rw [List.foldl_cons] at hp
    rcases ih _ p hp with h1 | ⟨rp2, hrp2, he⟩
    · unfold Component.addProperty at h1
      dsimp at h1
      rcases List.mem_append.mp h1 with h2 | h3
      · exact Or.inl h2
      · rcases List.mem_singleton.mp h3 with rfl
        exact Or.inr ⟨rp, List.mem_cons_self rp rest, rfl⟩
    · exact Or.inr ⟨rp2, List.mem_cons_of_mem rp hrp2, he⟩

theorem parseProperty_params (name raw : JSStr) (params : PMap) :
    (parseProperty name raw params).params = params := by
  unfold parseProperty
  cases h : tryParseValue name raw params with
  | ok p =>
    dsimp only
    exact (tryParseValue_ok_shape name raw params p h).2.1
  | error e => rfl

/-- C8 counterexample: the tokenizer does store a two-valued parameter as a
list and a single value as a bare string, but buildTree flattens every list
into a comma-joined bare string before the Property layer ever sees it —
the list-vs-scalar distinction is not preserved downstream. -/
theorem param_list_flattened_in_tree :
    parseContentLine (js "ATTENDEE;MEMBER=a,b:v")
      = some { name := js "ATTENDEE",
               params := [(js "MEMBER", PVal.list [js "a", js "b"])],
               value := js "v" } ∧
    normalizeParams [(js "MEMBER", PVal.list [js "a", js "b"])]
      = [(js "MEMBER", js "a,b")] ∧
    smToPMap [(js "MEMBER", js "a,b")] = [(js "MEMBER", PVal.str (js "a,b"))] ∧
    PVal.str (js "a,b") ≠ PVal.list [js "a", js "b"] ∧
    buildTree (js "BEGIN:VEVENT\nATTENDEE;MEMBER=a,b:v\nEND:VEVENT")
      = [RawNode.mk (js "VEVENT")
          [{ name := js "ATTENDEE", params := [(js "MEMBER", js "a,b")],
             value := js "v" }] []] := by
  refine ⟨by decide, by decide, by decide, by decide, ?_⟩
  rfl

/-- C8 (amended): the tokenizer keeps the claimed distinction — a parsed
content line never stores a one-element list, singles are bare strings —
but buildTree's normalization flattens every parameter to a plain string,
so every property of a built component carries only scalar parameters and
downstream serialization never sees a parsed list. -/
theorem param_list_scalar_amended :
    (∀ (line : JSStr) (cl : ContentLine), parseContentLine line = some cl →
      ∀ k vs, pmGet cl.params k = some (PVal.list vs) → vs.length ≠ 1) ∧
    (∀ (m : SMap) (k : JSStr) (pv : PVal),
      pmGet (smToPMap m) k = some pv → ∃ s, pv = PVal.str s) ∧
    (∀ (node : RawNode), ∀ p ∈ (buildComponent node).props,
      ∀ (k : JSStr) (pv : PVal), pmGet p.params k = some pv →
        ∃ s, pv = PVal.str s) := by
  refine ⟨parseContentLine_no_singleton_list, smToPMap_scalar, ?_⟩
  intro node p hp k pv hg
  obtain ⟨ty, rprops, children⟩ := node
  unfold buildComponent at hp
  dsimp only at hp
  rcases buildComponent_props_mem rprops (Component.create ty) p hp with h1 | ⟨rp, _, rfl⟩
  · simp [Component.create] at h1
  · rw [parseProperty_params] at hg
    exact smToPMap_scalar _ k pv hg

/-- Witness for the amended C8 statement at the flattened MEMBER parameter
and at a parsed two-valued line. -/
theorem param_list_scalar_amended_witness :
    (js "a" :: [js "b"]).length ≠ 1 ∧
    (∃ s, PVal.str (js "a,b") = PVal.str s) :=
  ⟨param_list_scalar_amended.1 (js "A;M=a,b:v")
      { name := js "A", params := [(js "M", PVal.list [js "a", js "b"])],
        value := js "v" } (by decide) (js "M") (js "a" :: [js "b"]) (by decide),
   param_list_scalar_amended.2.1 [(js "MEMBER", js "a,b")] (js "MEMBER")
     (PVal.str (js "a,b")) (by decide)⟩

end ICal
